import Mathlib

/-! # wikimedia: request paths, transport results and error normalisation

A shallow embedding of the Go packages `adapter` (core.go), `pages`
(client.go, get_page.go, get_media.go) and `wikimedia` (client.go).

* Go strings are byte sequences and are modelled as lists of byte values.
* The functions `path.Join` and `url.JoinPath`, which decide the request path,
  are embedded from the Go standard library.
* `url.Parse` and `json.Unmarshal` are parameters of the repository code (`Lib`);
  a reference instance (`refLib`) evaluates the closed statements.
* A Go function returning `(T, error)` returns `Except GoError T` here.
* A callback `func(*http.Request)` may change the request and the state it
  closes over, so `Resolve` threads that state.
-/

/-! # Part I: the embedding -/

set_option autoImplicit false

namespace Wikimedia

/-! ## Go strings -/

/-- A Go string: an immutable sequence of bytes. -/
abbrev Bytes := List Nat

/-- The bytes of an ASCII literal. -/
def b (s : String) : Bytes := s.data.map Char.toNat

/-- The byte `/`. -/
def slash : Nat := 47

/-- The byte `.`. -/
def dot : Nat := 46

/-- The byte `%`. -/
def percent : Nat := 37

/-- The byte `:`. -/
def colon : Nat := 58

/-! ## package path: Clean and Join -/

/-- The inner loop of the `..` case of `path.Clean`:
`for out.w > dotdot && out.index(out.w) != '/' { out.w-- }`, started at `w`;
the value is the final `out.w`. -/
def backtrack (out : Bytes) (dotdot : Nat) : Nat → Nat
  | 0 => 0
  | w + 1 =>
    if dotdot < w + 1 ∧ out.getD (w + 1) 0 ≠ slash then backtrack out dotdot w else w + 1

/-- The main loop `for r < n { switch ... }` of `path.Clean`.  `rest` is
`path[r:]`, `out` is the written part `buf[:w]` of the lazy buffer, and the
first argument bounds the number of iterations (every iteration consumes at
least one byte of `rest`). -/
def cleanLoop (rooted : Bool) : Nat → Bytes → Bytes → Nat → Bytes
  | 0, _, out, _ => out
  | _ + 1, [], out, _ => out
  | fuel + 1, c :: rest, out, dotdot =>
    if c = slash then
      -- empty path element
      cleanLoop rooted fuel rest out dotdot
    else if c = dot ∧ (rest = [] ∨ rest.head? = some slash) then
      -- . element
      cleanLoop rooted fuel rest out dotdot
    else if c = dot ∧ rest.head? = some dot ∧
        (rest.tail = [] ∨ rest.tail.head? = some slash) then
      -- .. element: remove to last /
      if dotdot < out.length then
        cleanLoop rooted fuel rest.tail (out.take (backtrack out dotdot (out.length - 1))) dotdot
      else if !rooted then
        let out1 := (if 0 < out.length then out ++ [slash] else out) ++ [dot, dot]
        cleanLoop rooted fuel rest.tail out1 out1.length
      else
        cleanLoop rooted fuel rest.tail out dotdot
    else
      -- real path element: add slash if needed, then copy the element
      let out1 :=
        if (rooted ∧ out.length ≠ 1) ∨ (¬ rooted ∧ out.length ≠ 0) then out ++ [slash] else out
      cleanLoop rooted fuel ((c :: rest).dropWhile (fun x => x != slash))
        (out1 ++ (c :: rest).takeWhile (fun x => x != slash)) dotdot

/-- Go `path.Clean`. -/
def Clean (path : Bytes) : Bytes :=
  if path = [] then [dot]
  else
    let rooted := path.head? = some slash
    let out := cleanLoop rooted path.length (if rooted then path.tail else path)
      (if rooted then [slash] else []) (if rooted then 1 else 0)
    if out.length = 0 then [dot] else out

/-- The loop of `path.Join` that appends the elements to `buf`. -/
def joinLoop : List Bytes → Bytes → Bytes
  | [], buf => buf
  | e :: es, buf =>
    if 0 < buf.length ∨ e ≠ [] then
      joinLoop es ((if 0 < buf.length then buf ++ [slash] else buf) ++ e)
    else joinLoop es buf

/-- Go `path.Join`. -/
def Join (elem : List Bytes) : Bytes :=
  if (elem.map List.length).sum = 0 then [] else Clean (joinLoop elem [])

/-! ## Errors

Go `error` values are modelled by their dynamic type: the repository's own
`*MediawikiErr`, the wrapper built by `fmt.Errorf` with `%w`, the failures of
`encoding/json`, and the remaining standard-library errors, which carry no
`Is` or `Unwrap` method of interest here. -/

/-- The struct `adapter.MediawikiErr`.  `MessageTranslations` lists the entries
of the Go map (distinct keys); a Go map has no iteration order of its own. -/
structure MediawikiErr where
  HTTPCode : Int := 0
  HTTPReason : Bytes := []
  MessageTranslations : List (Bytes × Bytes) := []
  deriving DecidableEq, Repr

deriving instance DecidableEq for Except

/-- A failure reported by `json.Unmarshal`, by its dynamic type: a
`*json.SyntaxError`, a `*json.UnmarshalTypeError`, or the error of a
`time.Time` value that does not parse. -/
inductive JsonErr where
  | SyntaxError
  | UnmarshalTypeError
  | TimeError
  deriving DecidableEq, Repr

/-- A non-nil Go `error` value. -/
inductive GoError where
  /-- An `errors.New`-style value of the standard library (`net/url`, `net/http`, `io`). -/
  | plain (msg : String)
  /-- An error returned by `json.Unmarshal`. -/
  | json (e : JsonErr)
  /-- The value `fmt.Errorf(note + ": %w", err)`. -/
  | wrap (note : String) (err : GoError)
  /-- A `*MediawikiErr` (the pointer is not nil). -/
  | mediawiki (x : MediawikiErr)
  deriving DecidableEq, Repr

/-! ## package net/url: escaping, URL.String and JoinPath -/

/-- The escaping modes of `net/url`. -/
inductive encoding where
  | encodePath | encodePathSegment | encodeHost | encodeZone
  | encodeUserPassword | encodeQueryComponent | encodeFragment
  deriving DecidableEq, Repr

open encoding

/-- Go `url.shouldEscape`. -/
def shouldEscape (c : Nat) (mode : encoding) : Bool :=
  -- §2.3 Unreserved characters (alphanum)
  if (97 ≤ c ∧ c ≤ 122) ∨ (65 ≤ c ∧ c ≤ 90) ∨ (48 ≤ c ∧ c ≤ 57) then false
  else if (mode = encodeHost ∨ mode = encodeZone) ∧
      c ∈ b "!$&'()*+,;=:[]<>\"" then false
  else if c ∈ b "-_.~" then false
  else if c ∈ b "$&+,/:;=?@" then
    match mode with
    | encodePath => c = 63
    | encodePathSegment => c = 47 ∨ c = 59 ∨ c = 44 ∨ c = 63
    | encodeUserPassword => c = 64 ∨ c = 47 ∨ c = 63 ∨ c = 58
    | encodeQueryComponent => true
    | encodeFragment => false
    | _ => true
  else if mode = encodeFragment ∧ c ∈ b "!()*" then false
  else true

/-- The digit `"0123456789ABCDEF"[n]`. -/
def upperhex (n : Nat) : Nat := if n < 10 then 48 + n else 55 + n

/-- Go `url.ishex`. -/
def ishex (c : Nat) : Bool :=
  (48 ≤ c ∧ c ≤ 57) ∨ (97 ≤ c ∧ c ≤ 102) ∨ (65 ≤ c ∧ c ≤ 70)

/-- Go `url.unhex`. -/
def unhex (c : Nat) : Nat :=
  if 48 ≤ c ∧ c ≤ 57 then c - 48
  else if 97 ≤ c ∧ c ≤ 102 then c - 97 + 10
  else if 65 ≤ c ∧ c ≤ 70 then c - 65 + 10
  else 0

/-- Go `url.escape`: a byte that `shouldEscape` selects becomes `%XX` (a space
becomes `+` in query components), every other byte is copied. -/
def escape (s : Bytes) (mode : encoding) : Bytes :=
  s.flatMap fun c =>
    if c = 32 ∧ mode = encodeQueryComponent then [43]
    else if shouldEscape c mode then [percent, upperhex (c / 16 % 16), upperhex (c % 16)]
    else [c]

/-- Go `url.unescape` in the modes `encodePath` and `encodeFragment` (no
host checks, `+` is kept): `none` is the `EscapeError` for a `%` that is not
followed by two hex digits. -/
def unescape : Bytes → Option Bytes
  | [] => some []
  | c :: rest =>
    if c = percent then
      match rest with
      | h1 :: h2 :: rest2 =>
        if ishex h1 ∧ ishex h2 then
          (unescape rest2).map fun t => (unhex h1 * 16 + unhex h2) :: t
        else none
      | _ => none
    else (unescape rest).map fun t => c :: t

/-- Go `url.validEncoded`. -/
def validEncoded (s : Bytes) (mode : encoding) : Bool :=
  s.all fun c =>
    if c ∈ b "!$&'()*+,;=:@" then true
    else if c ∈ b "[]" then true
    else if c = percent then true
    else !shouldEscape c mode

/-- The struct `url.URL`; `User` holds the rendered userinfo (`ui.String()`)
when the field is non-nil. -/
structure URL where
  Scheme : Bytes := []
  Opaque : Bytes := []
  User : Option Bytes := none
  Host : Bytes := []
  Path : Bytes := []
  RawPath : Bytes := []
  OmitHost : Bool := false
  ForceQuery : Bool := false
  RawQuery : Bytes := []
  Fragment : Bytes := []
  RawFragment : Bytes := []
  deriving DecidableEq, Repr

/-- Go `(*URL).setPath`; `none` is the error of `unescape`, in which case the
URL is left unchanged. -/
def URL.setPath (u : URL) (p : Bytes) : Option URL :=
  match unescape p with
  | none => none
  | some path =>
    some { u with Path := path, RawPath := if escape path encodePath = p then [] else p }

/-- Go `(*URL).EscapedPath`. -/
def URL.EscapedPath (u : URL) : Bytes :=
  if u.RawPath ≠ [] ∧ validEncoded u.RawPath encodePath ∧ unescape u.RawPath = some u.Path then
    u.RawPath
  else if u.Path = b "*" then b "*"
  else escape u.Path encodePath

/-- Go `(*URL).EscapedFragment`. -/
def URL.EscapedFragment (u : URL) : Bytes :=
  if u.RawFragment ≠ [] ∧ validEncoded u.RawFragment encodeFragment ∧
      unescape u.RawFragment = some u.Fragment then
    u.RawFragment
  else escape u.Fragment encodeFragment

/-- Go `(*URL).String`. -/
def URL.String (u : URL) : Bytes :=
  let buf0 : Bytes := if u.Scheme ≠ [] then u.Scheme ++ [colon] else []
  let buf1 : Bytes :=
    if u.Opaque ≠ [] then buf0 ++ u.Opaque
    else
      let auth : Bytes :=
        if u.Scheme ≠ [] ∨ u.Host ≠ [] ∨ u.User ≠ none then
          if u.OmitHost ∧ u.Host = [] ∧ u.User = none then []
          else
            (if u.Host ≠ [] ∨ u.Path ≠ [] ∨ u.User ≠ none then [slash, slash] else []) ++
            (match u.User with
              | some ui => ui ++ [64]
              | none => []) ++
            (if u.Host ≠ [] then escape u.Host encodeHost else [])
        else []
      let buf := buf0 ++ auth
      let path := u.EscapedPath
      let buf := if path ≠ [] ∧ path.head? ≠ some slash ∧ u.Host ≠ [] then buf ++ [slash] else buf
      -- RFC 3986 §4.2: a first segment with a colon is preceded by a dot-segment
      let buf :=
        if buf.length = 0 ∧ colon ∈ path.takeWhile (fun x => x != slash) then [dot, slash]
        else buf
      buf ++ path
  let buf2 := if u.ForceQuery ∨ u.RawQuery ≠ [] then buf1 ++ [63] ++ u.RawQuery else buf1
  if u.Fragment ≠ [] then buf2 ++ [35] ++ u.EscapedFragment else buf2

/-- Go `(*URL).joinPath`, the unexported function behind `JoinPath`: the URL
with the elements joined to its path; `none` is the error of `setPath`, which
only a malformed percent escape causes. -/
def URL.joinPath (u : URL) (elem : List Bytes) : Option URL :=
  let relative := u.EscapedPath.head? ≠ some slash
  -- return a relative path if u is relative, but without ../ elements
  let elem := (if relative then slash :: u.EscapedPath else u.EscapedPath) :: elem
  let p := if relative then (Join elem).drop 1 else Join elem
  -- path.Join removes trailing slashes; preserve at least one
  let p :=
    if (elem.getLast?.getD []).getLast? = some slash ∧ p.getLast? ≠ some slash
    then p ++ [slash] else p
  u.setPath p

/-- Go `(*URL).JoinPath`: the result of `joinPath` with the error discarded;
the URL then keeps its old path. -/
def URL.JoinPath (u : URL) (elem : List Bytes) : URL := (u.joinPath elem).getD u

/-- Go `url.JoinPath(base, elem...)`, given the function `url.Parse`; the
error of `joinPath` is returned (an `url.EscapeError`). -/
def JoinPath (parse : Bytes → Except GoError URL) (base : Bytes) (elem : List Bytes) :
    Except GoError Bytes :=
  match parse base with
  | .error err => .error err
  | .ok url =>
    match url.joinPath elem with
    | none => .error (.plain "invalid URL escape")
    | some res => .ok res.String

/-- A byte that `url.Parse` reads as plain path text: an ASCII letter or digit
or one of `-`, `_`, `.`, `~`, `/`. -/
def isPlainPathByte (c : Nat) : Bool :=
  (97 ≤ c ∧ c ≤ 122) ∨ (65 ≤ c ∧ c ≤ 90) ∨ (48 ≤ c ∧ c ≤ 57) ∨ c ∈ b "-_.~/"

/-- Go `url.Parse` on a fragment of its domain: a
string of plain path bytes that does not start with `//` parses to a URL with
that path and nothing else (the empty string to the zero URL).  Every other
reference is outside this fragment and is rejected here. -/
def plainParse (s : Bytes) : Except GoError URL :=
  if s.all isPlainPathByte ∧ ¬ (b "//" <+: s) then .ok { Path := s }
  else .error (.plain "url.Parse: reference outside the modelled fragment")

/-! ## package fmt -/

/-- The verb `%d` on an `int`. -/
def formatInt (i : Int) : Bytes :=
  (if i < 0 then [45] else []) ++ (Nat.toDigits 10 i.natAbs).map Char.toNat

/-! ## package time -/

/-- A `time.Time`, kept as the civil date and clock reading together with the
offset from UTC in seconds.  The zero value is January 1, year 1, 00:00:00 UTC. -/
structure Time where
  year : Nat := 1
  month : Nat := 1
  day : Nat := 1
  hour : Nat := 0
  minute : Nat := 0
  second : Nat := 0
  nanosecond : Nat := 0
  offset : Int := 0
  deriving DecidableEq, Repr

/-- Whether the byte is a decimal digit. -/
def isDigit (c : Nat) : Bool := 48 ≤ c ∧ c ≤ 57

/-- The number written by a non-empty string of decimal digits. -/
def digitsVal (s : Bytes) : Option Nat :=
  if s ≠ [] ∧ s.all isDigit then some (s.foldl (fun acc c => acc * 10 + (c - 48)) 0) else none

/-- The number written by the `n` digits of `s` that start at index `i`. -/
def numAt (s : Bytes) (i n : Nat) : Option Nat :=
  if ((s.drop i).take n).length = n then digitsVal ((s.drop i).take n) else none

/-- The number of days of a month. -/
def daysIn (month year : Nat) : Nat :=
  if month = 2 then (if year % 4 = 0 ∧ (year % 100 ≠ 0 ∨ year % 400 = 0) then 29 else 28)
  else if month = 4 ∨ month = 6 ∨ month = 9 ∨ month = 11 then 30 else 31

/-- The fraction of a second and the zone that follow `2006-01-02T15:04:05`. -/
def parseFractionZone (rest : Bytes) : Option (Nat × Int) :=
  let frac : Option (Nat × Bytes) :=
    if rest.head? = some dot then
      let ds := rest.tail.takeWhile isDigit
      if ds = [] then none
      else
        (digitsVal ((ds ++ List.replicate 9 48).take 9)).map fun n =>
          (n, rest.tail.dropWhile isDigit)
    else some (0, rest)
  match frac with
  | none => none
  | some (nsec, zone) =>
    if zone = b "Z" then some (nsec, 0)
    else if zone.length = 6 ∧ (zone.head? = some 43 ∨ zone.head? = some 45) ∧
        zone.getD 3 0 = colon then
      match numAt zone 1 2, numAt zone 4 2 with
      | some hh, some mm =>
        if hh < 24 ∧ mm < 60 then
          some (nsec, (if zone.head? = some 45 then -1 else 1) * ((hh * 60 + mm) * 60 : Nat))
        else none
      | _, _ => none
    else none

/-- The RFC 3339 reading of a timestamp, as `(*Time).UnmarshalJSON` accepts it. -/
def parseRFC3339 (s : Bytes) : Option Time :=
  if s.getD 4 0 = 45 ∧ s.getD 7 0 = 45 ∧ s.getD 10 0 = 84 ∧ s.getD 13 0 = colon ∧
      s.getD 16 0 = colon then
    match numAt s 0 4, numAt s 5 2, numAt s 8 2, numAt s 11 2, numAt s 14 2, numAt s 17 2,
      parseFractionZone (s.drop 19) with
    | some y, some mo, some d, some h, some mi, some sec, some (nsec, off) =>
      if 1 ≤ mo ∧ mo ≤ 12 ∧ 1 ≤ d ∧ d ≤ daysIn mo y ∧ h < 24 ∧ mi < 60 ∧ sec < 60 then
        some { year := y, month := mo, day := d, hour := h, minute := mi, second := sec,
               nanosecond := nsec, offset := off }
      else none
    | _, _, _, _, _, _, _ => none
  else none

/-- The digits of `n`, padded with zeros on the left to the width `w`. -/
def pad (w n : Nat) : Bytes :=
  let ds := (Nat.toDigits 10 n).map Char.toNat
  List.replicate (w - ds.length) 48 ++ ds

/-- The text `(Time).MarshalJSON` writes between the quotes (layout
`RFC3339Nano`) for a time in UTC or at a whole number of minutes from it;
`none` where `MarshalJSON` fails (a year beyond 9999, a zone offset of 24 hours
or more) or the offset has seconds. -/
def formatRFC3339 (t : Time) : Option Bytes :=
  if t.year ≤ 9999 ∧ t.offset.natAbs % 60 = 0 ∧ t.offset.natAbs < 86400 then
    let frac : Bytes :=
      if t.nanosecond = 0 then []
      else dot :: ((pad 9 t.nanosecond).reverse.dropWhile (fun c => c == 48)).reverse
    let zone : Bytes :=
      if t.offset = 0 then b "Z"
      else (if t.offset < 0 then [45] else [43]) ++ pad 2 (t.offset.natAbs / 3600) ++ [colon] ++
        pad 2 (t.offset.natAbs / 60 % 60)
    some (pad 4 t.year ++ [45] ++ pad 2 t.month ++ [45] ++ pad 2 t.day ++ [84] ++
      pad 2 t.hour ++ [colon] ++ pad 2 t.minute ++ [colon] ++ pad 2 t.second ++ frac ++ zone)
  else none

/-! ## package encoding/json: values and the parser

A reference model of `json.Unmarshal`: the text is first parsed to a value
tree (the scanner of `encoding/json` rejects ill-formed text before anything
is stored), and the tree is then stored into the Go value.  Not modelled: the
replacement of ill-formed UTF-8 inside strings by U+FFFD, the nesting limit of
10000, and key matching beyond ASCII case folding. -/

mutual
/-- A parsed JSON value; a number keeps its literal. -/
inductive JVal where
  | null
  | bool (v : Bool)
  | number (lit : Bytes)
  | string (s : Bytes)
  | array (xs : JArr)
  | object (kvs : JObj)
  deriving DecidableEq, Repr
/-- The elements of a JSON array. -/
inductive JArr where
  | nil
  | cons (x : JVal) (xs : JArr)
  deriving DecidableEq, Repr
/-- The members of a JSON object, in document order. -/
inductive JObj where
  | nil
  | cons (k : Bytes) (v : JVal) (rest : JObj)
  deriving DecidableEq, Repr
end

/-- JSON white space. -/
def isSpace (c : Nat) : Bool := c = 32 ∨ c = 9 ∨ c = 13 ∨ c = 10

/-- The text after leading white space. -/
def skipSpace : Bytes → Bytes
  | [] => []
  | c :: rest => if isSpace c then skipSpace rest else c :: rest

/-- The UTF-8 encoding of a Unicode scalar value. -/
def utf8Encode (r : Nat) : Bytes :=
  if r < 128 then [r]
  else if r < 2048 then [192 + r / 64, 128 + r % 64]
  else if r < 65536 then [224 + r / 4096, 128 + r / 64 % 64, 128 + r % 64]
  else [240 + r / 262144, 128 + r / 4096 % 64, 128 + r / 64 % 64, 128 + r % 64]

/-- The replacement character U+FFFD. -/
def replacementChar : Nat := 65533

/-- The value of four hex digits, as `getu4` reads them. -/
def hex4 (h1 h2 h3 h4 : Nat) : Option Nat :=
  if ishex h1 ∧ ishex h2 ∧ ishex h3 ∧ ishex h4 then
    some (((unhex h1 * 16 + unhex h2) * 16 + unhex h3) * 16 + unhex h4)
  else none

/-- The bytes owed for a pending high surrogate that found no partner. -/
def flushSurrogate (pending : Option Nat) : Bytes :=
  match pending with
  | some _ => utf8Encode replacementChar
  | none => []

/-- The body of a string literal after the opening quote: the unquoted bytes
and the text after the closing quote.  `pending` is a high surrogate read from
the preceding `\u` escape that still waits for its low surrogate. -/
def parseStringBody (pending : Option Nat) : Bytes → Except JsonErr (Bytes × Bytes)
  | [] => .error .SyntaxError
  | 34 :: rest => .ok (flushSurrogate pending, rest)
  | 92 :: 117 :: h1 :: h2 :: h3 :: h4 :: rest =>
    match hex4 h1 h2 h3 h4 with
    | none => .error .SyntaxError
    | some r =>
      if 56320 ≤ r ∧ r < 57344 then
        -- a low surrogate completes a pending high surrogate, else it is replaced
        match pending, parseStringBody none rest with
        | _, .error e => .error e
        | some hi, .ok (s, rest1) =>
          .ok (utf8Encode ((hi - 55296) * 1024 + (r - 56320) + 65536) ++ s, rest1)
        | none, .ok (s, rest1) => .ok (utf8Encode replacementChar ++ s, rest1)
      else if 55296 ≤ r ∧ r < 56320 then
        match parseStringBody (some r) rest with
        | .error e => .error e
        | .ok (s, rest1) => .ok (flushSurrogate pending ++ s, rest1)
      else
        match parseStringBody none rest with
        | .error e => .error e
        | .ok (s, rest1) => .ok (flushSurrogate pending ++ utf8Encode r ++ s, rest1)
  | 92 :: c :: rest =>
    let unq : Option Nat :=
      if c = 34 ∨ c = 92 ∨ c = 47 then some c
      else if c = 98 then some 8
      else if c = 102 then some 12
      else if c = 110 then some 10
      else if c = 114 then some 13
      else if c = 116 then some 9
      else none
    match unq, parseStringBody none rest with
    | none, _ => .error .SyntaxError
    | _, .error e => .error e
    | some x, .ok (s, rest1) => .ok (flushSurrogate pending ++ x :: s, rest1)
  | c :: rest =>
    if c < 32 ∨ c = 92 then .error .SyntaxError
    else
      match parseStringBody none rest with
      | .error e => .error e
      | .ok (s, rest1) => .ok (flushSurrogate pending ++ c :: s, rest1)

/-- A byte that can occur in a number literal. -/
def isNumByte (c : Nat) : Bool := isDigit c ∨ c = 45 ∨ c = 43 ∨ c = 46 ∨ c = 101 ∨ c = 69

/-- The text after the digits of an exponent, if the exponent is well formed. -/
def afterExponent (s : Bytes) : Option Bytes :=
  match s with
  | e :: rest =>
    if e = 101 ∨ e = 69 then
      let ds := if rest.head? = some 43 ∨ rest.head? = some 45 then rest.tail else rest
      if ds.head?.any isDigit then some (ds.dropWhile isDigit) else none
    else some s
  | [] => some []

/-- The text after the fraction, if the fraction is well formed. -/
def afterFraction (s : Bytes) : Option Bytes :=
  match s with
  | 46 :: rest => if rest.head?.any isDigit then some (rest.dropWhile isDigit) else none
  | _ => some s

/-- The text after the integer part, if there is one. -/
def afterInteger (s : Bytes) : Option Bytes :=
  match s with
  | 48 :: rest => some rest
  | c :: rest => if isDigit c then some (rest.dropWhile isDigit) else none
  | [] => none

/-- Whether the literal follows the JSON number grammar. -/
def validNumber (lit : Bytes) : Bool :=
  match afterInteger (if lit.head? = some 45 then lit.tail else lit) with
  | none => false
  | some r1 =>
    match afterFraction r1 with
    | none => false
    | some r2 => afterExponent r2 = some []

mutual
/-- One JSON value at the head of the text (after white space), and the text
that follows it.  The first argument bounds the recursion. -/
def parseValue : Nat → Bytes → Except JsonErr (JVal × Bytes)
  | 0, _ => .error .SyntaxError
  | fuel + 1, s =>
    match skipSpace s with
    | [] => .error .SyntaxError
    | 123 :: rest =>
      match skipSpace rest with
      | 125 :: rest1 => .ok (.object .nil, rest1)
      | _ =>
        match parseMembers fuel rest with
        | .error e => .error e
        | .ok (kvs, rest1) => .ok (.object kvs, rest1)
    | 91 :: rest =>
      match skipSpace rest with
      | 93 :: rest1 => .ok (.array .nil, rest1)
      | _ =>
        match parseElements fuel rest with
        | .error e => .error e
        | .ok (xs, rest1) => .ok (.array xs, rest1)
    | 34 :: rest =>
      match parseStringBody none rest with
      | .error e => .error e
      | .ok (str, rest1) => .ok (.string str, rest1)
    | 116 :: 114 :: 117 :: 101 :: rest => .ok (.bool true, rest)
    | 102 :: 97 :: 108 :: 115 :: 101 :: rest => .ok (.bool false, rest)
    | 110 :: 117 :: 108 :: 108 :: rest => .ok (.null, rest)
    | c :: rest =>
      if validNumber ((c :: rest).takeWhile isNumByte) then
        .ok (.number ((c :: rest).takeWhile isNumByte), (c :: rest).dropWhile isNumByte)
      else .error .SyntaxError
/-- The elements of an array after `[` or `,`, up to and including `]`. -/
def parseElements : Nat → Bytes → Except JsonErr (JArr × Bytes)
  | 0, _ => .error .SyntaxError
  | fuel + 1, s =>
    match parseValue fuel s with
    | .error e => .error e
    | .ok (v, rest) =>
      match skipSpace rest with
      | 44 :: rest1 =>
        match parseElements fuel rest1 with
        | .error e => .error e
        | .ok (xs, rest2) => .ok (.cons v xs, rest2)
      | 93 :: rest1 => .ok (.cons v .nil, rest1)
      | _ => .error .SyntaxError
/-- The members of an object after `{` or `,`, up to and including `}`. -/
def parseMembers : Nat → Bytes → Except JsonErr (JObj × Bytes)
  | 0, _ => .error .SyntaxError
  | fuel + 1, s =>
    match skipSpace s with
    | 34 :: rest =>
      match parseStringBody none rest with
      | .error e => .error e
      | .ok (k, rest1) =>
        match skipSpace rest1 with
        | 58 :: rest2 =>
          match parseValue fuel rest2 with
          | .error e => .error e
          | .ok (v, rest3) =>
            match skipSpace rest3 with
            | 44 :: rest4 =>
              match parseMembers fuel rest4 with
              | .error e => .error e
              | .ok (kvs, rest5) => .ok (.cons k v kvs, rest5)
            | 125 :: rest4 => .ok (.cons k v .nil, rest4)
            | _ => .error .SyntaxError
        | _ => .error .SyntaxError
    | _ => .error .SyntaxError
end

/-- The value tree of a JSON text: one value surrounded by white space.  The
recursion is bounded by two units per byte: a nested call follows at least one
consumed byte, except that the first element of an array and the first member
of an object follow their bracket directly. -/
def parseJSON (s : Bytes) : Except JsonErr JVal :=
  match parseValue (2 * s.length + 2) s with
  | .error e => .error e
  | .ok (v, rest) => if skipSpace rest = [] then .ok v else .error .SyntaxError

/-! ## Dynamic values and the result types of package pages -/

mutual
/-- A Go value held in a field of type `any`, by its dynamic type.  The decoder
stores `nil`, `bool`, `float64` (kept as the numeral it was read from),
`string`, `[]any` and `map[string]any`; `int` stands for the values a caller
can put there that the decoder never produces. -/
inductive GoAny where
  | nil
  | bool (v : Bool)
  | int (n : Int)
  | float64 (numeral : Bytes)
  | string (s : Bytes)
  | slice (xs : GoAnyList)
  | map (kvs : GoAnyMap)
  deriving DecidableEq, Repr
/-- The elements of a `[]any`. -/
inductive GoAnyList where
  | nil
  | cons (x : GoAny) (xs : GoAnyList)
  deriving DecidableEq, Repr
/-- The entries of a `map[string]any`. -/
inductive GoAnyMap where
  | nil
  | cons (k : Bytes) (v : GoAny) (rest : GoAnyMap)
  deriving DecidableEq, Repr
end

/-- The assignment `m[k] = v`. -/
def GoAnyMap.set (k : Bytes) (v : GoAny) : GoAnyMap → GoAnyMap
  | .nil => .cons k v .nil
  | .cons k1 v1 rest => if k1 = k then .cons k v rest else .cons k1 v1 (GoAnyMap.set k v rest)

mutual
/-- The value `json.Unmarshal` stores into an empty `any`. -/
def toAny : JVal → GoAny
  | .null => .nil
  | .bool v => .bool v
  | .number lit => .float64 lit
  | .string s => .string s
  | .array xs => .slice (toAnyList xs)
  | .object kvs => .map (toAnyMap kvs .nil)
/-- The elements of the stored `[]any`. -/
def toAnyList : JArr → GoAnyList
  | .nil => .nil
  | .cons x xs => .cons (toAny x) (toAnyList xs)
/-- The entries of the stored `map[string]any`; a repeated key keeps its last value. -/
def toAnyMap : JObj → GoAnyMap → GoAnyMap
  | .nil, acc => acc
  | .cons k v rest, acc => toAnyMap rest (acc.set k (toAny v))
end

namespace pages

/-- The struct `pages.User`. -/
structure User where
  ID : Int := 0
  Name : Bytes := []
  deriving DecidableEq, Repr

/-- The struct `pages.Latest`. -/
structure Latest where
  Timestamp : Time := {}
  User : User := {}
  deriving DecidableEq, Repr

/-- The struct `pages.Image`; `SizeBytes` is the `*uint` field. -/
structure Image where
  Mediatype : Bytes := []
  SizeBytes : Option Nat := none
  Width : Int := 0
  Height : Int := 0
  Duration : GoAny := .nil
  URL : Bytes := []
  deriving DecidableEq, Repr

/-- The struct `pages.File`. -/
structure File where
  Title : Bytes := []
  FileDescriptionURL : Bytes := []
  Latest : Latest := {}
  Preferred : Image := {}
  Original : Image := {}
  deriving DecidableEq, Repr

/-- The struct `pages.filesWrapper`. -/
structure filesWrapper where
  Files : List File := []
  deriving DecidableEq, Repr

/-- The struct `pages.LatestPage`. -/
structure LatestPage where
  ID : Int := 0
  Timestamp : Time := {}
  deriving DecidableEq, Repr

/-- The struct `pages.License`. -/
structure License where
  URL : Bytes := []
  Title : Bytes := []
  deriving DecidableEq, Repr

/-- The struct `pages.GetPageResp`. -/
structure GetPageResp where
  ID : Int := 0
  Key : Bytes := []
  Title : Bytes := []
  Latest : LatestPage := {}
  ContentModel : Bytes := []
  License : License := {}
  HTMLURL : Bytes := []
  deriving DecidableEq, Repr

end pages

/-! ## package encoding/json: storing a value tree into a Go value

Each function takes the parsed value and the current content of the target
and gives the new content.  The first failure is reported. -/

/-- Storing into an `int` (64 bits). -/
def decodeInt (v : JVal) (cur : Int) : Except JsonErr Int :=
  match v with
  | .null => .ok cur
  | .number lit =>
    let neg := lit.head? = some 45
    match digitsVal (if neg then lit.tail else lit) with
    | none => .error .UnmarshalTypeError
    | some n =>
      let i : Int := if neg then -n else n
      if -(2 ^ 63 : Int) ≤ i ∧ i < 2 ^ 63 then .ok i else .error .UnmarshalTypeError
  | _ => .error .UnmarshalTypeError

/-- Storing into a `*uint` (64 bits): `null` sets the pointer to nil. -/
def decodeUintPtr (v : JVal) (_cur : Option Nat) : Except JsonErr (Option Nat) :=
  match v with
  | .null => .ok none
  | .number lit =>
    match digitsVal lit with
    | none => .error .UnmarshalTypeError
    | some n => if n < 2 ^ 64 then .ok (some n) else .error .UnmarshalTypeError
  | _ => .error .UnmarshalTypeError

/-- Storing into a `string`. -/
def decodeString (v : JVal) (cur : Bytes) : Except JsonErr Bytes :=
  match v with
  | .null => .ok cur
  | .string s => .ok s
  | _ => .error .UnmarshalTypeError

/-- Storing into a `time.Time`, through `(*Time).UnmarshalJSON`. -/
def decodeTime (v : JVal) (cur : Time) : Except JsonErr Time :=
  match v with
  | .null => .ok cur
  | .string s =>
    match parseRFC3339 s with
    | some t => .ok t
    | none => .error .TimeError
  | _ => .error .TimeError

/-- Storing into an `any`. -/
def decodeAny (v : JVal) (_cur : GoAny) : Except JsonErr GoAny := .ok (toAny v)

/-- ASCII lower case. -/
def lowerByte (c : Nat) : Nat := if 65 ≤ c ∧ c ≤ 90 then c + 32 else c

/-- The key under which a member is matched against the field tags. -/
def foldKey (k : Bytes) : Bytes := k.map lowerByte

/-- The members of an object stored one after the other through `step`, which
receives the folded key. -/
def storeMembers {T : Type} (step : Bytes → JVal → T → Except JsonErr T) :
    JObj → T → Except JsonErr T
  | .nil, cur => .ok cur
  | .cons k v rest, cur =>
    match step (foldKey k) v cur with
    | .error e => .error e
    | .ok cur1 => storeMembers step rest cur1

/-- Storing into a struct: `null` changes nothing, an object stores its
members, anything else is a type error. -/
def decodeStruct {T : Type} (step : Bytes → JVal → T → Except JsonErr T)
    (v : JVal) (cur : T) : Except JsonErr T :=
  match v with
  | .null => .ok cur
  | .object kvs => storeMembers step kvs cur
  | _ => .error .UnmarshalTypeError

/-- The assignment `m[k] = v` on a `map[string]string`. -/
def mapSet (k v : Bytes) : List (Bytes × Bytes) → List (Bytes × Bytes)
  | [] => [(k, v)]
  | (k1, v1) :: rest => if k1 = k then (k, v) :: rest else (k1, v1) :: mapSet k v rest

/-- The members of an object stored into a `map[string]string`. -/
def storeStringMap : JObj → List (Bytes × Bytes) → Except JsonErr (List (Bytes × Bytes))
  | .nil, cur => .ok cur
  | .cons k v rest, cur =>
    match decodeString v [] with
    | .error e => .error e
    | .ok s => storeStringMap rest (mapSet k s cur)

/-- Storing into a `map[string]string`. -/
def decodeStringMap (v : JVal) (cur : List (Bytes × Bytes)) :
    Except JsonErr (List (Bytes × Bytes)) :=
  match v with
  | .null => .ok cur
  | .object kvs => storeStringMap kvs cur
  | _ => .error .UnmarshalTypeError

/-- Storing into a `MediawikiErr`, by the tags `httpCode`, `httpReason`,
`messageTranslations`. -/
def decodeMediawikiErr : JVal → MediawikiErr → Except JsonErr MediawikiErr :=
  decodeStruct fun k v cur =>
    if k = b "httpcode" then (decodeInt v cur.HTTPCode).map fun x => { cur with HTTPCode := x }
    else if k = b "httpreason" then
      (decodeString v cur.HTTPReason).map fun x => { cur with HTTPReason := x }
    else if k = b "messagetranslations" then
      (decodeStringMap v cur.MessageTranslations).map fun x =>
        { cur with MessageTranslations := x }
    else .ok cur

namespace pages

/-- Storing into a `User`. -/
def decodeUser : JVal → User → Except JsonErr User :=
  decodeStruct fun k v cur =>
    if k = b "id" then (decodeInt v cur.ID).map fun x => { cur with ID := x }
    else if k = b "name" then (decodeString v cur.Name).map fun x => { cur with Name := x }
    else .ok cur

/-- Storing into a `Latest`. -/
def decodeLatest : JVal → Latest → Except JsonErr Latest :=
  decodeStruct fun k v cur =>
    if k = b "timestamp" then
      (decodeTime v cur.Timestamp).map fun x => { cur with Timestamp := x }
    else if k = b "user" then (decodeUser v cur.User).map fun x => { cur with User := x }
    else .ok cur

/-- Storing into an `Image`. -/
def decodeImage : JVal → Image → Except JsonErr Image :=
  decodeStruct fun k v cur =>
    if k = b "mediatype" then
      (decodeString v cur.Mediatype).map fun x => { cur with Mediatype := x }
    else if k = b "size" then
      (decodeUintPtr v cur.SizeBytes).map fun x => { cur with SizeBytes := x }
    else if k = b "width" then (decodeInt v cur.Width).map fun x => { cur with Width := x }
    else if k = b "height" then (decodeInt v cur.Height).map fun x => { cur with Height := x }
    else if k = b "duration" then
      (decodeAny v cur.Duration).map fun x => { cur with Duration := x }
    else if k = b "url" then (decodeString v cur.URL).map fun x => { cur with URL := x }
    else .ok cur

/-- Storing into a `File`. -/
def decodeFile : JVal → File → Except JsonErr File :=
  decodeStruct fun k v cur =>
    if k = b "title" then (decodeString v cur.Title).map fun x => { cur with Title := x }
    else if k = b "file_description_url" then
      (decodeString v cur.FileDescriptionURL).map fun x => { cur with FileDescriptionURL := x }
    else if k = b "latest" then (decodeLatest v cur.Latest).map fun x => { cur with Latest := x }
    else if k = b "preferred" then
      (decodeImage v cur.Preferred).map fun x => { cur with Preferred := x }
    else if k = b "original" then
      (decodeImage v cur.Original).map fun x => { cur with Original := x }
    else .ok cur

/-- The elements of an array stored into a fresh `[]File`. -/
def storeFiles : JArr → Except JsonErr (List File)
  | .nil => .ok []
  | .cons x xs =>
    match decodeFile x {}, storeFiles xs with
    | .error e, _ => .error e
    | _, .error e => .error e
    | .ok f, .ok fs => .ok (f :: fs)

/-- Storing into a `[]File` that is still nil. -/
def decodeFiles (v : JVal) (cur : List File) : Except JsonErr (List File) :=
  match v with
  | .null => .ok cur
  | .array xs => storeFiles xs
  | _ => .error .UnmarshalTypeError

/-- Storing into a `filesWrapper`. -/
def decodeFilesWrapper : JVal → filesWrapper → Except JsonErr filesWrapper :=
  decodeStruct fun k v cur =>
    if k = b "files" then (decodeFiles v cur.Files).map fun x => { cur with Files := x }
    else .ok cur

/-- Storing into a `LatestPage`. -/
def decodeLatestPage : JVal → LatestPage → Except JsonErr LatestPage :=
  decodeStruct fun k v cur =>
    if k = b "id" then (decodeInt v cur.ID).map fun x => { cur with ID := x }
    else if k = b "timestamp" then
      (decodeTime v cur.Timestamp).map fun x => { cur with Timestamp := x }
    else .ok cur

/-- Storing into a `License`. -/
def decodeLicense : JVal → License → Except JsonErr License :=
  decodeStruct fun k v cur =>
    if k = b "url" then (decodeString v cur.URL).map fun x => { cur with URL := x }
    else if k = b "title" then (decodeString v cur.Title).map fun x => { cur with Title := x }
    else .ok cur

/-- Storing into a `GetPageResp`. -/
def decodeGetPageResp : JVal → GetPageResp → Except JsonErr GetPageResp :=
  decodeStruct fun k v cur =>
    if k = b "id" then (decodeInt v cur.ID).map fun x => { cur with ID := x }
    else if k = b "key" then (decodeString v cur.Key).map fun x => { cur with Key := x }
    else if k = b "title" then (decodeString v cur.Title).map fun x => { cur with Title := x }
    else if k = b "latest" then
      (decodeLatestPage v cur.Latest).map fun x => { cur with Latest := x }
    else if k = b "content_model" then
      (decodeString v cur.ContentModel).map fun x => { cur with ContentModel := x }
    else if k = b "license" then
      (decodeLicense v cur.License).map fun x => { cur with License := x }
    else if k = b "html_url" then
      (decodeString v cur.HTMLURL).map fun x => { cur with HTMLURL := x }
    else .ok cur

end pages

/-- The reference `json.Unmarshal(buf, &x)` for a zero value `x` whose fields
are stored by `store`. -/
def unmarshalWith {T : Type} (store : JVal → T → Except JsonErr T) (zero : T) (buf : Bytes) :
    Except JsonErr T :=
  match parseJSON buf with
  | .error e => .error e
  | .ok v => store v zero

/-! ## package unicode/utf8 -/

/-- The entry of the table `first` for the lead byte of a multi-byte sequence:
the width of the sequence and the range accepted for its second byte (the
table `acceptRanges`); `none` for a byte that cannot start such a sequence. -/
def leadInfo (s0 : Nat) : Option (Nat × Nat × Nat) :=
  if 194 ≤ s0 ∧ s0 ≤ 223 then some (2, 128, 191)
  else if s0 = 224 then some (3, 160, 191)
  else if s0 = 237 then some (3, 128, 159)
  else if 225 ≤ s0 ∧ s0 ≤ 239 then some (3, 128, 191)
  else if s0 = 240 then some (4, 144, 191)
  else if 241 ≤ s0 ∧ s0 ≤ 243 then some (4, 128, 191)
  else if s0 = 244 then some (4, 128, 143)
  else none

/-- Go function `utf8.DecodeRuneInString`: the first rune of the text and its
width in bytes; an ill-formed or truncated sequence gives `(RuneError, 1)`. -/
def decodeRune : Bytes → Nat × Nat
  | [] => (replacementChar, 0)
  | s0 :: rest =>
    if s0 < 128 then (s0, 1)
    else
      match leadInfo s0 with
      | none => (replacementChar, 1)
      | some (sz, lo, hi) =>
        match rest with
        | [] => (replacementChar, 1)
        | s1 :: r1 =>
          if s1 < lo ∨ hi < s1 then (replacementChar, 1)
          else if sz ≤ 2 then (s0 % 32 * 64 + s1 % 64, 2)
          else
            match r1 with
            | [] => (replacementChar, 1)
            | s2 :: r2 =>
              if s2 < 128 ∨ 191 < s2 then (replacementChar, 1)
              else if sz ≤ 3 then (s0 % 16 * 4096 + s1 % 64 * 64 + s2 % 64, 3)
              else
                match r2 with
                | [] => (replacementChar, 1)
                | s3 :: _ =>
                  if s3 < 128 ∨ 191 < s3 then (replacementChar, 1)
                  else (s0 % 8 * 262144 + s1 % 64 * 4096 + s2 % 64 * 64 + s3 % 64, 4)

/-- The loop of `utf8.ValidString` over the text that is left; the first
argument bounds the iterations (every iteration consumes a byte). -/
def validLoop : Nat → Bytes → Bool
  | 0, s => s = []
  | _ + 1, [] => true
  | fuel + 1, c :: rest =>
    if decodeRune (c :: rest) = (replacementChar, 1) then false
    else validLoop fuel ((c :: rest).drop (decodeRune (c :: rest)).2)

/-- Go function `utf8.ValidString`. -/
def validString (s : Bytes) : Bool := validLoop s.length s

/-! ## package encoding/json: Marshal

`json.Marshal` is called by the test suite only, to build the bodies the test
server answers with.  A Go value is turned into its value tree, members in the
order of the struct fields, and the tree is written in the compact form
`Marshal` produces.  `none` stands for an error of `Marshal` (a time it cannot
write) or for a value of an `any` field whose encoding is not modelled
(`float64`, `[]any`, `map[string]any`). -/

/-- The digit of `"0123456789abcdef"` at index `n`. -/
def lowerhex (n : Nat) : Nat := if n < 10 then 48 + n else 87 + n

/-- What `appendString` writes for one ASCII byte, with HTML escaping on: `"`
and `\` after a backslash, the short forms for backspace, form feed, line feed,
carriage return and tab, `\u00XX` for the other control bytes and for `<`, `>`
and `&`, and every other byte as it is. -/
def escapeASCII (c : Nat) : Bytes :=
  if c = 92 ∨ c = 34 then [92, c]
  else if c = 8 then [92, 98]
  else if c = 12 then [92, 102]
  else if c = 10 then [92, 110]
  else if c = 13 then [92, 114]
  else if c = 9 then [92, 116]
  else if c < 32 ∨ c = 60 ∨ c = 62 ∨ c = 38 then
    [92, 117, 48, 48, lowerhex (c / 16), lowerhex (c % 16)]
  else [c]

/-- The loop of `appendString` over the text that is left: an ASCII byte is
escaped, an ill-formed byte is written as the escape of U+FFFD, the separators
U+2028 and U+2029 are written as their escapes, and any other rune is copied.
The first argument bounds the iterations. -/
def appendStringLoop : Nat → Bytes → Bytes
  | 0, _ => []
  | _ + 1, [] => []
  | fuel + 1, c :: rest =>
    if c < 128 then escapeASCII c ++ appendStringLoop fuel rest
    else if decodeRune (c :: rest) = (replacementChar, 1) then
      [92, 117, 102, 102, 102, 100] ++ appendStringLoop fuel rest
    else if (decodeRune (c :: rest)).1 = 8232 ∨ (decodeRune (c :: rest)).1 = 8233 then
      [92, 117, 50, 48, 50, lowerhex ((decodeRune (c :: rest)).1 % 16)] ++
        appendStringLoop fuel ((c :: rest).drop (decodeRune (c :: rest)).2)
    else
      (c :: rest).take (decodeRune (c :: rest)).2 ++
        appendStringLoop fuel ((c :: rest).drop (decodeRune (c :: rest)).2)

/-- Go function `appendString` of package encoding/json: the string literal
written for a Go string. -/
def appendString (s : Bytes) : Bytes := [34] ++ appendStringLoop s.length s ++ [34]

mutual
/-- The compact text written for a value tree. -/
def printValue : JVal → Bytes
  | .null => b "null"
  | .bool true => b "true"
  | .bool false => b "false"
  | .number lit => lit
  | .string s => appendString s
  | .array xs => [91] ++ printElements true xs ++ [93]
  | .object kvs => [123] ++ printMembers true kvs ++ [125]
/-- The elements of an array, each but the first after a comma. -/
def printElements (first : Bool) : JArr → Bytes
  | .nil => []
  | .cons x xs => (if first then [] else [44]) ++ printValue x ++ printElements false xs
/-- The members of an object, each but the first after a comma. -/
def printMembers (first : Bool) : JObj → Bytes
  | .nil => []
  | .cons k v rest =>
    (if first then [] else [44]) ++ appendString k ++ [58] ++ printValue v ++
      printMembers false rest
end

/-- The tree of an `int`, and of a `uint`. -/
def jsonInt (i : Int) : JVal := .number (formatInt i)

/-- The tree of a `*uint`: `null` for the nil pointer. -/
def jsonUintPtr : Option Nat → JVal
  | none => .null
  | some n => jsonInt n

/-- The tree of a `time.Time`: the string `MarshalJSON` writes. -/
def jsonTime (t : Time) : Option JVal := (formatRFC3339 t).map .string

/-- The tree of the value of an `any` field. -/
def jsonAny : GoAny → Option JVal
  | .nil => some .null
  | .bool v => some (.bool v)
  | .int n => some (jsonInt n)
  | .string s => some (.string s)
  | _ => none

/-- The entries of a map in the order `Marshal` writes them: by key. -/
def sortEntries (l : List (Bytes × Bytes)) : List (Bytes × Bytes) :=
  l.insertionSort (fun x y => x.1 ≤ y.1)

/-- The members written for the entries of a `map[string]string`. -/
def jsonEntries : List (Bytes × Bytes) → JObj
  | [] => .nil
  | (k, v) :: rest => .cons k (.string v) (jsonEntries rest)

/-- The tree of a `map[string]string`; the empty list stands for the nil map,
which is written as `null`. -/
def jsonStringMap (l : List (Bytes × Bytes)) : JVal :=
  if l = [] then .null else .object (jsonEntries (sortEntries l))

/-- The tree of a `MediawikiErr`. -/
def jsonMediawikiErr (e : MediawikiErr) : JVal :=
  .object (.cons (b "httpCode") (jsonInt e.HTTPCode)
    (.cons (b "httpReason") (.string e.HTTPReason)
    (.cons (b "messageTranslations") (jsonStringMap e.MessageTranslations) .nil)))

/-- The body `json.Marshal(&e)` for a `MediawikiErr`. -/
def marshalMediawikiErr (e : MediawikiErr) : Bytes := printValue (jsonMediawikiErr e)

namespace pages

/-- The tree of a `User`. -/
def jsonUser (u : User) : JVal :=
  .object (.cons (b "id") (jsonInt u.ID) (.cons (b "name") (.string u.Name) .nil))

/-- The tree of a `Latest`. -/
def jsonLatest (l : Latest) : Option JVal :=
  (jsonTime l.Timestamp).map fun ts =>
    .object (.cons (b "timestamp") ts (.cons (b "user") (jsonUser l.User) .nil))

/-- The tree of an `Image`. -/
def jsonImage (i : Image) : Option JVal :=
  (jsonAny i.Duration).map fun duration =>
    .object (.cons (b "mediatype") (.string i.Mediatype)
      (.cons (b "size") (jsonUintPtr i.SizeBytes)
      (.cons (b "width") (jsonInt i.Width)
      (.cons (b "height") (jsonInt i.Height)
      (.cons (b "duration") duration
      (.cons (b "url") (.string i.URL) .nil))))))

/-- The tree of a `File`. -/
def jsonFile (f : File) : Option JVal :=
  match jsonLatest f.Latest, jsonImage f.Preferred, jsonImage f.Original with
  | some latest, some preferred, some original =>
    some (.object (.cons (b "title") (.string f.Title)
      (.cons (b "file_description_url") (.string f.FileDescriptionURL)
      (.cons (b "latest") latest
      (.cons (b "preferred") preferred
      (.cons (b "original") original .nil))))))
  | _, _, _ => none

/-- The trees of the elements of a `[]File`. -/
def jsonFiles : List File → Option JArr
  | [] => some .nil
  | f :: fs =>
    match jsonFile f, jsonFiles fs with
    | some x, some xs => some (.cons x xs)
    | _, _ => none

/-- The tree of a `filesWrapper`; the empty list stands for the nil slice,
which is written as `null`. -/
def jsonFilesWrapper (w : filesWrapper) : Option JVal :=
  if w.Files = [] then some (.object (.cons (b "files") .null .nil))
  else (jsonFiles w.Files).map fun xs => .object (.cons (b "files") (.array xs) .nil)

/-- The body `json.Marshal(filesWrapper{files})`. -/
def marshalFilesWrapper (w : filesWrapper) : Option Bytes :=
  (jsonFilesWrapper w).map printValue

/-- The tree of a `LatestPage`. -/
def jsonLatestPage (l : LatestPage) : Option JVal :=
  (jsonTime l.Timestamp).map fun ts =>
    .object (.cons (b "id") (jsonInt l.ID) (.cons (b "timestamp") ts .nil))

/-- The tree of a `License`. -/
def jsonLicense (l : License) : JVal :=
  .object (.cons (b "url") (.string l.URL) (.cons (b "title") (.string l.Title) .nil))

/-- The tree of a `GetPageResp`. -/
def jsonGetPageResp (r : GetPageResp) : Option JVal :=
  (jsonLatestPage r.Latest).map fun latest =>
    .object (.cons (b "id") (jsonInt r.ID)
      (.cons (b "key") (.string r.Key)
      (.cons (b "title") (.string r.Title)
      (.cons (b "latest") latest
      (.cons (b "content_model") (.string r.ContentModel)
      (.cons (b "license") (jsonLicense r.License)
      (.cons (b "html_url") (.string r.HTMLURL) .nil)))))))

/-- The body `json.Marshal(r)` for a `GetPageResp`. -/
def marshalGetPageResp (r : GetPageResp) : Option Bytes :=
  (jsonGetPageResp r).map printValue

end pages

/-! ## The values on which `Marshal` and `Unmarshal` are compared

Go keeps an `int` and a `uint` within 64 bits, and a `time.Time` always shows a
valid date and clock reading; the model types are wider, so these conditions
are stated.  The remaining conditions select the values `Marshal` writes in
full: strings that are valid UTF-8, times it can write, `any` fields that hold
nil, a bool or a string, and maps listed by increasing key. -/

/-- A value of the Go type `int` (64 bits). -/
def IsInt (i : Int) : Prop := -(2 ^ 63 : Int) ≤ i ∧ i < 2 ^ 63

instance (i : Int) : Decidable (IsInt i) := inferInstanceAs (Decidable (_ ∧ _))

/-- A time that `MarshalJSON` writes in full: a valid date and clock reading, a
year up to 9999 and a zone offset of whole minutes under 24 hours. -/
def Time.Valid (t : Time) : Prop :=
  t.year ≤ 9999 ∧ 1 ≤ t.month ∧ t.month ≤ 12 ∧ 1 ≤ t.day ∧ t.day ≤ daysIn t.month t.year ∧
  t.hour < 24 ∧ t.minute < 60 ∧ t.second < 60 ∧ t.nanosecond < 1000000000 ∧
  t.offset.natAbs % 60 = 0 ∧ t.offset.natAbs < 86400

instance (t : Time) : Decidable t.Valid := inferInstanceAs (Decidable (_ ∧ _))

/-- An `any` value that holds nil, a bool or a valid UTF-8 string. -/
def plainAny : GoAny → Bool
  | .nil => true
  | .bool _ => true
  | .string s => validString s
  | _ => false

/-- A map listed by increasing key, each key once. -/
def KeyOrdered (l : List (Bytes × Bytes)) : Prop :=
  l.Sorted (fun x y => x.1 ≤ y.1) ∧ (l.map Prod.fst).Nodup

instance (l : List (Bytes × Bytes)) : Decidable (KeyOrdered l) :=
  inferInstanceAs (Decidable (_ ∧ _))

/-- An error record that a JSON body can carry as it is. -/
def MediawikiErr.WellFormed (e : MediawikiErr) : Prop :=
  IsInt e.HTTPCode ∧ validString e.HTTPReason = true ∧
  (∀ kv ∈ e.MessageTranslations, validString kv.1 = true ∧ validString kv.2 = true) ∧
  KeyOrdered e.MessageTranslations

instance (e : MediawikiErr) : Decidable e.WellFormed := inferInstanceAs (Decidable (_ ∧ _))

namespace pages

/-- A user that a JSON body can carry as it is. -/
def User.WellFormed (u : User) : Prop := IsInt u.ID ∧ validString u.Name = true

instance (u : User) : Decidable u.WellFormed := inferInstanceAs (Decidable (_ ∧ _))

/-- An image variant that a JSON body can carry as it is. -/
def Image.WellFormed (i : Image) : Prop :=
  validString i.Mediatype = true ∧ (∀ n ∈ i.SizeBytes, n < 2 ^ 64) ∧ IsInt i.Width ∧
  IsInt i.Height ∧ plainAny i.Duration = true ∧ validString i.URL = true

instance (i : Image) : Decidable i.WellFormed := inferInstanceAs (Decidable (_ ∧ _))

/-- A file descriptor that a JSON body can carry as it is. -/
def File.WellFormed (f : File) : Prop :=
  validString f.Title = true ∧ validString f.FileDescriptionURL = true ∧
  f.Latest.Timestamp.Valid ∧ f.Latest.User.WellFormed ∧ f.Preferred.WellFormed ∧
  f.Original.WellFormed

instance (f : File) : Decidable f.WellFormed := inferInstanceAs (Decidable (_ ∧ _))

/-- A page descriptor that a JSON body can carry as it is. -/
def GetPageResp.WellFormed (r : GetPageResp) : Prop :=
  IsInt r.ID ∧ validString r.Key = true ∧ validString r.Title = true ∧ IsInt r.Latest.ID ∧
  r.Latest.Timestamp.Valid ∧ validString r.ContentModel = true ∧
  validString r.License.URL = true ∧ validString r.License.Title = true ∧
  validString r.HTMLURL = true

instance (r : GetPageResp) : Decidable r.WellFormed := inferInstanceAs (Decidable (_ ∧ _))

end pages

/-! ## The standard library as seen from the repository -/

/-- The functions of the standard library that the repository code is
parametric in: `url.Parse`, and `json.Unmarshal` into a zero value of each of
the three target types. -/
structure Lib where
  Parse : Bytes → Except GoError URL
  UnmarshalErr : Bytes → Except JsonErr MediawikiErr
  UnmarshalPage : Bytes → Except JsonErr pages.GetPageResp
  UnmarshalFiles : Bytes → Except JsonErr pages.filesWrapper

/-- The reference instance: `plainParse` and the reference decoder. -/
def refLib : Lib where
  Parse := plainParse
  UnmarshalErr := unmarshalWith decodeMediawikiErr {}
  UnmarshalPage := unmarshalWith pages.decodeGetPageResp {}
  UnmarshalFiles := unmarshalWith pages.decodeFilesWrapper {}

/-! ## package net/http -/

/-- A `context.Context`. -/
structure Context where
  deadline : Option Nat := none
  deriving DecidableEq, Repr

/-- The fields of `http.Request` that `NewRequestWithContext` fills in. -/
structure Request where
  ctx : Context
  Method : Bytes
  URL : URL
  Header : List (Bytes × List Bytes) := []
  Host : Bytes := []
  deriving DecidableEq, Repr

/-- An `http.Response` as `Core.Do` reads it: the status code and the outcome
of `io.ReadAll(resp.Body)`. -/
structure Response where
  StatusCode : Int
  Body : Except GoError Bytes

/-- An `http.Client`, by what its method `Do` returns. -/
structure HTTPClient where
  Do : Request → Except GoError Response

/-- The constant `http.MethodGet`. -/
def MethodGet : Bytes := b "GET"

/-- Go `strings.LastIndexByte`. -/
def lastIndexByte (s : Bytes) (c : Nat) : Int :=
  if c ∈ s then (s.length - 1 - s.reverse.indexOf c : Nat) else -1

/-- Go `http.removeEmptyPort`. -/
def removeEmptyPort (host : Bytes) : Bytes :=
  if lastIndexByte host colon > lastIndexByte host 93 ∧ host.getLast? = some colon then
    host.dropLast
  else host

/-- Go `http.NewRequestWithContext(ctx, method, url, nil)` for a valid method,
given `url.Parse`; a nil context is `none`. -/
def NewRequestWithContext (parse : Bytes → Except GoError URL) (ctx : Option Context)
    (method url : Bytes) : Except GoError Request :=
  match ctx with
  | none => .error (.plain "net/http: nil Context")
  | some ctx =>
    match parse url with
    | .error err => .error err
    | .ok u =>
      .ok { ctx := ctx, Method := method, URL := { u with Host := removeEmptyPort u.Host },
            Header := [], Host := removeEmptyPort u.Host }

/-! ## package adapter (core.go) -/

/-- Go method `func (a *MediawikiErr) Is(err error) bool`: the type assertion
`err.(*MediawikiErr)`; `none` is the nil error. -/
def MediawikiErr.Is (_a : MediawikiErr) (err : Option GoError) : Bool :=
  match err with
  | some (.mediawiki _) => true
  | _ => false

/-- The loop of `MediawikiErr.Error` over the entries in the order `range`
yields them: `sb` is the builder and `i` the counter, which the loop body
never changes. -/
def errorLoop : List (Bytes × Bytes) → Bytes → Int → Bytes
  | [], sb, _ => sb
  | (k, v) :: rest, sb, i =>
    let sb1 := if i ≠ 0 then sb ++ [59] else sb
    errorLoop rest (sb1 ++ k ++ [colon] ++ v) i

/-- Go method `func (a *MediawikiErr) Error() string`, given the order in which `range`
visits `a.MessageTranslations` (a permutation of its entries). -/
def MediawikiErr.Error (a : MediawikiErr) (order : List (Bytes × Bytes)) : Bytes :=
  formatInt a.HTTPCode ++ b ": " ++ errorLoop order [] 0

/-- Go `errors.Is(err, target)` for a target of type `*MediawikiErr`: the
chain of `err` is walked through `Unwrap`, and a link matches when its own `Is`
method accepts the target (a link equal to the target is a `*MediawikiErr`,
which its `Is` accepts as well). -/
def errorsIs : GoError → GoError → Bool
  | .mediawiki x, target => x.Is (some target)
  | .wrap _ err, target => errorsIs err target
  | _, _ => false

/-- The struct `adapter.Core`. -/
structure Core where
  BaseURL : Bytes := []
  HTTPClient : HTTPClient

/-- Go method `func (c *Core) Do(req *http.Request) ([]byte, error)`; the
deferred `resp.Body.Close()` has no part in the result. -/
def Core.Do (lib : Lib) (c : Core) (req : Request) : Except GoError Bytes :=
  match c.HTTPClient.Do req with
  | .error err => .error err
  | .ok resp =>
    match resp.Body with
    | .error err => .error err
    | .ok buf =>
      if 200 ≤ resp.StatusCode ∧ resp.StatusCode < 300 then .ok buf
      else
        match lib.UnmarshalErr buf with
        | .error err => .error (.wrap "server did not return valid JSON" (.json err))
        | .ok x => .error (.mediawiki x)

/-! ## package pages (client.go, get_page.go, get_media.go) -/

namespace pages

/-- A callback `func(*http.Request)`: it may rewrite the request and change
the state `σ` it closes over. -/
abbrev Opt (σ : Type) := Request → σ → Request × σ

/-- The struct `pages.Client`. -/
structure Client where
  a : Core

/-- Go function `func NewClient(coreAdapter *adapter.Core) *Client`. -/
def NewClient (coreAdapter : Core) : Client := { a := coreAdapter }

/-- The struct `pages.GetPage`. -/
structure GetPage (σ : Type) where
  a : Core
  opts : List (Opt σ) := []
  Project : Bytes := []
  Language : Bytes := []
  Title : Bytes := []

/-- The struct `pages.GetMedia`. -/
structure GetMedia (σ : Type) where
  a : Core
  opts : List (Opt σ) := []
  Project : Bytes := []
  Language : Bytes := []
  Title : Bytes := []

/-- Go method `func (c *Client) NewGetPageReq(project, language, title string) *GetPage`. -/
def Client.NewGetPageReq (c : Client) (σ : Type) (project language title : Bytes) : GetPage σ :=
  { a := c.a, Project := project, Language := language, Title := title }

/-- Go method `func (c *Client) NewGetMediaReq(project, language, title string) *GetPage`. -/
def Client.NewGetMediaReq (c : Client) (σ : Type) (project language title : Bytes) : GetPage σ :=
  { a := c.a, Project := project, Language := language, Title := title }

/-- Go method `func (g *GetPage) WithOpts(opts ...func(*http.Request)) *GetPage`. -/
def GetPage.WithOpts {σ : Type} (g : GetPage σ) (opts : List (Opt σ)) : GetPage σ :=
  { g with opts := opts }

/-- Go method `func (g *GetMedia) WithOpts(opts ...func(*http.Request)) *GetMedia`. -/
def GetMedia.WithOpts {σ : Type} (g : GetMedia σ) (opts : List (Opt σ)) : GetMedia σ :=
  { g with opts := opts }

/-- The loop `for _, opt := range opts { opt(req) }`. -/
def applyOpts {σ : Type} : List (Opt σ) → Request → σ → Request × σ
  | [], req, s => (req, s)
  | opt :: rest, req, s => applyOpts rest (opt req s).1 (opt req s).2

/-- The `url.JoinPath` call of `GetPage.Resolve`. -/
def GetPage.path {σ : Type} (lib : Lib) (g : GetPage σ) : Except GoError Bytes :=
  JoinPath lib.Parse g.a.BaseURL [b "core/v1", g.Project, g.Language, b "page", g.Title, b "bare"]

/-- The `url.JoinPath` call of `GetMedia.Resolve`. -/
def GetMedia.path {σ : Type} (lib : Lib) (g : GetMedia σ) : Except GoError Bytes :=
  JoinPath lib.Parse g.a.BaseURL
    [b "core/v1", g.Project, g.Language, b "page", g.Title, b "links/media"]

/-- Go method `func (g *GetPage) Resolve(ctx context.Context) (*GetPageResp, error)`,
started with the callbacks' state at `s`. -/
def GetPage.Resolve {σ : Type} (lib : Lib) (g : GetPage σ) (ctx : Option Context) (s : σ) :
    Except GoError GetPageResp × σ :=
  match g.path lib with
  | .error err => (.error err, s)
  | .ok path =>
    match NewRequestWithContext lib.Parse ctx MethodGet path with
    | .error err => (.error err, s)
    | .ok req =>
      match g.a.Do lib (applyOpts g.opts req s).1 with
      | .error err => (.error err, (applyOpts g.opts req s).2)
      | .ok buf =>
        match lib.UnmarshalPage buf with
        | .error err => (.error (.json err), (applyOpts g.opts req s).2)
        | .ok getResp => (.ok getResp, (applyOpts g.opts req s).2)

/-- Go method `func (g *GetMedia) Resolve(ctx context.Context) ([]File, error)`,
started with the callbacks' state at `s`. -/
def GetMedia.Resolve {σ : Type} (lib : Lib) (g : GetMedia σ) (ctx : Option Context) (s : σ) :
    Except GoError (List File) × σ :=
  match g.path lib with
  | .error err => (.error err, s)
  | .ok path =>
    match NewRequestWithContext lib.Parse ctx MethodGet path with
    | .error err => (.error err, s)
    | .ok req =>
      match g.a.Do lib (applyOpts g.opts req s).1 with
      | .error err => (.error err, (applyOpts g.opts req s).2)
      | .ok buf =>
        match lib.UnmarshalFiles buf with
        | .error err => (.error (.json err), (applyOpts g.opts req s).2)
        | .ok getResp => (.ok getResp.Files, (applyOpts g.opts req s).2)

end pages

/-! ## package wikimedia (client.go) -/

/-- The struct `wikimedia.Client`. -/
structure Client where
  Pages : pages.Client

/-- Go function `func NewClient(core *adapter.Core) *Client`. -/
def NewClient (core : Core) : Client := { Pages := pages.NewClient core }

/-! ## Fixtures: the values of `TestGetMedia` and a few more -/

/-- An `http.Client` whose transport answers every request with the given
status and body, as the test server of `TestGetMedia` does. -/
def fixedTransport (status : Int) (body : Bytes) : HTTPClient :=
  { Do := fun _ => .ok { StatusCode := status, Body := .ok body } }

/-- The core of `TestGetMedia`: an empty base URL in front of a fixed answer. -/
def testCore (status : Int) (body : Bytes) : Core :=
  { BaseURL := [], HTTPClient := fixedTransport status body }

/-- The error value `mockErr` of `TestGetMedia`. -/
def mockErr : MediawikiErr :=
  { HTTPCode := 404, HTTPReason := b "not found", MessageTranslations := [(b "en", b "failed")] }

/-- The body `json.Marshal(&mockErr)`. -/
def mockErrBody : Bytes :=
  b "\x7b\"httpCode\":404,\"httpReason\":\"not found\",\"messageTranslations\":\x7b\"en\":\"failed\"\x7d\x7d"

/-- The body served in the case `unmarshals correctly` of `TestGetMedia`
(`json.Marshal` of the nested maps, keys in sorted order). -/
def commonsBody : Bytes :=
  b "\x7b\"files\":[\x7b\"file_description_url\":\"//en.wikipedia.org/wiki/File:Commons-logo.svg\",\"latest\":\x7b\"timestamp\":null,\"user\":\x7b\"id\":1,\"name\":\"u\"\x7d\x7d,\"original\":\x7b\"duration\":null,\"height\":1376,\"mediatype\":\"DRAWING\",\"size\":932,\"url\":\"//upload.wikimedia.org/wikipedia/en/4/4a/Commons-logo.svg\",\"width\":1024\x7d,\"preferred\":\x7b\"duration\":null,\"height\":599,\"mediatype\":\"DRAWING\",\"size\":null,\"url\":\"//upload.wikimedia.org/wikipedia/en/thumb/4/4a/Commons-logo.svg/446px-Commons-logo.svg.png\",\"width\":446\x7d,\"title\":\"Commons-logo.svg\"\x7d]\x7d"

/-- The file descriptor expected in the case `unmarshals correctly`. -/
def commonsLogo : pages.File :=
  { Title := b "Commons-logo.svg"
    FileDescriptionURL := b "//en.wikipedia.org/wiki/File:Commons-logo.svg"
    Latest := { Timestamp := {}, User := { ID := 1, Name := b "u" } }
    Preferred :=
      { Mediatype := b "DRAWING", SizeBytes := none, Width := 446, Height := 599, Duration := .nil,
        URL := b "//upload.wikimedia.org/wikipedia/en/thumb/4/4a/Commons-logo.svg/446px-Commons-logo.svg.png" }
    Original :=
      { Mediatype := b "DRAWING", SizeBytes := some 932, Width := 1024, Height := 1376,
        Duration := .nil, URL := b "//upload.wikimedia.org/wikipedia/en/4/4a/Commons-logo.svg" } }

/-- A body in which the image variants carry no `size` member at all. -/
def sizelessBody : Bytes :=
  b "\x7b\"files\":[\x7b\"title\":\"x\",\"preferred\":\x7b\"width\":1\x7d,\"original\":\x7b\"width\":2\x7d\x7d]\x7d"

/-- A page descriptor body as the API serves it. -/
def earthBody : Bytes :=
  b "\x7b\"id\":9228,\"key\":\"Earth\",\"title\":\"Earth\",\"latest\":\x7b\"id\":1161496702,\"timestamp\":\"2023-06-23T03:08:14Z\"\x7d,\"content_model\":\"wikitext\",\"license\":\x7b\"url\":\"https://creativecommons.org/licenses/by-sa/4.0/deed.en\",\"title\":\"Creative Commons Attribution-Share Alike 4.0\"\x7d,\"html_url\":\"https://en.wikipedia.org/w/rest.php/v1/page/Earth/html\"\x7d"

/-- The page descriptor written in `earthBody`. -/
def earthPage : pages.GetPageResp :=
  { ID := 9228, Key := b "Earth", Title := b "Earth"
    Latest := { ID := 1161496702,
                Timestamp := { year := 2023, month := 6, day := 23, hour := 3, minute := 8,
                               second := 14 } }
    ContentModel := b "wikitext"
    License := { URL := b "https://creativecommons.org/licenses/by-sa/4.0/deed.en",
                 Title := b "Creative Commons Attribution-Share Alike 4.0" }
    HTMLURL := b "https://en.wikipedia.org/w/rest.php/v1/page/Earth/html" }

/-- A file descriptor whose preferred variant holds the Go `int` 5 as duration. -/
def intDurationFile : pages.File := { Preferred := { Duration := .int 5 } }

/-- A page descriptor whose title is the single byte `0xff`, which is not valid UTF-8. -/
def illFormedTitlePage : pages.GetPageResp := { Title := [255] }

/-- A callback that records the number `n` in the list it closes over and
leaves the request alone. -/
def logOpt (n : Nat) : pages.Opt (List Nat) := fun req s => (req, s ++ [n])

/-- A callback that marks the request with a header. -/
def headerOpt (k v : Bytes) : pages.Opt (List Nat) :=
  fun req s => ({ req with Header := req.Header ++ [(k, [v])] }, s)

/-- The path requested in the cases of `TestGetMedia` that set project,
language and title. -/
def mediaPath : Bytes := b "core/v1/project/lang/page/title/links/media"

/-- The base request of those cases, before any callback has run. -/
def mediaRequest : Request :=
  { ctx := {}, Method := MethodGet, URL := { Path := mediaPath }, Header := [], Host := [] }

/-- The media builder of those cases on the given core. -/
def mediaBuilder (σ : Type) (core : Core) : pages.GetMedia σ :=
  { a := core, Project := b "project", Language := b "lang", Title := b "title" }

/-- The page builder with the same project, language and title. -/
def pageBuilder (σ : Type) (core : Core) : pages.GetPage σ :=
  { a := core, Project := b "project", Language := b "lang", Title := b "title" }

/-- The path of `pageBuilder`. -/
def pagePath : Bytes := b "core/v1/project/lang/page/title/bare"

/-- The base request of `pageBuilder`. -/
def pageRequest : Request :=
  { ctx := {}, Method := MethodGet, URL := { Path := pagePath }, Header := [], Host := [] }

/-! # Part II: properties -/

/-! ## Sanity checks of the standard-library embedding -/

theorem clean_samples :
    Clean (b "/a/../../b/./c//d/") = b "/b/c/d" ∧ Clean (b "a/../../b/./c//d/") = b "../b/c/d" ∧
    Clean (b "../..//x/..") = b "../.." ∧ Clean (b "/..") = b "/" ∧
    Clean (b "abc/def/../..") = b "." ∧ Clean [] = b "." := by decide

theorem join_samples :
    Join [b "/", b "core/v1", [], [], b "page", [], b "bare"] = b "/core/v1/page/bare" ∧
    Join [[], []] = [] ∧ Join [b "a", [], b "b/"] = b "a/b" := by decide

theorem joinPath_samples :
    JoinPath plainParse [] [b "core/v1", b "../../x:y", b "l", b "page", b "%2F%2f", b "bare"]
      = .ok (b "./x:y/l/page/%2F%2f/bare") ∧
    JoinPath plainParse [] [b "a b", b "c/"] = .ok (b "a%20b/c/") ∧
    JoinPath plainParse [] [] = .ok (b "/") := by
  decide

theorem parseJSON_samples :
    parseJSON (b " \"\\ud83d\\ude00\" ") = .ok (.string [240, 159, 152, 128]) ∧
    parseJSON (b "[1,]") = .error .SyntaxError ∧ parseJSON (b "01") = .error .SyntaxError ∧
    parseJSON (b "[-0.5e+3, true, null]") =
      .ok (.array (.cons (.number (b "-0.5e+3")) (.cons (.bool true) (.cons .null .nil)))) := by
  decide

theorem time_samples :
    parseRFC3339 (b "0001-01-01T00:00:00Z") = some {} ∧
    formatRFC3339 {} = some (b "0001-01-01T00:00:00Z") ∧
    parseRFC3339 (b "2023-02-29T00:00:00Z") = none ∧
    parseRFC3339 (b "2024-02-29T23:59:59.5+01:30") =
      some { year := 2024, month := 2, day := 29, hour := 23, minute := 59, second := 59,
             nanosecond := 500000000, offset := 5400 } := by decide

/-! ## Lemmas about the standard-library embedding -/

/-! ### Clean on rooted paths -/

/-- A path segment: non-empty and free of `/`. -/
def Seg (s : Bytes) : Prop := s ≠ [] ∧ slash ∉ s

/-- The segments joined with single slashes. -/
def joinSegs (segs : List Bytes) : Bytes := [slash].intercalate segs

theorem joinSegs_nil : joinSegs [] = [] := rfl

theorem joinSegs_single (s : Bytes) : joinSegs [s] = s := by
  simp [joinSegs, List.intercalate]

theorem joinSegs_cons_cons (s t : Bytes) (l : List Bytes) :
    joinSegs (s :: t :: l) = s ++ slash :: joinSegs (t :: l) := by
  simp [joinSegs, List.intercalate]

theorem joinSegs_snoc (segs : List Bytes) (e : Bytes) (h : segs ≠ []) :
    joinSegs (segs ++ [e]) = joinSegs segs ++ slash :: e := by
  induction segs with
  | nil => exact absurd rfl h
  | cons s l ih =>
    cases l with
    | nil => simp [joinSegs_cons_cons, joinSegs_single]
    | cons t l =>
      have := ih (by simp)
      simp only [List.cons_append] at this ⊢
      rw [joinSegs_cons_cons, this, joinSegs_cons_cons]
      simp

theorem joinSegs_ne_nil (segs : List Bytes) (h : ∀ s ∈ segs, Seg s) (hne : segs ≠ []) :
    joinSegs segs ≠ [] := by
  cases segs with
  | nil => exact absurd rfl hne
  | cons s l =>
    have hs : s ≠ [] := (h s (by simp)).1
    cases l with
    | nil => simpa [joinSegs_single] using hs
    | cons t l => simp [joinSegs_cons_cons, hs]

theorem cleanLoop_nil (rooted : Bool) (fuel : Nat) (out : Bytes) (dotdot : Nat) :
    cleanLoop rooted fuel [] out dotdot = out := by
  cases fuel <;> rfl

theorem backtrack_stop (A L : Bytes) (c dd : Nat) (hL : slash ∉ L) (hdd : dd ≤ A.length)
    (hc : c = slash ∨ A.length ≤ dd) :
    ∀ k, k ≤ L.length → backtrack (A ++ c :: L) dd (A.length + k) = A.length := by
  intro k
  induction k with
  | zero =>
    intro _
    cases hA : A.length with
    | zero => rfl
    | succ n =>
      have hget : (A ++ c :: L).getD (n + 1) 0 = c := by
        rw [← hA, List.getD_eq_getElem?_getD, List.getElem?_append_right (le_refl _)]
        simp
      simp only [Nat.add_zero, backtrack, hget]
      rw [if_neg]
      rintro ⟨h1, h2⟩
      rcases hc with hc | hc
      · exact h2 hc
      · omega
  | succ k ih =>
    intro hk
    have hk' : k < L.length := hk
    have hget : (A ++ c :: L).getD (A.length + k + 1) 0 = L[k] := by
      rw [List.getD_eq_getElem?_getD, List.getElem?_append_right (by omega)]
      have : A.length + k + 1 - A.length = k + 1 := by omega
      rw [this]
      simp [hk']
    have hne : L[k] ≠ slash := fun h => hL (h ▸ List.getElem_mem hk')
    show backtrack (A ++ c :: L) dd (A.length + k + 1) = A.length
    simp only [backtrack, hget]
    rw [if_pos ⟨by omega, hne⟩]
    exact ih (by omega)

theorem take_backtrack (init : List Bytes) (last : Bytes) (hinit : ∀ s ∈ init, Seg s)
    (hlast : Seg last) :
    (slash :: joinSegs (init ++ [last])).take
      (backtrack (slash :: joinSegs (init ++ [last])) 1
        ((slash :: joinSegs (init ++ [last])).length - 1)) = slash :: joinSegs init := by
  by_cases hi : init = []
  · subst hi
    obtain ⟨c, L, rfl⟩ := List.exists_cons_of_ne_nil hlast.1
    have hL : slash ∉ L := fun h => hlast.2 (List.mem_cons_of_mem _ h)
    have h := backtrack_stop [slash] L c 1 hL (by simp) (Or.inr (by simp)) L.length (le_refl _)
    have h' : backtrack (slash :: c :: L) 1 (L.length + 1) = 1 := by
      simpa [Nat.add_comm] using h
    simp only [List.nil_append, joinSegs_single, joinSegs_nil, List.length_cons,
      Nat.add_sub_cancel]
    rw [h']
    simp
  · rw [joinSegs_snoc _ _ hi]
    have hA : 1 ≤ (slash :: joinSegs init).length := by simp
    have h := backtrack_stop (slash :: joinSegs init) last slash 1 hlast.2 hA (Or.inl rfl)
      last.length (le_refl _)
    have e : (slash :: (joinSegs init ++ slash :: last)).length - 1
        = (slash :: joinSegs init).length + last.length := by
      simp; omega
    rw [e]
    simp only [List.cons_append] at h
    rw [h]
    simp


theorem dropWhile_append_slash (pre name : Bytes) :
    (pre ++ slash :: name).dropWhile (fun x => x != slash)
      = pre.dropWhile (fun x => x != slash) ++ slash :: name := by
  induction pre with
  | nil => simp [List.dropWhile]
  | cons a pre ih =>
    by_cases ha : a = slash
    · simp [List.dropWhile, ha]
    · have hb : (a != slash) = true := by simpa using ha
      simp only [List.cons_append, List.dropWhile_cons, hb, if_true]
      exact ih

theorem takeWhile_seg (name : Bytes) (h : slash ∉ name) :
    name.takeWhile (fun x => x != slash) = name := by
  rw [List.takeWhile_eq_self_iff]
  intro x hx
  simp only [bne_iff_ne, ne_eq]
  rintro rfl
  exact h hx

theorem dropWhile_seg (name : Bytes) (h : slash ∉ name) :
    name.dropWhile (fun x => x != slash) = [] := by
  rw [List.dropWhile_eq_nil_iff]
  intro x hx
  simp only [bne_iff_ne, ne_eq]
  rintro rfl
  exact h hx

theorem seg_takeWhile (c : Nat) (rest : Bytes) (hc : c ≠ slash) :
    Seg ((c :: rest).takeWhile (fun x => x != slash)) := by
  have hb : (c != slash) = true := by simpa using hc
  constructor
  · simp [List.takeWhile_cons, hb]
  · intro h
    have := List.mem_takeWhile_imp h
    simp at this

theorem out_append_elem (segs : List Bytes) (hsegs : ∀ s ∈ segs, Seg s) (e : Bytes) :
    (if (slash :: joinSegs segs).length ≠ 1 then (slash :: joinSegs segs) ++ [slash]
      else slash :: joinSegs segs) ++ e = slash :: joinSegs (segs ++ [e]) := by
  by_cases h : segs = []
  · subst h
    simp [joinSegs_nil, joinSegs_single]
  · have hne := joinSegs_ne_nil segs hsegs h
    have hlen : (slash :: joinSegs segs).length ≠ 1 := by
      simp only [List.length_cons, ne_eq, Nat.add_left_eq_self, List.length_eq_zero]
      exact hne
    rw [if_pos hlen, joinSegs_snoc _ _ h]
    simp


theorem slash_ne_dot : slash ≠ dot := by decide

/-- On a rooted path whose last element is an ordinary name, the loop of
`Clean` ends with `/` followed by slash-separated non-empty segments, the last
of which is that name.  `Q` is any property of bytes carried from the input to
the output. -/
theorem cleanLoop_rooted_ends (Q : Nat → Prop) (name : Bytes) (hname : Seg name)
    (hnd : name ≠ [dot]) (hndd : name ≠ [dot, dot]) :
    ∀ (fuel : Nat) (rest : Bytes) (segs : List Bytes),
      rest.length ≤ fuel →
      (rest = name ∨ ∃ pre, rest = pre ++ slash :: name) →
      (∀ x ∈ rest, Q x) →
      (∀ s ∈ segs, Seg s ∧ ∀ x ∈ s, Q x) →
      ∃ init, (∀ s ∈ init, Seg s ∧ ∀ x ∈ s, Q x) ∧
        cleanLoop true fuel rest (slash :: joinSegs segs) 1
          = slash :: joinSegs (init ++ [name]) := by
  intro fuel
  induction fuel with
  | zero =>
    intro rest segs hlen hend _ _
    have hr : rest = [] := List.length_eq_zero.mp (Nat.le_zero.mp hlen)
    subst hr
    rcases hend with h | ⟨pre, h⟩
    · exact absurd h.symm hname.1
    · simp at h
  | succ fuel ih =>
    intro rest segs hlen hend hQ hsegs
    cases rest with
    | nil =>
      rcases hend with h | ⟨pre, h⟩
      · exact absurd h.symm hname.1
      · simp at h
    | cons c rest =>
      have hsegs' : ∀ s ∈ segs, Seg s := fun s hs => (hsegs s hs).1
      have hlen1 : rest.length ≤ fuel := by simpa using hlen
      have hQ1 : ∀ x ∈ rest, Q x := fun x hx => hQ x (List.mem_cons_of_mem _ hx)
      simp only [cleanLoop]
      by_cases hc : c = slash
      · rw [if_pos hc]
        refine ih rest segs hlen1 ?_ hQ1 hsegs
        rcases hend with h | ⟨pre, h⟩
        · exact absurd (h ▸ hc ▸ List.mem_cons_self _ _) hname.2
        · cases pre with
          | nil => exact Or.inl (by simpa using (List.cons.inj h).2)
          | cons a pre => exact Or.inr ⟨pre, (List.cons.inj h).2⟩
      · rw [if_neg hc]
        by_cases hd : c = dot ∧ (rest = [] ∨ rest.head? = some slash)
        · rw [if_pos hd]
          refine ih rest segs hlen1 ?_ hQ1 hsegs
          rcases hend with h | ⟨pre, h⟩
          · rcases hd with ⟨hcd, hr | hr⟩
            · subst hr; subst hcd; exact absurd h.symm hnd
            · have : slash ∈ rest := List.mem_of_mem_head? hr
              exact absurd (h ▸ List.mem_cons_of_mem _ this) hname.2
          · cases pre with
            | nil => exact absurd (List.cons.inj h).1 hc
            | cons a pre => exact Or.inr ⟨pre, (List.cons.inj h).2⟩
        · rw [if_neg hd]
          by_cases hdd : c = dot ∧ rest.head? = some dot ∧
              (rest.tail = [] ∨ rest.tail.head? = some slash)
          · rw [if_pos hdd]
            have hend' : rest.tail = name ∨ ∃ pre, rest.tail = pre ++ slash :: name := by
              rcases hend with h | ⟨pre, h⟩
              · exfalso
                obtain ⟨hcd, hh, ht⟩ := hdd
                cases rest with
                | nil => simp at hh
                | cons d rest2 =>
                  simp only [List.head?_cons, Option.some.injEq] at hh
                  simp only [List.tail_cons] at ht
                  subst hh; subst hcd
                  rcases ht with ht | ht
                  · subst ht; exact hndd h.symm
                  · have : slash ∈ rest2 := List.mem_of_mem_head? ht
                    exact hname.2 (h ▸ List.mem_cons_of_mem _ (List.mem_cons_of_mem _ this))
              · cases pre with
                | nil => exact absurd (List.cons.inj h).1 hc
                | cons a pre =>
                  have hr : rest = pre ++ slash :: name := (List.cons.inj h).2
                  cases pre with
                  | nil =>
                    exfalso
                    rw [hr] at hdd
                    simp only [List.nil_append, List.head?_cons, Option.some.injEq] at hdd
                    exact slash_ne_dot hdd.2.1
                  | cons a2 pre2 => exact Or.inr ⟨pre2, by rw [hr]; rfl⟩
            have hQ' : ∀ x ∈ rest.tail, Q x :=
              fun x hx => hQ1 x (List.mem_of_mem_tail hx)
            have hlen' : rest.tail.length ≤ fuel := by
              rw [List.length_tail]; omega
            by_cases hs : segs = []
            · subst hs
              simp only [joinSegs_nil, List.length_singleton, Nat.lt_irrefl, if_false,
                Bool.not_true, Bool.false_eq_true]
              exact ih rest.tail [] hlen' hend' hQ' hsegs
            · obtain ⟨init, last, rfl⟩ : ∃ init last, segs = init ++ [last] := by
                rcases List.eq_nil_or_concat segs with h | ⟨i, l, h⟩
                · exact absurd h hs
                · exact ⟨i, l, by simpa using h⟩
              have hinit : ∀ s ∈ init, Seg s := fun s hs => hsegs' s (by simp [hs])
              have hlast : Seg last := hsegs' last (by simp)
              have hlt : 1 < (slash :: joinSegs (init ++ [last])).length := by
                have := joinSegs_ne_nil (init ++ [last]) hsegs' (by simp)
                have := List.length_pos.mpr this
                simp only [List.length_cons]; omega
              rw [if_pos hlt, take_backtrack init last hinit hlast]
              exact ih rest.tail init hlen' hend' hQ' (fun s hs => hsegs s (by simp [hs]))
          · rw [if_neg hdd]
            simp only [true_and, not_true_eq_false, false_and, or_false]
            have helem := seg_takeWhile c rest hc
            rw [out_append_elem segs hsegs']
            rcases hend with h | ⟨pre, h⟩
            · rw [h, takeWhile_seg name hname.2, dropWhile_seg name hname.2, cleanLoop_nil]
              exact ⟨segs, hsegs, rfl⟩
            · refine ih _ (segs ++ [(c :: rest).takeWhile (fun x => x != slash)]) ?_ ?_ ?_ ?_
              · have hb : (c != slash) = true := by simpa using hc
                rw [List.dropWhile_cons, if_pos hb]
                exact le_trans (List.dropWhile_sublist _).length_le hlen1
              · exact Or.inr ⟨pre.dropWhile (fun x => x != slash), by
                  rw [h, dropWhile_append_slash]⟩
              · intro x hx
                exact hQ x ((List.dropWhile_sublist _).subset hx)
              · intro s hs
                rcases List.mem_append.mp hs with hs | hs
                · exact hsegs s hs
                · rw [List.mem_singleton] at hs
                  subst hs
                  exact ⟨helem, fun x hx => hQ x ((List.takeWhile_sublist _).subset hx)⟩


/-! ### Join, escaping and String on segment lists -/

theorem joinLoop_of_ne_nil (es : List Bytes) (buf : Bytes) (h : buf ≠ []) :
    joinLoop es buf = buf ++ (es.map fun e => slash :: e).flatten := by
  induction es generalizing buf with
  | nil => simp [joinLoop]
  | cons e es ih =>
    have hpos : 0 < buf.length := List.length_pos.mpr h
    simp only [joinLoop, hpos, true_or, if_true]
    rw [ih _ (by simp)]
    simp

theorem mem_joinSegs (segs : List Bytes) (x : Nat) (hx : x ∈ joinSegs segs) :
    x = slash ∨ ∃ s ∈ segs, x ∈ s := by
  induction segs with
  | nil => simp [joinSegs_nil] at hx
  | cons s l ih =>
    cases l with
    | nil =>
      rw [joinSegs_single] at hx
      exact Or.inr ⟨s, by simp, hx⟩
    | cons t l =>
      rw [joinSegs_cons_cons] at hx
      rcases List.mem_append.mp hx with h | h
      · exact Or.inr ⟨s, by simp, h⟩
      · rcases List.mem_cons.mp h with h | h
        · exact Or.inl h
        · rcases ih h with h | ⟨s', hs', hx'⟩
          · exact Or.inl h
          · exact Or.inr ⟨s', List.mem_cons_of_mem _ hs', hx'⟩

/-- A rooted path whose last element is an ordinary name is cleaned to `/`
followed by non-empty segments separated by single slashes, the last of which
is that name. -/
theorem clean_rooted_ends (Q : Nat → Prop) (pre name : Bytes) (hname : Seg name)
    (hnd : name ≠ [dot]) (hndd : name ≠ [dot, dot]) (hQ : ∀ x ∈ pre ++ slash :: name, Q x) :
    ∃ init, (∀ s ∈ init, Seg s ∧ ∀ x ∈ s, Q x) ∧
      Clean (slash :: (pre ++ slash :: name)) = slash :: joinSegs (init ++ [name]) := by
  obtain ⟨init, hinit, h⟩ := cleanLoop_rooted_ends Q name hname hnd hndd
    (slash :: (pre ++ slash :: name)).length (pre ++ slash :: name) []
    (by simp) (Or.inr ⟨pre, rfl⟩) hQ (by simp)
  refine ⟨init, hinit, ?_⟩
  rw [joinSegs_nil] at h
  simp only [Clean, List.head?_cons, List.tail_cons, if_true, decide_True]
  rw [if_neg (by simp), h]
  simp

theorem unescape_cons_of_ne (c : Nat) (rest : Bytes) (hc : c ≠ percent) :
    unescape (c :: rest) = (unescape rest).map fun t => c :: t := by
  conv_lhs => unfold unescape
  simp only [if_neg hc]

theorem unescape_of_no_percent (s : Bytes) (h : percent ∉ s) : unescape s = some s := by
  induction s with
  | nil => rfl
  | cons c s ih =>
    have hc : c ≠ percent := fun e => h (e ▸ List.mem_cons_self _ _)
    have hs : percent ∉ s := fun e => h (List.mem_cons_of_mem _ e)
    rw [unescape_cons_of_ne c s hc, ih hs]
    rfl

theorem upperhex_ne_slash (n : Nat) : upperhex n ≠ slash := by
  unfold upperhex slash
  split <;> omega

theorem escape_append (s t : Bytes) (mode : encoding) :
    escape (s ++ t) mode = escape s mode ++ escape t mode := by
  simp [escape, List.flatMap_append]

theorem escape_slash_path (t : Bytes) :
    escape (slash :: t) encodePath = slash :: escape t encodePath := by
  have h : shouldEscape slash encodePath = false := by decide
  simp only [escape, List.flatMap_cons, h]
  simp [slash]

theorem escape_joinSegs (segs : List Bytes) :
    escape (joinSegs segs) encodePath = joinSegs (segs.map fun s => escape s encodePath) := by
  induction segs with
  | nil => rfl
  | cons s l ih =>
    cases l with
    | nil => simp [joinSegs_single]
    | cons t l =>
      rw [joinSegs_cons_cons, escape_append, escape_slash_path, ih]
      simp [joinSegs_cons_cons]

theorem seg_escape (s : Bytes) (h : Seg s) : Seg (escape s encodePath) := by
  constructor
  · obtain ⟨c, t, rfl⟩ := List.exists_cons_of_ne_nil h.1
    simp only [escape, List.flatMap_cons]
    split
    · simp
    · split <;> simp
  · intro hm
    simp only [escape, List.mem_flatMap] at hm
    obtain ⟨c, hc, hm⟩ := hm
    have hcs : c ≠ slash := fun e => h.2 (e ▸ hc)
    split at hm
    · simp [slash] at hm
    · split at hm
      · simp only [List.mem_cons, List.mem_singleton, List.not_mem_nil, or_false] at hm
        rcases hm with hm | hm | hm
        · exact absurd hm (by decide)
        · exact upperhex_ne_slash _ hm.symm
        · exact upperhex_ne_slash _ hm.symm
      · simp only [List.mem_singleton] at hm
        exact hcs hm.symm


theorem string_path_only (p r : Bytes) :
    ({ Path := p, RawPath := r } : URL).String =
      (if colon ∈ (({ Path := p, RawPath := r } : URL).EscapedPath).takeWhile
          (fun x => x != slash) then [dot, slash] else []) ++
        ({ Path := p, RawPath := r } : URL).EscapedPath := by
  simp [URL.String]

theorem escapedPath_cases (p r : Bytes) (hr : r = [] ∨ r = p) :
    ({ Path := p, RawPath := r } : URL).EscapedPath = p ∨
      ({ Path := p, RawPath := r } : URL).EscapedPath = escape p encodePath := by
  unfold URL.EscapedPath
  split
  · rename_i h
    rcases hr with hr | hr
    · exact absurd hr h.1
    · exact Or.inl hr
  · split
    · rename_i h
      exact Or.inl h.symm
    · exact Or.inr rfl

theorem joinSegs_dot_cons (segs : List Bytes) (h : segs ≠ []) :
    [dot, slash] ++ joinSegs segs = joinSegs ([dot] :: segs) := by
  obtain ⟨s, l, rfl⟩ := List.exists_cons_of_ne_nil h
  rw [joinSegs_cons_cons]
  rfl

theorem seg_dot : Seg [dot] := by
  constructor
  · simp
  · decide

/-- The string that `JoinPath` builds on the zero URL from elements free of
`%`, the last of which ends in an ordinary name: non-empty segments separated
by single slashes. -/
theorem zero_joinPath_string (front : List Bytes) (last lpre name : Bytes)
    (hl : slash :: last = lpre ++ slash :: name) (hlast : last.getLast? ≠ some slash)
    (hname : Seg name) (hnd : name ≠ [dot]) (hndd : name ≠ [dot, dot])
    (hfront : ∀ e ∈ front, percent ∉ e) (hlpre : percent ∉ lpre) (hn : percent ∉ name) :
    ∃ segs, segs ≠ [] ∧ (∀ s ∈ segs, Seg s) ∧
      (({} : URL).joinPath (front ++ [last])).map URL.String = some (joinSegs segs) := by
  -- the joined, uncleaned path
  have hjoin : joinLoop ([slash] :: (front ++ [last])) [] =
      slash :: (((front.map fun e => slash :: e).flatten ++ lpre) ++ slash :: name) := by
    have h1 : joinLoop ([slash] :: (front ++ [last])) [] = joinLoop (front ++ [last]) [slash] := by
      simp [joinLoop]
    rw [h1, joinLoop_of_ne_nil _ _ (by simp)]
    simp only [List.map_append, List.map_cons, List.map_nil, List.flatten_append,
      List.flatten_cons, List.flatten_nil, List.append_nil, hl]
    simp
  have hQ : ∀ x ∈ ((front.map fun e => slash :: e).flatten ++ lpre) ++ slash :: name,
      x ≠ percent := by
    intro x hx e
    subst e
    simp only [List.mem_append, List.mem_flatten, List.mem_map, List.mem_cons] at hx
    rcases hx with (⟨l, ⟨e, he, rfl⟩, hx⟩ | hx) | hx | hx
    · rcases List.mem_cons.mp hx with hx | hx
      · exact absurd hx (by decide)
      · exact hfront e he hx
    · exact hlpre hx
    · exact absurd hx (by decide)
    · exact hn hx
  obtain ⟨init, hinit, hclean⟩ := clean_rooted_ends (fun x => x ≠ percent) _ name hname hnd hndd hQ
  have hsegs : ∀ s ∈ init ++ [name], Seg s := by
    intro s hs
    rcases List.mem_append.mp hs with hs | hs
    · exact (hinit s hs).1
    · rw [List.mem_singleton] at hs; exact hs ▸ hname
  have hne : init ++ [name] ≠ [] := by simp
  have hnp : percent ∉ joinSegs (init ++ [name]) := by
    intro hm
    rcases mem_joinSegs _ _ hm with h | ⟨s, hs, hx⟩
    · exact absurd h (by decide)
    · rcases List.mem_append.mp hs with hs | hs
      · exact (hinit s hs).2 _ hx rfl
      · rw [List.mem_singleton] at hs; exact hn (hs ▸ hx)
  have hE : ({} : URL).EscapedPath = [] := by decide
  have hJ : Join ((slash :: ([] : Bytes)) :: (front ++ [last])) =
      slash :: joinSegs (init ++ [name]) := by
    unfold Join
    rw [if_neg (by simp), hjoin, hclean]
  have hU : ({} : URL).joinPath (front ++ [last]) =
      some
        ({ Path := joinSegs (init ++ [name]),
           RawPath :=
            if escape (joinSegs (init ++ [name])) encodePath = joinSegs (init ++ [name])
            then [] else joinSegs (init ++ [name]) } : URL) := by
    unfold URL.joinPath
    simp only [hE, List.head?_nil, ne_eq, reduceCtorEq, not_false_eq_true, if_true, hJ,
      List.drop_succ_cons, List.drop_zero]
    have hlast' : ((([slash] : Bytes) :: (front ++ [last])).getLast?.getD []).getLast?
        ≠ some slash := by
      rw [← List.cons_append, List.getLast?_append]
      simpa using hlast
    rw [if_neg (fun h => hlast' h.1)]
    simp [URL.setPath, unescape_of_no_percent _ hnp]
  rw [hU, Option.map_some', string_path_only]
  have hr : (if escape (joinSegs (init ++ [name])) encodePath = joinSegs (init ++ [name])
      then [] else joinSegs (init ++ [name])) = [] ∨
      (if escape (joinSegs (init ++ [name])) encodePath = joinSegs (init ++ [name])
      then [] else joinSegs (init ++ [name])) = joinSegs (init ++ [name]) := by
    split
    · exact Or.inl rfl
    · exact Or.inr rfl
  have hcases : ∃ segs, segs ≠ [] ∧ (∀ s ∈ segs, Seg s) ∧
      ({ Path := joinSegs (init ++ [name]),
         RawPath := if escape (joinSegs (init ++ [name])) encodePath = joinSegs (init ++ [name])
          then [] else joinSegs (init ++ [name]) } : URL).EscapedPath = joinSegs segs := by
    rcases escapedPath_cases _ _ hr with h | h
    · exact ⟨init ++ [name], hne, hsegs, h⟩
    · refine ⟨(init ++ [name]).map fun s => escape s encodePath, by simp, ?_, ?_⟩
      · intro s hs
        obtain ⟨t, ht, rfl⟩ := List.mem_map.mp hs
        exact seg_escape t (hsegs t ht)
      · rw [h, escape_joinSegs]
  obtain ⟨segs, hsne, hsall, hsEq⟩ := hcases
  rw [hsEq]
  split
  · refine ⟨[dot] :: segs, by simp, ?_, congrArg some (joinSegs_dot_cons segs hsne)⟩
    intro s hs
    rcases List.mem_cons.mp hs with hs | hs
    · exact hs ▸ seg_dot
    · exact hsall s hs
  · exact ⟨segs, hsne, hsall, by simp⟩


/-! ### What a join of segments looks like -/

theorem joinSegs_splitOn (segs : List Bytes) (hne : segs ≠ []) (hall : ∀ s ∈ segs, Seg s) :
    (joinSegs segs).splitOn slash = segs :=
  List.splitOn_intercalate segs slash (fun l hl => (hall l hl).2) hne

theorem joinSegs_head (segs : List Bytes) (hall : ∀ s ∈ segs, Seg s) :
    (joinSegs segs).head? ≠ some slash := by
  intro h
  cases segs with
  | nil => simp [joinSegs_nil] at h
  | cons s l =>
    have hs := hall s (by simp)
    obtain ⟨c, t, rfl⟩ := List.exists_cons_of_ne_nil hs.1
    have : (joinSegs ((c :: t) :: l)).head? = some c := by
      cases l with
      | nil => simp [joinSegs_single]
      | cons u l => simp [joinSegs_cons_cons]
    rw [this] at h
    exact hs.2 (by simp [Option.some.inj h])

theorem joinSegs_getLast (segs : List Bytes) (hall : ∀ s ∈ segs, Seg s) :
    (joinSegs segs).getLast? ≠ some slash := by
  intro h
  rcases List.eq_nil_or_concat segs with hs | ⟨init, name, hs⟩
  · subst hs; simp [joinSegs_nil] at h
  · rw [List.concat_eq_append] at hs
    subst hs
    have hn := hall name (by simp)
    have hlast : (joinSegs (init ++ [name])).getLast? = name.getLast? := by
      by_cases hi : init = []
      · subst hi; simp [joinSegs_single]
      · obtain ⟨c, t, rfl⟩ := List.exists_cons_of_ne_nil hn.1
        rw [joinSegs_snoc _ _ hi, List.getLast?_append, List.getLast?_cons_cons]
        cases hgl : (c :: t).getLast? with
        | none => simp at hgl
        | some a => rfl
    rw [hlast] at h
    exact hn.2 (List.mem_of_mem_getLast? h)

theorem chain_of_seg (s : Bytes) (h : slash ∉ s) :
    List.Chain' (fun a c => ¬ (a = slash ∧ c = slash)) s := by
  induction s with
  | nil => exact List.chain'_nil
  | cons x t ih =>
    rw [List.chain'_cons']
    refine ⟨fun y _ hxy => h (hxy.1 ▸ List.mem_cons_self _ _), ih fun e => h (List.mem_cons_of_mem _ e)⟩

theorem joinSegs_chain (segs : List Bytes) (hall : ∀ s ∈ segs, Seg s) :
    List.Chain' (fun a c => ¬ (a = slash ∧ c = slash)) (joinSegs segs) := by
  induction segs with
  | nil => exact List.chain'_nil
  | cons s l ih =>
    have hs := hall s (by simp)
    have hl : ∀ t ∈ l, Seg t := fun t ht => hall t (List.mem_cons_of_mem _ ht)
    cases l with
    | nil => rw [joinSegs_single]; exact chain_of_seg s hs.2
    | cons t l =>
      rw [joinSegs_cons_cons, List.chain'_append]
      refine ⟨chain_of_seg s hs.2, ?_, ?_⟩
      · rw [List.chain'_cons']
        refine ⟨fun y hy hxy => joinSegs_head (t :: l) hl (hxy.2 ▸ hy), ih hl⟩
      · intro x hx y _ hxy
        exact hs.2 (hxy.1 ▸ List.mem_of_mem_getLast? hx)

theorem joinSegs_no_double (segs : List Bytes) (hall : ∀ s ∈ segs, Seg s) :
    ¬ [slash, slash] <:+: joinSegs segs := by
  intro h
  have := List.Chain'.infix (joinSegs_chain segs hall) h
  simp [List.chain'_cons'] at this

/-- The bound on the iterations of the loop of `Clean` is never reached before
the input is used up: any bound of at least the length of the input gives the
same result. -/
theorem cleanLoop_fuel (rooted : Bool) :
    ∀ (fuel : Nat) (rest out : Bytes) (dotdot : Nat), rest.length ≤ fuel →
      cleanLoop rooted fuel rest out dotdot = cleanLoop rooted rest.length rest out dotdot := by
  intro fuel
  induction fuel using Nat.strong_induction_on with
  | _ fuel ih =>
    intro rest out dotdot hlen
    cases fuel with
    | zero =>
      have hr : rest = [] := List.length_eq_zero.mp (Nat.le_zero.mp hlen)
      subst hr
      rfl
    | succ fuel =>
      cases rest with
      | nil => rfl
      | cons c rest =>
        have hl : rest.length ≤ fuel := by simpa using hlen
        have key : ∀ (r o : Bytes) (d : Nat), r.length ≤ rest.length →
            cleanLoop rooted fuel r o d = cleanLoop rooted rest.length r o d := by
          intro r o d hr
          rw [ih fuel (Nat.lt_succ_self _) r o d (le_trans hr hl)]
          by_cases hEq : rest.length = fuel
          · rw [hEq, ih fuel (Nat.lt_succ_self _) r o d (le_trans hr hl)]
          · rw [ih rest.length (by omega) r o d hr]
        have htail : rest.tail.length ≤ rest.length := by
          rw [List.length_tail]; omega
        have hdrop : ((c :: rest).dropWhile (fun x => x != slash)).length ≤ rest.length ∨
            c = slash := by
          by_cases hc : c = slash
          · exact Or.inr hc
          · have hb : (c != slash) = true := by simpa using hc
            rw [List.dropWhile_cons, if_pos hb]
            exact Or.inl (List.dropWhile_sublist _).length_le
        simp only [List.length_cons, cleanLoop]
        by_cases hc : c = slash
        · simp only [if_pos hc]
          exact key _ _ _ (le_refl _)
        · simp only [if_neg hc]
          split
          · exact key _ _ _ (le_refl _)
          · split
            · split
              · exact key _ _ _ htail
              · split
                · exact key _ _ _ htail
                · exact key _ _ _ htail
            · rcases hdrop with h | h
              · exact key _ _ _ h
              · exact absurd h hc

/-! ## Lemmas about the repository code -/

theorem applyOpts_eq_foldl {σ : Type} (opts : List (pages.Opt σ)) (req : Request) (s : σ) :
    pages.applyOpts opts req s = opts.foldl (fun rs opt => opt rs.1 rs.2) (req, s) := by
  induction opts generalizing req s with
  | nil => rfl
  | cons opt rest ih => simp only [pages.applyOpts, List.foldl_cons, ih]

theorem errorLoop_zero (order : List (Bytes × Bytes)) (sb : Bytes) :
    errorLoop order sb 0 = sb ++ (order.map fun kv => kv.1 ++ [colon] ++ kv.2).flatten := by
  induction order generalizing sb with
  | nil => simp [errorLoop]
  | cons kv rest ih =>
    obtain ⟨k, v⟩ := kv
    simp only [errorLoop, ne_eq, not_true_eq_false, if_false, ih]
    simp

/-- The string `Error()` returns never holds a separator of its own: the pairs
are written one right after the other. -/
theorem error_eq_concat (a : MediawikiErr) (order : List (Bytes × Bytes)) :
    a.Error order =
      formatInt a.HTTPCode ++ b ": " ++ (order.map fun kv => kv.1 ++ [colon] ++ kv.2).flatten := by
  simp [MediawikiErr.Error, errorLoop_zero]

theorem do_of_response (lib : Lib) (c : Core) (req : Request) (s : Int) (body : Bytes)
    (h : c.HTTPClient.Do req = .ok { StatusCode := s, Body := .ok body }) :
    c.Do lib req =
      if 200 ≤ s ∧ s < 300 then .ok body
      else
        match lib.UnmarshalErr body with
        | .error err => .error (.wrap "server did not return valid JSON" (.json err))
        | .ok x => .error (.mediawiki x) := by
  simp only [Core.Do, h]

theorem path_withOpts_page {σ : Type} (lib : Lib) (g : pages.GetPage σ)
    (opts : List (pages.Opt σ)) : (g.WithOpts opts).path lib = g.path lib := rfl

theorem path_withOpts_media {σ : Type} (lib : Lib) (g : pages.GetMedia σ)
    (opts : List (pages.Opt σ)) : (g.WithOpts opts).path lib = g.path lib := rfl

/-- What `GetPage.Resolve` does once the base request `req0` exists. -/
theorem resolve_page_eq {σ : Type} (lib : Lib) (g : pages.GetPage σ) (ctx : Option Context)
    (st : σ) (p : Bytes) (req0 : Request) (hp : g.path lib = .ok p)
    (hr : NewRequestWithContext lib.Parse ctx MethodGet p = .ok req0) :
    g.Resolve lib ctx st =
      ((match g.a.Do lib (pages.applyOpts g.opts req0 st).1 with
        | .error err => .error err
        | .ok buf =>
          match lib.UnmarshalPage buf with
          | .error err => .error (.json err)
          | .ok getResp => .ok getResp), (pages.applyOpts g.opts req0 st).2) := by
  simp only [pages.GetPage.Resolve, hp, hr]
  cases g.a.Do lib (pages.applyOpts g.opts req0 st).1 with
  | error err => rfl
  | ok buf =>
    dsimp only
    cases lib.UnmarshalPage buf <;> rfl

/-- What `GetMedia.Resolve` does once the base request `req0` exists. -/
theorem resolve_media_eq {σ : Type} (lib : Lib) (g : pages.GetMedia σ) (ctx : Option Context)
    (st : σ) (p : Bytes) (req0 : Request) (hp : g.path lib = .ok p)
    (hr : NewRequestWithContext lib.Parse ctx MethodGet p = .ok req0) :
    g.Resolve lib ctx st =
      ((match g.a.Do lib (pages.applyOpts g.opts req0 st).1 with
        | .error err => .error err
        | .ok buf =>
          match lib.UnmarshalFiles buf with
          | .error err => .error (.json err)
          | .ok getResp => .ok getResp.Files), (pages.applyOpts g.opts req0 st).2) := by
  simp only [pages.GetMedia.Resolve, hp, hr]
  cases g.a.Do lib (pages.applyOpts g.opts req0 st).1 with
  | error err => rfl
  | ok buf =>
    dsimp only
    cases lib.UnmarshalFiles buf <;> rfl

/-- The path `JoinPath` builds under an empty base URL from `core/v1`, the
three caller strings, `page` and a suffix that ends in an ordinary name. -/
theorem resolve_path_segments (parse : Bytes → Except GoError URL) (hparse : parse [] = .ok {})
    (project language title last lpre name : Bytes)
    (hl : slash :: last = lpre ++ slash :: name) (hlast : last.getLast? ≠ some slash)
    (hname : Seg name) (hnd : name ≠ [dot]) (hndd : name ≠ [dot, dot])
    (hlpre : percent ∉ lpre) (hn : percent ∉ name)
    (hp : percent ∉ project) (hla : percent ∉ language) (ht : percent ∉ title) :
    ∃ p, JoinPath parse [] [b "core/v1", project, language, b "page", title, last] = .ok p ∧
      ¬ [slash, slash] <:+: p ∧ p.getLast? ≠ some slash ∧ [] ∉ p.splitOn slash := by
  have hfront : ∀ e ∈ [b "core/v1", project, language, b "page", title], percent ∉ e := by
    intro e he
    simp only [List.mem_cons, List.mem_singleton, List.not_mem_nil, or_false] at he
    rcases he with rfl | rfl | rfl | rfl | rfl
    · decide
    · exact hp
    · exact hla
    · decide
    · exact ht
  obtain ⟨segs, hne, hall, hs⟩ :=
    zero_joinPath_string [b "core/v1", project, language, b "page", title] last lpre name
      hl hlast hname hnd hndd hfront hlpre hn
  refine ⟨joinSegs segs, ?_, joinSegs_no_double segs hall, joinSegs_getLast segs hall, ?_⟩
  · simp only [JoinPath, hparse]
    cases hj : ({} : URL).joinPath [b "core/v1", project, language, b "page", title, last] with
    | none =>
      have : ({} : URL).joinPath ([b "core/v1", project, language, b "page", title] ++ [last])
          = none := hj
      rw [this] at hs
      cases hs
    | some u =>
      have : ({} : URL).joinPath ([b "core/v1", project, language, b "page", title] ++ [last])
          = some u := hj
      rw [this, Option.map_some', Option.some.injEq] at hs
      simp only [hs]
  · rw [joinSegs_splitOn segs hne hall]
    intro hmem
    exact (hall [] hmem).1 rfl

/-! ## Lemmas about `json.Marshal` followed by `json.Unmarshal` -/

/-! ### Numbers -/


/-- The decimal digits of a natural number, most significant first. -/
def decimal (n : Nat) : Bytes :=
  if n < 10 then [48 + n] else decimal (n / 10) ++ [48 + n % 10]
termination_by n
decreasing_by omega

theorem digitChar_toNat (d : Nat) (h : d < 10) : (Nat.digitChar d).toNat = 48 + d := by
  interval_cases d <;> rfl

theorem toDigitsCore_eq (fuel : Nat) : ∀ (n : Nat) (ds : List Char), n < fuel →
    (Nat.toDigitsCore 10 fuel n ds).map Char.toNat = decimal n ++ ds.map Char.toNat := by
  induction fuel with
  | zero => intro n ds h; omega
  | succ fuel ih =>
    intro n ds h
    rw [decimal]
    simp only [Nat.toDigitsCore]
    by_cases hn : n < 10
    · have h0 : n / 10 = 0 := by omega
      have h1 : n % 10 = n := by omega
      simp [h0, h1, hn, digitChar_toNat n hn]
    · have h0 : n / 10 ≠ 0 := by omega
      rw [if_neg h0, if_neg hn, ih (n / 10) _ (by omega)]
      simp [digitChar_toNat (n % 10) (by omega)]

theorem toDigits_eq (n : Nat) : (Nat.toDigits 10 n).map Char.toNat = decimal n := by
  simpa [Nat.toDigits] using toDigitsCore_eq (n + 1) n [] (by omega)

theorem formatInt_eq (i : Int) :
    formatInt i = (if i < 0 then [45] else []) ++ decimal i.natAbs := by
  rw [formatInt, toDigits_eq]

theorem decimal_ne_nil (n : Nat) : decimal n ≠ [] := by
  rw [decimal]; split <;> simp

theorem decimal_all_digit (n : Nat) : ∀ c ∈ decimal n, isDigit c = true := by
  induction n using Nat.strong_induction_on with
  | _ n ih =>
    rw [decimal]
    split
    · intro c hc
      simp only [List.mem_singleton] at hc
      subst hc
      simp [isDigit]; omega
    · intro c hc
      simp only [List.mem_append, List.mem_singleton] at hc
      rcases hc with hc | hc
      · exact ih (n / 10) (by omega) c hc
      · subst hc
        simp [isDigit]; omega

theorem decimal_foldl (n : Nat) :
    (decimal n).foldl (fun acc c => acc * 10 + (c - 48)) 0 = n := by
  induction n using Nat.strong_induction_on with
  | _ n ih =>
    rw [decimal]
    split
    · simp
    · rw [List.foldl_append, ih (n / 10) (by omega)]
      simp; omega

theorem digitsVal_decimal (n : Nat) : digitsVal (decimal n) = some n := by
  have h1 := decimal_ne_nil n
  have h2 : (decimal n).all isDigit = true := by
    rw [List.all_eq_true]; exact decimal_all_digit n
  simp [digitsVal, h1, h2, decimal_foldl]

/-- The first digit is not a zero, unless the number is zero. -/
theorem decimal_head (n : Nat) : ∃ c rest, decimal n = c :: rest ∧ isDigit c = true ∧
    (n ≠ 0 → c ≠ 48) ∧ (n = 0 → rest = []) := by
  induction n using Nat.strong_induction_on with
  | _ n ih =>
    rw [decimal]
    split
    · exact ⟨48 + n, [], rfl, by simp [isDigit]; omega, fun _ => by omega, fun _ => rfl⟩
    · rename_i hn
      obtain ⟨c, rest, h, hd, h0, _⟩ := ih (n / 10) (by omega)
      exact ⟨c, rest ++ [48 + n % 10], by rw [h]; rfl, hd, fun _ => h0 (by omega),
        fun h => by omega⟩

theorem dropWhile_all {α : Type} (p : α → Bool) (l : List α) (h : ∀ x ∈ l, p x = true) :
    l.dropWhile p = [] := by
  induction l with
  | nil => rfl
  | cons x l ih =>
    rw [List.dropWhile_cons, h x (List.mem_cons_self _ _)]
    exact ih fun y hy => h y (List.mem_cons_of_mem _ hy)

theorem afterInteger_decimal (n : Nat) : afterInteger (decimal n) = some [] := by
  obtain ⟨c, rest, h, hd, h0, h1⟩ := decimal_head n
  have hall := decimal_all_digit n
  rw [h] at hall ⊢
  unfold afterInteger
  split
  · rename_i heq
    simp only [List.cons.injEq] at heq
    obtain ⟨rfl, rfl⟩ := heq
    by_cases hn : n = 0
    · rw [h1 hn]
    · exact absurd rfl (h0 hn)
  · rename_i heq
    simp only [List.cons.injEq] at heq
    obtain ⟨rfl, rfl⟩ := heq
    rw [if_pos hd, dropWhile_all isDigit _ fun x hx => hall x (List.mem_cons_of_mem _ hx)]
  · rename_i heq
    simp at heq

theorem decimal_head_ne (n : Nat) : (decimal n).head? ≠ some 45 := by
  obtain ⟨c, rest, h, hd, -, -⟩ := decimal_head n
  rw [h]
  simp only [List.head?_cons, ne_eq, Option.some.injEq]
  intro hc
  subst hc
  simp [isDigit] at hd

theorem validNumber_decimal (n : Nat) : validNumber (decimal n) = true := by
  simp [validNumber, decimal_head_ne, afterInteger_decimal, afterFraction, afterExponent]

theorem validNumber_formatInt (i : Int) : validNumber (formatInt i) = true := by
  rw [formatInt_eq]
  split
  · simp [validNumber, afterInteger_decimal, afterFraction, afterExponent]
  · simpa using validNumber_decimal i.natAbs

theorem formatInt_numBytes (i : Int) : ∀ c ∈ formatInt i, isNumByte c = true := by
  intro c hc
  rw [formatInt_eq, List.mem_append] at hc
  rcases hc with hc | hc
  · split at hc
    · simp only [List.mem_singleton] at hc
      subst hc; decide
    · simp at hc
  · simp [isNumByte, decimal_all_digit _ c hc]

theorem decodeInt_formatInt (i cur : Int) (h : -(2 ^ 63 : Int) ≤ i ∧ i < 2 ^ 63) :
    decodeInt (.number (formatInt i)) cur = .ok i := by
  rw [formatInt_eq]
  by_cases hi : i < 0
  · have e : -(i.natAbs : Int) = i := by omega
    simp only [decodeInt, hi, if_true, List.singleton_append, List.head?_cons, List.tail_cons,
      digitsVal_decimal, e]
    rw [if_pos h]
  · have hh : ((decimal i.natAbs).head? = some 45) = False := by
      simpa using decimal_head_ne i.natAbs
    have e : (i.natAbs : Int) = i := by omega
    simp only [decodeInt, hi, if_false, List.nil_append, hh, digitsVal_decimal, e]
    rw [if_pos h]

theorem decodeUintPtr_formatInt (n : Nat) (cur : Option Nat) (h : n < 2 ^ 64) :
    decodeUintPtr (.number (formatInt (n : Int))) cur = .ok (some n) := by
  rw [formatInt_eq]
  have e : ¬ ((n : Int) < 0) := by omega
  simp only [decodeUintPtr, e, if_false, List.nil_append, Int.natAbs_ofNat, digitsVal_decimal]
  rw [if_pos h]


/-! ### Strings -/

/-- The result of parsing the rest of a string body, with `pre` put in front. -/
def consOut (pre : Bytes) (r : Except JsonErr (Bytes × Bytes)) : Except JsonErr (Bytes × Bytes) :=
  r.map fun p => (pre ++ p.1, p.2)

theorem consOut_append (p q : Bytes) (r : Except JsonErr (Bytes × Bytes)) :
    consOut p (consOut q r) = consOut (p ++ q) r := by
  cases r <;> simp [consOut, Except.map]

theorem consOut_nil (r : Except JsonErr (Bytes × Bytes)) : consOut [] r = r := by
  cases r <;> simp [consOut, Except.map]

/-- A raw byte of a string body is copied. -/
theorem parseStringBody_raw (c : Nat) (T : Bytes) (h1 : 32 ≤ c) (h2 : c ≠ 34) (h3 : c ≠ 92) :
    parseStringBody none (c :: T) = consOut [c] (parseStringBody none T) := by
  conv_lhs => unfold parseStringBody
  split
  · contradiction
  · rename_i heq; simp at heq; omega
  · rename_i heq; simp at heq; omega
  · rename_i heq; simp at heq; omega
  · rename_i heq
    simp at heq
    obtain ⟨rfl, rfl⟩ := heq
    have : ¬ (c < 32 ∨ c = 92) := by omega
    simp only [this, if_false, flushSurrogate]
    cases parseStringBody none T <;> simp [consOut, Except.map]

/-- A two-byte escape of a string body. -/
theorem parseStringBody_short (c x : Nat) (T : Bytes) (hc : c ≠ 117)
    (hx : (if c = 34 ∨ c = 92 ∨ c = 47 then some c
      else if c = 98 then some 8
      else if c = 102 then some 12
      else if c = 110 then some 10
      else if c = 114 then some 13
      else if c = 116 then some 9
      else none) = some x) :
    parseStringBody none (92 :: c :: T) = consOut [x] (parseStringBody none T) := by
  conv_lhs => unfold parseStringBody
  split
  · contradiction
  · rename_i heq; simp at heq
  · rename_i heq; simp at heq; omega
  · rename_i heq
    simp at heq
    obtain ⟨rfl, rfl⟩ := heq
    simp only [hx, flushSurrogate]
    cases parseStringBody none T <;> simp [consOut, Except.map]
  · rename_i h1 h2 h3
    simp only [List.cons.injEq] at h3
    exact (h2 c T h3.1.symm h3.2.symm).elim

/-- A `\u` escape of a string body that names a rune outside the surrogates. -/
theorem parseStringBody_u (h1 h2 h3 h4 r : Nat) (T : Bytes) (hr : hex4 h1 h2 h3 h4 = some r)
    (hs : ¬ (55296 ≤ r ∧ r < 57344)) :
    parseStringBody none (92 :: 117 :: h1 :: h2 :: h3 :: h4 :: T) =
      consOut (utf8Encode r) (parseStringBody none T) := by
  conv_lhs => unfold parseStringBody
  have ha : ¬ (56320 ≤ r ∧ r < 57344) := by omega
  have hb : ¬ (55296 ≤ r ∧ r < 56320) := by omega
  simp only [hr, ha, hb, if_false, flushSurrogate]
  cases parseStringBody none T <;> simp [consOut, Except.map]

theorem hex4_lower (c : Nat) (hc : c < 256) :
    hex4 48 48 (lowerhex (c / 16)) (lowerhex (c % 16)) = some c := by
  have h1 : ∀ n, n < 16 → ishex (lowerhex n) = true ∧ unhex (lowerhex n) = n := by
    intro n hn
    interval_cases n <;> decide
  have h0 : ishex 48 = true ∧ unhex 48 = 0 := by decide
  obtain ⟨a1, a2⟩ := h1 (c / 16) (by omega)
  obtain ⟨b1, b2⟩ := h1 (c % 16) (by omega)
  simp only [hex4, h0.1, h0.2, a1, a2, b1, b2, and_self, if_true]
  congr 1
  omega

/-- An escaped ASCII byte is read back as that byte. -/
theorem parseStringBody_escapeASCII (c : Nat) (T : Bytes) (hc : c < 128) :
    parseStringBody none (escapeASCII c ++ T) = consOut [c] (parseStringBody none T) := by
  unfold escapeASCII
  split_ifs with a1 a2 a3 a4 a5 a6 a7
  · exact parseStringBody_short c c T (by omega) (by rcases a1 with rfl | rfl <;> rfl)
  · subst a2; exact parseStringBody_short 98 8 T (by omega) rfl
  · subst a3; exact parseStringBody_short 102 12 T (by omega) rfl
  · subst a4; exact parseStringBody_short 110 10 T (by omega) rfl
  · subst a5; exact parseStringBody_short 114 13 T (by omega) rfl
  · subst a6; exact parseStringBody_short 116 9 T (by omega) rfl
  · have := parseStringBody_u 48 48 (lowerhex (c / 16)) (lowerhex (c % 16)) c T
      (hex4_lower c (by omega)) (by omega)
    simpa [utf8Encode, hc] using this
  · exact parseStringBody_raw c T (by omega) (by omega) (by omega)


theorem leadInfo_some (c sz lo hi : Nat) (h : leadInfo c = some (sz, lo, hi)) :
    128 ≤ lo ∧ hi ≤ 191 ∧
    ((sz = 2 ∧ 194 ≤ c ∧ c ≤ 223) ∨ (sz = 3 ∧ 224 ≤ c ∧ c ≤ 239) ∨
      (sz = 4 ∧ 240 ≤ c ∧ c ≤ 244 ∧ (c = 240 → 144 ≤ lo))) := by
  unfold leadInfo at h
  split_ifs at h <;> simp only [Option.some.injEq, Prod.mk.injEq] at h <;>
    obtain ⟨rfl, rfl, rfl⟩ := h <;> omega

/-- What a well-formed multi-byte sequence at the head of a text looks like. -/
theorem decodeRune_multi (c : Nat) (rest : Bytes) (hc : ¬ c < 128)
    (hv : decodeRune (c :: rest) ≠ (replacementChar, 1)) :
    ∃ pre post, c :: rest = pre ++ post ∧ pre.length = (decodeRune (c :: rest)).2 ∧
      (∀ x ∈ pre, 128 ≤ x) ∧ 0 < pre.length ∧
      ((decodeRune (c :: rest)).1 = 8232 → pre = [226, 128, 168]) ∧
      ((decodeRune (c :: rest)).1 = 8233 → pre = [226, 128, 169]) := by
  unfold decodeRune at hv ⊢
  simp only [hc, if_false] at hv ⊢
  cases hli : leadInfo c with
  | none => simp [hli] at hv
  | some info =>
    obtain ⟨sz, lo, hi⟩ := info
    obtain ⟨hlo, hhi, hsz⟩ := leadInfo_some c sz lo hi hli
    simp only [hli] at hv ⊢
    cases rest with
    | nil => simp at hv
    | cons s1 r1 =>
      simp only at hv ⊢
      by_cases h1 : s1 < lo ∨ hi < s1
      · simp [h1] at hv
      simp only [h1, if_false] at hv ⊢
      by_cases hsz2 : sz ≤ 2
      · simp only [hsz2, if_true]
        refine ⟨[c, s1], r1, rfl, rfl, ?_, by simp, ?_, ?_⟩
        · intro x hx
          simp only [List.mem_cons, List.mem_singleton, List.not_mem_nil, or_false] at hx
          rcases hx with rfl | rfl <;> omega
        · intro h; omega
        · intro h; omega
      simp only [hsz2, if_false] at hv ⊢
      cases r1 with
      | nil => simp at hv
      | cons s2 r2 =>
        simp only at hv ⊢
        by_cases h2 : s2 < 128 ∨ 191 < s2
        · simp [h2] at hv
        simp only [h2, if_false] at hv ⊢
        by_cases hsz3 : sz ≤ 3
        · simp only [hsz3, if_true]
          refine ⟨[c, s1, s2], r2, rfl, rfl, ?_, by simp, ?_, ?_⟩
          · intro x hx
            simp only [List.mem_cons, List.mem_singleton, List.not_mem_nil, or_false] at hx
            rcases hx with rfl | rfl | rfl <;> omega
          · intro h
            have a : c = 226 := by omega
            have a1 : s1 = 128 := by omega
            have a2 : s2 = 168 := by omega
            subst a a1 a2; rfl
          · intro h
            have a : c = 226 := by omega
            have a1 : s1 = 128 := by omega
            have a2 : s2 = 169 := by omega
            subst a a1 a2; rfl
        simp only [hsz3, if_false] at hv ⊢
        cases r2 with
        | nil => simp at hv
        | cons s3 r3 =>
          simp only at hv ⊢
          by_cases h3 : s3 < 128 ∨ 191 < s3
          · simp [h3] at hv
          simp only [h3, if_false] at hv ⊢
          refine ⟨[c, s1, s2, s3], r3, rfl, rfl, ?_, by simp, ?_, ?_⟩
          · intro x hx
            simp only [List.mem_cons, List.mem_singleton, List.not_mem_nil, or_false] at hx
            rcases hx with rfl | rfl | rfl | rfl <;> omega
          · intro h; omega
          · intro h; omega

theorem parseStringBody_raws (pre T : Bytes) (h : ∀ x ∈ pre, 128 ≤ x) :
    parseStringBody none (pre ++ T) = consOut pre (parseStringBody none T) := by
  induction pre with
  | nil => simp [consOut_nil]
  | cons x pre ih =>
    have hx := h x (List.mem_cons_self _ _)
    rw [List.cons_append, parseStringBody_raw x _ (by omega) (by omega) (by omega),
      ih (fun y hy => h y (List.mem_cons_of_mem _ hy)), consOut_append]
    rfl

/-- The text `appendString` writes for valid UTF-8 is read back as it was. -/
theorem parseStringBody_appendStringLoop (fuel : Nat) : ∀ (s T : Bytes), s.length ≤ fuel →
    validLoop fuel s = true →
    parseStringBody none (appendStringLoop fuel s ++ 34 :: T) = .ok (s, T) := by
  induction fuel with
  | zero =>
    intro s T hl hv
    have : s = [] := by simpa using hl
    subst this
    rfl
  | succ fuel ih =>
    intro s T hl hv
    cases s with
    | nil => rfl
    | cons c rest =>
      simp only [List.length_cons, Nat.add_le_add_iff_right] at hl
      simp only [validLoop] at hv
      split at hv
      · exact absurd hv (by simp)
      rename_i hne
      by_cases hc : c < 128
      · have hd : decodeRune (c :: rest) = (c, 1) := by simp [decodeRune, hc]
        rw [hd] at hv
        simp only [List.drop_succ_cons, List.drop_zero] at hv
        simp only [appendStringLoop, hc, if_true, List.append_assoc]
        rw [parseStringBody_escapeASCII c _ hc, ih rest T hl hv]
        rfl
      · obtain ⟨pre, post, hpp, hlen, hall, hpos, h28, h29⟩ := decodeRune_multi c rest hc hne
        have hdrop : (c :: rest).drop (decodeRune (c :: rest)).2 = post := by
          rw [← hlen, hpp]; simp
        have htake : (c :: rest).take (decodeRune (c :: rest)).2 = pre := by
          rw [← hlen, hpp]; simp
        have hpl : post.length ≤ fuel := by
          have := congrArg List.length hpp
          simp only [List.length_cons, List.length_append] at this
          omega
        rw [hdrop] at hv
        simp only [appendStringLoop, hc, if_false, hne, hdrop, htake]
        split_ifs with hu
        · rcases hu with hu | hu
          · have e : lowerhex (8232 % 16) = 56 := by decide
            rw [hu, hpp, h28 hu, e]
            show parseStringBody none
              (92 :: 117 :: 50 :: 48 :: 50 :: 56 :: (appendStringLoop fuel post ++ 34 :: T)) = _
            rw [parseStringBody_u 50 48 50 56 8232 _ (by decide) (by omega), ih post T hpl hv]
            rfl
          · have e : lowerhex (8233 % 16) = 57 := by decide
            rw [hu, hpp, h29 hu, e]
            show parseStringBody none
              (92 :: 117 :: 50 :: 48 :: 50 :: 57 :: (appendStringLoop fuel post ++ 34 :: T)) = _
            rw [parseStringBody_u 50 48 50 57 8233 _ (by decide) (by omega), ih post T hpl hv]
            rfl
        · rw [List.append_assoc, parseStringBody_raws pre _ hall, ih post T hpl hv, hpp]
          rfl


/-! ### Value trees -/

mutual
/-- Whether a value tree holds only valid UTF-8 strings and number literals. -/
def wfValue : JVal → Bool
  | .null => true
  | .bool _ => true
  | .number lit => validNumber lit && lit.all isNumByte
  | .string s => validString s
  | .array xs => wfElements xs
  | .object kvs => wfMembers kvs
def wfElements : JArr → Bool
  | .nil => true
  | .cons x xs => wfValue x && wfElements xs
def wfMembers : JObj → Bool
  | .nil => true
  | .cons k v rest => validString k && wfValue v && wfMembers rest
end

mutual
/-- The recursion depth `parseValue` needs for a value. -/
def needValue : JVal → Nat
  | .array xs => 1 + needElements xs
  | .object kvs => 1 + needMembers kvs
  | _ => 1
def needElements : JArr → Nat
  | .nil => 0
  | .cons x xs => 1 + max (needValue x) (needElements xs)
def needMembers : JObj → Nat
  | .nil => 0
  | .cons _ v rest => 1 + max (needValue v) (needMembers rest)
end

/-- A text that does not continue a number literal. -/
def NumStop (rest : Bytes) : Prop := ∀ c ∈ rest.head?, isNumByte c = false

theorem parseStringBody_appendString (s T : Bytes) (h : validString s = true) :
    parseStringBody none (appendStringLoop s.length s ++ 34 :: T) = .ok (s, T) :=
  parseStringBody_appendStringLoop s.length s T (le_refl _) h

theorem validNumber_ne_nil (lit : Bytes) (h : validNumber lit = true) : lit ≠ [] := by
  rintro rfl
  simp [validNumber, afterInteger] at h

theorem takeWhile_numBytes (lit rest : Bytes) (h : lit.all isNumByte = true) (hr : NumStop rest) :
    (lit ++ rest).takeWhile isNumByte = lit ∧ (lit ++ rest).dropWhile isNumByte = rest := by
  induction lit with
  | nil =>
    cases rest with
    | nil => simp
    | cons c t =>
      have : isNumByte c = false := hr c (by simp)
      simp [List.takeWhile_cons, List.dropWhile_cons, this]
  | cons c lit ih =>
    simp only [List.all_cons, Bool.and_eq_true] at h
    simp [List.takeWhile_cons, List.dropWhile_cons, h.1, ih h.2]

theorem isNumByte_iff (c : Nat) : isNumByte c = true ↔
    (48 ≤ c ∧ c ≤ 57) ∨ c = 45 ∨ c = 43 ∨ c = 46 ∨ c = 101 ∨ c = 69 := by
  simp [isNumByte, isDigit]

/-- The first byte of a printed value. -/
theorem printValue_head (v : JVal) (h : wfValue v = true) :
    ∃ c t, printValue v = c :: t ∧ isSpace c = false ∧ c ≠ 93 ∧ c ≠ 125 := by
  cases v with
  | null => exact ⟨110, _, rfl, by decide, by decide, by decide⟩
  | bool v => cases v <;> exact ⟨_, _, rfl, by decide, by decide, by decide⟩
  | number lit =>
    simp only [wfValue, Bool.and_eq_true] at h
    cases lit with
    | nil => exact absurd rfl (validNumber_ne_nil _ h.1)
    | cons c t =>
      refine ⟨c, t, rfl, ?_⟩
      have hc : isNumByte c = true := by
        have := h.2
        simp only [List.all_cons, Bool.and_eq_true] at this
        exact this.1
      rw [isNumByte_iff] at hc
      simp only [isSpace, Bool.decide_or, Bool.or_eq_false_iff, decide_eq_false_iff_not]
      omega
  | string s => exact ⟨34, _, rfl, by decide, by decide, by decide⟩
  | array xs => exact ⟨91, _, rfl, by decide, by decide, by decide⟩
  | object kvs => exact ⟨123, _, rfl, by decide, by decide, by decide⟩


theorem skipSpace_cons (c : Nat) (t : Bytes) (h : isSpace c = false) :
    skipSpace (c :: t) = c :: t := by
  simp [skipSpace, h]

/-- Parsing a number literal at the head of a text. -/
theorem parseValue_number (lit rest : Bytes) (f : Nat) (h1 : validNumber lit = true)
    (h2 : lit.all isNumByte = true) (hr : NumStop rest) :
    parseValue (f + 1) (lit ++ rest) = .ok (.number lit, rest) := by
  obtain ⟨ht, hd⟩ := takeWhile_numBytes lit rest h2 hr
  cases lit with
  | nil => exact absurd rfl (validNumber_ne_nil _ h1)
  | cons c t =>
    have hc : isNumByte c = true := by
      simp only [List.all_cons, Bool.and_eq_true] at h2
      exact h2.1
    rw [isNumByte_iff] at hc
    have hsp : isSpace c = false := by
      simp only [isSpace, Bool.decide_or, Bool.or_eq_false_iff, decide_eq_false_iff_not]
      omega
    rw [List.cons_append] at ht hd ⊢
    unfold parseValue
    rw [skipSpace_cons c _ hsp]
    split
    · rename_i heq; simp at heq
    · rename_i heq; simp at heq; omega
    · rename_i heq; simp at heq; omega
    · rename_i heq; simp at heq; omega
    · rename_i heq; simp at heq; omega
    · rename_i heq; simp at heq; omega
    · rename_i heq; simp at heq; omega
    · rename_i heq
      simp only [List.cons.injEq] at heq
      obtain ⟨rfl, rfl⟩ := heq
      rw [ht, hd, if_pos h1]

theorem parseValue_array (f : Nat) (c : Nat) (t : Bytes) (hsp : isSpace c = false)
    (h93 : c ≠ 93) :
    parseValue (f + 1) (91 :: c :: t) =
      (parseElements f (c :: t)).map fun p => (JVal.array p.1, p.2) := by
  have h : parseValue (f + 1) (91 :: c :: t) =
      match skipSpace (c :: t) with
      | 93 :: rest1 => .ok (.array .nil, rest1)
      | _ =>
        match parseElements f (c :: t) with
        | .error e => .error e
        | .ok (xs, rest1) => .ok (.array xs, rest1) := rfl
  rw [h, skipSpace_cons c t hsp]
  split
  · rename_i heq
    simp only [List.cons.injEq] at heq
    exact absurd heq.1 h93
  · cases parseElements f (c :: t) <;> rfl

theorem parseValue_object (f : Nat) (t : Bytes) :
    parseValue (f + 1) (123 :: 34 :: t) =
      (parseMembers f (34 :: t)).map fun p => (JVal.object p.1, p.2) := by
  have h : parseValue (f + 1) (123 :: 34 :: t) =
      match parseMembers f (34 :: t) with
      | .error e => .error e
      | .ok (xs, rest1) => .ok (.object xs, rest1) := rfl
  rw [h]
  cases parseMembers f (34 :: t) <;> rfl

mutual
theorem parseValue_print : ∀ (v : JVal), wfValue v = true → ∀ (fuel : Nat) (rest : Bytes),
    needValue v ≤ fuel → NumStop rest → parseValue fuel (printValue v ++ rest) = .ok (v, rest)
  | .null, _, fuel, rest, hf, _ => by
    obtain ⟨f, rfl⟩ : ∃ f, fuel = f + 1 := ⟨fuel - 1, by simp [needValue] at hf; omega⟩
    rfl
  | .bool true, _, fuel, rest, hf, _ => by
    obtain ⟨f, rfl⟩ : ∃ f, fuel = f + 1 := ⟨fuel - 1, by simp [needValue] at hf; omega⟩
    rfl
  | .bool false, _, fuel, rest, hf, _ => by
    obtain ⟨f, rfl⟩ : ∃ f, fuel = f + 1 := ⟨fuel - 1, by simp [needValue] at hf; omega⟩
    rfl
  | .number lit, hw, fuel, rest, hf, hr => by
    obtain ⟨f, rfl⟩ : ∃ f, fuel = f + 1 := ⟨fuel - 1, by simp [needValue] at hf; omega⟩
    simp only [wfValue, Bool.and_eq_true] at hw
    exact parseValue_number lit rest f hw.1 hw.2 hr
  | .string s, hw, fuel, rest, hf, _ => by
    obtain ⟨f, rfl⟩ : ∃ f, fuel = f + 1 := ⟨fuel - 1, by simp [needValue] at hf; omega⟩
    have := parseStringBody_appendString s rest hw
    simp only [printValue, appendString, List.append_assoc, List.singleton_append, parseValue,
      skipSpace, isSpace, List.cons_append, List.nil_append]
    simp [this]
  | .array .nil, _, fuel, rest, hf, _ => by
    obtain ⟨f, rfl⟩ : ∃ f, fuel = f + 1 := ⟨fuel - 1, by simp [needValue] at hf; omega⟩
    simp [printValue, printElements, parseValue, skipSpace, isSpace]
  | .array (.cons x xs), hw, fuel, rest, hf, _ => by
    obtain ⟨f, rfl⟩ : ∃ f, fuel = f + 1 := ⟨fuel - 1, by simp [needValue] at hf; omega⟩
    simp only [wfValue, wfElements, Bool.and_eq_true] at hw
    have h := parseElements_print x xs hw.1 hw.2 f rest (by simp [needValue] at hf; omega)
    obtain ⟨c, t, hc, hsp, h93, -⟩ := printValue_head x hw.1
    simp only [List.append_assoc] at h
    simp only [printValue, printElements, if_true, List.nil_append, List.append_assoc,
      List.singleton_append, List.cons_append]
    rw [hc, List.cons_append] at h ⊢
    rw [parseValue_array f c _ hsp h93, h]
    rfl
  | .object .nil, _, fuel, rest, hf, _ => by
    obtain ⟨f, rfl⟩ : ∃ f, fuel = f + 1 := ⟨fuel - 1, by simp [needValue] at hf; omega⟩
    simp [printValue, printMembers, parseValue, skipSpace, isSpace]
  | .object (.cons k v kvs), hw, fuel, rest, hf, _ => by
    obtain ⟨f, rfl⟩ : ∃ f, fuel = f + 1 := ⟨fuel - 1, by simp [needValue] at hf; omega⟩
    simp only [wfValue, wfMembers, Bool.and_eq_true] at hw
    have h := parseMembers_print k v kvs hw.1.1 hw.1.2 hw.2 f rest
      (by simp [needValue] at hf; omega)
    simp only [List.append_assoc, appendString, List.singleton_append, List.cons_append,
      List.nil_append] at h
    simp only [printValue, printMembers, if_true, List.nil_append, List.append_assoc,
      List.singleton_append, List.cons_append, appendString]
    rw [parseValue_object f _, h]
    rfl
termination_by v => sizeOf v
decreasing_by all_goals (simp_wf; try omega)
theorem parseElements_print : ∀ (x : JVal) (xs : JArr), wfValue x = true → wfElements xs = true →
    ∀ (fuel : Nat) (rest : Bytes), needElements (.cons x xs) ≤ fuel →
    parseElements fuel (printValue x ++ printElements false xs ++ 93 :: rest)
      = .ok (.cons x xs, rest)
  | x, .nil, hx, _, fuel, rest, hf => by
    obtain ⟨f, rfl⟩ : ∃ f, fuel = f + 1 := ⟨fuel - 1, by simp [needElements] at hf; omega⟩
    have := parseValue_print x hx f (93 :: rest) (by simp [needElements] at hf; omega)
      (by intro c hc; simp at hc; subst hc; decide)
    simp [parseElements, printElements, this, skipSpace, isSpace]
  | x, .cons y ys, hx, hxs, fuel, rest, hf => by
    obtain ⟨f, rfl⟩ : ∃ f, fuel = f + 1 := ⟨fuel - 1, by simp [needElements] at hf; omega⟩
    simp only [wfElements, Bool.and_eq_true] at hxs
    have h1 := parseValue_print x hx f (44 :: (printValue y ++ printElements false ys ++ 93 :: rest))
      (by simp [needElements] at hf; omega) (by intro c hc; simp at hc; subst hc; decide)
    have h2 := parseElements_print y ys hxs.1 hxs.2 f rest (by simp [needElements] at hf ⊢; omega)
    simp only [List.append_assoc] at h1 h2
    simp [parseElements, printElements, h1, h2, skipSpace, isSpace]
termination_by x xs => sizeOf x + sizeOf xs + 1
decreasing_by all_goals (simp_wf; try omega)
theorem parseMembers_print : ∀ (k : Bytes) (v : JVal) (kvs : JObj), validString k = true →
    wfValue v = true → wfMembers kvs = true →
    ∀ (fuel : Nat) (rest : Bytes), needMembers (.cons k v kvs) ≤ fuel →
    parseMembers fuel (appendString k ++ [58] ++ printValue v ++ printMembers false kvs ++
      125 :: rest) = .ok (.cons k v kvs, rest)
  | k, v, .nil, hk, hv, _, fuel, rest, hf => by
    obtain ⟨f, rfl⟩ : ∃ f, fuel = f + 1 := ⟨fuel - 1, by simp [needMembers] at hf; omega⟩
    have h0 := parseStringBody_appendString k (58 :: (printValue v ++ 125 :: rest)) hk
    have h1 := parseValue_print v hv f (125 :: rest) (by simp [needMembers] at hf; omega)
      (by intro c hc; simp at hc; subst hc; decide)
    simp [parseMembers, printMembers, appendString, h0, h1, skipSpace, isSpace]
  | k, v, .cons k1 v1 kvs, hk, hv, hkvs, fuel, rest, hf => by
    obtain ⟨f, rfl⟩ : ∃ f, fuel = f + 1 := ⟨fuel - 1, by simp [needMembers] at hf; omega⟩
    simp only [wfMembers, Bool.and_eq_true] at hkvs
    have h0 := parseStringBody_appendString k (58 :: (printValue v ++ 44 :: (appendString k1 ++
      [58] ++ printValue v1 ++ printMembers false kvs ++ 125 :: rest))) hk
    have h1 := parseValue_print v hv f (44 :: (appendString k1 ++
      [58] ++ printValue v1 ++ printMembers false kvs ++ 125 :: rest))
      (by simp [needMembers] at hf; omega) (by intro c hc; simp at hc; subst hc; decide)
    have h2 := parseMembers_print k1 v1 kvs hkvs.1.1 hkvs.1.2 hkvs.2 f rest
      (by simp [needMembers] at hf ⊢; omega)
    simp only [List.append_assoc, appendString, List.singleton_append, List.cons_append,
      List.nil_append] at h0 h1 h2
    simp [parseMembers, printMembers, appendString, h0, h1, h2, skipSpace, isSpace]
termination_by k v kvs => sizeOf v + sizeOf kvs + 1
decreasing_by all_goals (simp_wf; try omega)
end

mutual
theorem needValue_le : ∀ (v : JVal), needValue v ≤ 2 * (printValue v).length + 1
  | .null => by simp [needValue]
  | .bool _ => by simp [needValue]
  | .number _ => by simp [needValue]
  | .string _ => by simp [needValue]
  | .array .nil => by simp [needValue, needElements]
  | .array (.cons x xs) => by
    have h1 := needValue_le x
    have h2 := needElements_le xs
    simp only [needValue, needElements, printValue, printElements, List.length_append,
      List.length_cons, List.length_nil, if_true]
    omega
  | .object .nil => by simp [needValue, needMembers]
  | .object (.cons k v kvs) => by
    have h1 := needValue_le v
    have h2 := needMembers_le kvs
    simp only [needValue, needMembers, printValue, printMembers, List.length_append,
      List.length_cons, List.length_nil, if_true]
    omega
termination_by v => sizeOf v
decreasing_by all_goals (simp_wf; try omega)
theorem needElements_le : ∀ (xs : JArr), needElements xs ≤ 2 * (printElements false xs).length
  | .nil => by simp [needElements]
  | .cons x xs => by
    have h1 := needValue_le x
    have h2 := needElements_le xs
    simp only [needElements, printElements, List.length_append,
      List.length_cons, List.length_nil, Bool.false_eq_true, if_false]
    omega
termination_by xs => sizeOf xs
decreasing_by all_goals (simp_wf; try omega)
theorem needMembers_le : ∀ (kvs : JObj), needMembers kvs ≤ 2 * (printMembers false kvs).length
  | .nil => by simp [needMembers]
  | .cons k v kvs => by
    have h1 := needValue_le v
    have h2 := needMembers_le kvs
    simp only [needMembers, printMembers, List.length_append,
      List.length_cons, List.length_nil, Bool.false_eq_true, if_false]
    omega
termination_by kvs => sizeOf kvs
decreasing_by all_goals (simp_wf; try omega)
end

/-- The compact text of a well-formed value tree parses back to the tree. -/
theorem parseJSON_printValue (v : JVal) (h : wfValue v = true) :
    parseJSON (printValue v) = .ok v := by
  have h1 := parseValue_print v h (2 * (printValue v).length + 2) []
    (by have := needValue_le v; omega) (by intro c hc; simp at hc)
  rw [List.append_nil] at h1
  simp [parseJSON, h1, skipSpace]


/-! ### Times -/

/-- The last `w` decimal digits of a number. -/
def fixedDigits : Nat → Nat → Bytes
  | 0, _ => []
  | w + 1, n => fixedDigits w (n / 10) ++ [48 + n % 10]

theorem fixedDigits_zero (w : Nat) : fixedDigits w 0 = List.replicate w 48 := by
  induction w with
  | zero => rfl
  | succ w ih =>
    simp only [fixedDigits, Nat.zero_div, ih, Nat.zero_mod, Nat.add_zero]
    exact (List.replicate_succ' w 48).symm

theorem decimal_length_le (w : Nat) : ∀ n, n < 10 ^ w → 0 < w → (decimal n).length ≤ w := by
  induction w with
  | zero => intro n _ h; omega
  | succ w ih =>
    intro n hn _
    rw [decimal]
    split
    · simp
    · rename_i h10
      have hw : 0 < w := by
        rcases Nat.eq_zero_or_pos w with h | h
        · subst h; simp at hn; omega
        · exact h
      have := ih (n / 10) (by rw [pow_succ] at hn; omega) hw
      simp only [List.length_append, List.length_singleton]
      omega

theorem pad_eq (w m : Nat) :
    pad w m = List.replicate (w - (decimal m).length) 48 ++ decimal m := by
  simp only [pad, toDigits_eq]

theorem pad_eq_fixedDigits (w : Nat) : ∀ n, n < 10 ^ (w + 1) →
    pad (w + 1) n = fixedDigits (w + 1) n := by
  induction w with
  | zero =>
    intro n hn
    have h10 : n < 10 := by simpa using hn
    have h1 : n % 10 = n := by omega
    rw [pad_eq, decimal, if_pos h10]
    simp [fixedDigits, h1]
  | succ w ih =>
    intro n hn
    rw [pad_eq, fixedDigits]
    by_cases h10 : n < 10
    · have h0 : n / 10 = 0 := by omega
      have h1 : n % 10 = n := by omega
      rw [h0, h1, fixedDigits_zero, decimal, if_pos h10]
      simp
    · have hlt : n / 10 < 10 ^ (w + 1) := by rw [pow_succ] at hn; omega
      have hlen := decimal_length_le (w + 1) (n / 10) hlt (by omega)
      rw [← ih (n / 10) hlt, pad_eq, decimal, if_neg h10]
      simp only [List.length_append, List.length_singleton, List.append_assoc]
      congr 2
      omega

theorem pad_two (n : Nat) (h : n < 100) : pad 2 n = [48 + n / 10 % 10, 48 + n % 10] := by
  rw [pad_eq_fixedDigits 1 n (by omega)]
  simp [fixedDigits]

theorem pad_four (n : Nat) (h : n < 10000) :
    pad 4 n = [48 + n / 10 / 10 / 10 % 10, 48 + n / 10 / 10 % 10, 48 + n / 10 % 10, 48 + n % 10] := by
  rw [pad_eq_fixedDigits 3 n (by omega)]
  simp [fixedDigits]

theorem digitsVal_two (a c : Nat) (ha : a < 10) (hc : c < 10) :
    digitsVal [48 + a, 48 + c] = some (a * 10 + c) := by
  have h1 : isDigit (48 + a) = true := by simp [isDigit]; omega
  have h2 : isDigit (48 + c) = true := by simp [isDigit]; omega
  simp [digitsVal, h1, h2]

theorem digitsVal_four (a c d e : Nat) (ha : a < 10) (hc : c < 10) (hd : d < 10) (he : e < 10) :
    digitsVal [48 + a, 48 + c, 48 + d, 48 + e] = some (((a * 10 + c) * 10 + d) * 10 + e) := by
  have h1 : isDigit (48 + a) = true := by simp [isDigit]; omega
  have h2 : isDigit (48 + c) = true := by simp [isDigit]; omega
  have h3 : isDigit (48 + d) = true := by simp [isDigit]; omega
  have h4 : isDigit (48 + e) = true := by simp [isDigit]; omega
  simp [digitsVal, h1, h2, h3, h4]

theorem fixedDigits_length (w n : Nat) : (fixedDigits w n).length = w := by
  induction w generalizing n with
  | zero => rfl
  | succ w ih => simp [fixedDigits, ih]

theorem fixedDigits_digit (w n : Nat) : ∀ c ∈ fixedDigits w n, isDigit c = true := by
  induction w generalizing n with
  | zero => simp [fixedDigits]
  | succ w ih =>
    intro c hc
    simp only [fixedDigits, List.mem_append, List.mem_singleton] at hc
    rcases hc with hc | rfl
    · exact ih _ c hc
    · simp [isDigit]; omega

theorem fixedDigits_foldl (w : Nat) : ∀ n, n < 10 ^ w →
    (fixedDigits w n).foldl (fun acc c => acc * 10 + (c - 48)) 0 = n := by
  induction w with
  | zero => intro n hn; simp at hn; subst hn; rfl
  | succ w ih =>
    intro n hn
    rw [fixedDigits, List.foldl_append, ih (n / 10) (by rw [pow_succ] at hn; omega)]
    simp; omega

theorem digitsVal_fixedDigits (w n : Nat) (hn : n < 10 ^ (w + 1)) :
    digitsVal (fixedDigits (w + 1) n) = some n := by
  have h1 : fixedDigits (w + 1) n ≠ [] := by
    intro h
    have := congrArg List.length h
    rw [fixedDigits_length] at this
    simp at this
  have h2 : (fixedDigits (w + 1) n).all isDigit = true := by
    rw [List.all_eq_true]; exact fixedDigits_digit _ _
  simp [digitsVal, h1, h2, fixedDigits_foldl _ n hn]

/-- A list is its part before the trailing zeros followed by zeros. -/
theorem trim_append (L : Bytes) :
    (L.reverse.dropWhile (fun c => c == 48)).reverse ++
      List.replicate (L.length - (L.reverse.dropWhile (fun c => c == 48)).reverse.length) 48 = L := by
  have h := List.takeWhile_append_dropWhile (fun c => c == 48) L.reverse
  have h2 := congrArg List.reverse h
  rw [List.reverse_append, List.reverse_reverse] at h2
  have h3 : (L.reverse.takeWhile (fun c => c == 48)) =
      List.replicate (L.reverse.takeWhile (fun c => c == 48)).length 48 := by
    rw [List.eq_replicate_iff]
    refine ⟨rfl, ?_⟩
    intro x hx
    have := List.mem_takeWhile_imp hx
    simpa using this
  have hlen := congrArg List.length h2
  rw [List.length_append, List.length_reverse, List.length_reverse] at hlen
  conv_rhs => rw [← h2]
  congr 1
  rw [h3, List.reverse_replicate, List.length_reverse]
  congr 1
  omega

theorem trim_mem (L : Bytes) (c : Nat)
    (h : c ∈ (L.reverse.dropWhile (fun c => c == 48)).reverse) : c ∈ L := by
  rw [List.mem_reverse] at h
  have := (List.dropWhile_sublist (fun c => c == 48)).subset h
  simpa using this

theorem takeWhile_digits (ds zone : Bytes) (h : ∀ c ∈ ds, isDigit c = true)
    (hz : ∀ c ∈ zone.head?, isDigit c = false) :
    (ds ++ zone).takeWhile isDigit = ds ∧ (ds ++ zone).dropWhile isDigit = zone := by
  induction ds with
  | nil =>
    cases zone with
    | nil => simp
    | cons c t =>
      have : isDigit c = false := hz c (by simp)
      simp [List.takeWhile_cons, List.dropWhile_cons, this]
  | cons c ds ih =>
    have hc := h c (List.mem_cons_self _ _)
    have := ih fun x hx => h x (List.mem_cons_of_mem _ hx)
    simp [List.takeWhile_cons, List.dropWhile_cons, hc, this]

/-- The zone `Z`. -/
theorem parseFractionZone_utc : parseFractionZone (b "Z") = some (0, 0) := by decide

/-- A zone written as sign, hours and minutes. -/
theorem parseFractionZone_offset (sg hh mm : Nat) (hsg : sg = 43 ∨ sg = 45) (h1 : hh < 24)
    (h2 : mm < 60) :
    parseFractionZone [sg, 48 + hh / 10 % 10, 48 + hh % 10, 58, 48 + mm / 10 % 10, 48 + mm % 10]
      = some (0, (if sg = 45 then -1 else 1) * (((hh * 60 + mm) * 60 : Nat) : Int)) := by
  have hn1 : numAt [sg, 48 + hh / 10 % 10, 48 + hh % 10, 58, 48 + mm / 10 % 10, 48 + mm % 10] 1 2
      = some hh := by
    simp only [numAt, List.drop_succ_cons, List.drop_zero, List.take_succ_cons, List.take_zero,
      List.length_cons, List.length_nil, if_true]
    rw [digitsVal_two _ _ (by omega) (by omega)]
    congr 1; omega
  have hn2 : numAt [sg, 48 + hh / 10 % 10, 48 + hh % 10, 58, 48 + mm / 10 % 10, 48 + mm % 10] 4 2
      = some mm := by
    simp only [numAt, List.drop_succ_cons, List.drop_zero, List.take_succ_cons, List.take_zero,
      List.length_cons, List.length_nil, if_true]
    rw [digitsVal_two _ _ (by omega) (by omega)]
    congr 1; omega
  have hd : sg ≠ dot := by rcases hsg with rfl | rfl <;> decide
  have hne : [sg, 48 + hh / 10 % 10, 48 + hh % 10, 58, 48 + mm / 10 % 10, 48 + mm % 10] ≠ b "Z" := by
    intro h
    have := congrArg List.length h
    simp [b] at this
  have hsg2 : sg = 43 ∨ sg = 45 := hsg
  simp only [parseFractionZone, List.head?_cons, Option.some.injEq, hd, if_false, hne, hn1, hn2,
    List.length_cons, List.length_nil, List.getD_cons_succ, List.getD_cons_zero, colon, hsg2,
    h1, h2, and_self, if_true, Nat.reduceAdd]

/-- A fraction of a second in front of a zone. -/
theorem parseFractionZone_frac (ds zone : Bytes) (n : Nat) (hne : ds ≠ [])
    (hds : ∀ c ∈ ds, isDigit c = true) (hz : ∀ c ∈ zone.head?, isDigit c = false)
    (hzd : zone.head? ≠ some dot)
    (hv : digitsVal ((ds ++ List.replicate 9 48).take 9) = some n) :
    parseFractionZone (dot :: (ds ++ zone)) = (parseFractionZone zone).map fun p => (n, p.2) := by
  obtain ⟨ht, hd⟩ := takeWhile_digits ds zone hds hz
  simp only [parseFractionZone, List.head?_cons, if_true, List.tail_cons, ht, hd, hne, if_false,
    hv, Option.map_some', hzd]
  split <;> rename_i h
  · simp
  · split <;> rename_i h'
    · split <;> simp
    · simp

/-- The fraction and zone that `formatRFC3339` writes are read back. -/
theorem parseFractionZone_format (nsec : Nat) (off : Int) (hn : nsec < 1000000000)
    (h1 : off.natAbs % 60 = 0) (h2 : off.natAbs < 86400) :
    parseFractionZone
      ((if nsec = 0 then []
        else dot :: ((pad 9 nsec).reverse.dropWhile (fun c => c == 48)).reverse) ++
       (if off = 0 then b "Z"
        else (if off < 0 then [45] else [43]) ++ pad 2 (off.natAbs / 3600) ++ [colon] ++
          pad 2 (off.natAbs / 60 % 60))) = some (nsec, off) := by
  -- the zone
  have hzone : ∃ zone : Bytes, (if off = 0 then b "Z"
        else (if off < 0 then [45] else [43]) ++ pad 2 (off.natAbs / 3600) ++ [colon] ++
          pad 2 (off.natAbs / 60 % 60)) = zone ∧ parseFractionZone zone = some (0, off) ∧
        (∀ c ∈ zone.head?, isDigit c = false) ∧ zone.head? ≠ some dot := by
    by_cases h0 : off = 0
    · subst h0
      exact ⟨b "Z", rfl, parseFractionZone_utc, by decide, by decide⟩
    · rw [if_neg h0, pad_two _ (by omega), pad_two _ (by omega)]
      by_cases hs : off < 0
      · refine ⟨_, rfl, ?_, ?_, ?_⟩
        · rw [if_pos hs]
          have := parseFractionZone_offset 45 (off.natAbs / 3600) (off.natAbs / 60 % 60)
            (Or.inr rfl) (by omega) (by omega)
          simp only [List.singleton_append, List.cons_append, List.nil_append, colon]
          rw [this]
          simp only [if_true]
          congr 2
          omega
        · rw [if_pos hs]; intro c hc; simp at hc; subst hc; decide
        · rw [if_pos hs]; simp [dot]
      · refine ⟨_, rfl, ?_, ?_, ?_⟩
        · rw [if_neg hs]
          have := parseFractionZone_offset 43 (off.natAbs / 3600) (off.natAbs / 60 % 60)
            (Or.inl rfl) (by omega) (by omega)
          simp only [List.singleton_append, List.cons_append, List.nil_append, colon]
          rw [this]
          simp only [Nat.reduceEqDiff, if_false]
          congr 2
          omega
        · rw [if_neg hs]; intro c hc; simp at hc; subst hc; decide
        · rw [if_neg hs]; simp [dot]
  obtain ⟨zone, hzeq, hzp, hzd, hzdot⟩ := hzone
  rw [hzeq]
  by_cases h0 : nsec = 0
  · subst h0
    simpa using hzp
  · rw [if_neg h0, List.cons_append]
    have hp : pad 9 nsec = fixedDigits 9 nsec := pad_eq_fixedDigits 8 nsec (by omega)
    have hval := digitsVal_fixedDigits 8 nsec (by omega)
    have htrim := trim_append (pad 9 nsec)
    have hlen : (pad 9 nsec).length = 9 := by rw [hp, fixedDigits_length]
    rw [parseFractionZone_frac _ zone nsec ?_ ?_ hzd hzdot ?_, hzp]
    · rfl
    · intro hnil
      rw [hnil, hlen] at htrim
      simp only [List.length_nil, Nat.sub_zero, List.nil_append] at htrim
      rw [← htrim] at hp
      rw [← hp] at hval
      have : digitsVal (List.replicate 9 48) = some 0 := by decide
      rw [this] at hval
      simp only [Option.some.injEq] at hval
      exact h0 hval.symm
    · intro c hc
      rw [hp] at hc
      exact fixedDigits_digit 9 nsec c (trim_mem _ c hc)
    · have hle : ((pad 9 nsec).reverse.dropWhile (fun c => c == 48)).reverse.length ≤ 9 := by
        have := (List.dropWhile_sublist (fun c : Nat => c == 48)
          (l := (pad 9 nsec).reverse)).length_le
        rw [List.length_reverse] at this ⊢
        omega
      have hsplit : List.replicate 9 48 =
          List.replicate (9 - ((pad 9 nsec).reverse.dropWhile (fun c => c == 48)).reverse.length) 48
            ++ List.replicate
              (((pad 9 nsec).reverse.dropWhile (fun c => c == 48)).reverse.length) (48 : Nat) := by
        rw [← List.replicate_add]
        congr 1
        omega
      rw [hsplit, ← List.append_assoc]
      rw [hlen] at htrim
      rw [htrim, List.take_left' hlen, hp, hval]

/-- The text of a valid time, in the shape `formatRFC3339` builds it. -/
def timeText (t : Time) : Bytes :=
  pad 4 t.year ++ ([45] ++ (pad 2 t.month ++ ([45] ++ (pad 2 t.day ++ ([84] ++
    (pad 2 t.hour ++ ([colon] ++ (pad 2 t.minute ++ ([colon] ++ (pad 2 t.second ++
    ((if t.nanosecond = 0 then []
      else dot :: ((pad 9 t.nanosecond).reverse.dropWhile (fun c => c == 48)).reverse) ++
    (if t.offset = 0 then b "Z"
      else (if t.offset < 0 then [45] else [43]) ++ pad 2 (t.offset.natAbs / 3600) ++
        [colon] ++ pad 2 (t.offset.natAbs / 60 % 60)))))))))))))

theorem formatRFC3339_valid (t : Time) (h : t.Valid) : formatRFC3339 t = some (timeText t) := by
  obtain ⟨hy, -, -, -, -, -, -, -, -, ho1, ho2⟩ := h
  simp only [formatRFC3339, timeText, hy, ho1, ho2, and_self, if_true, List.append_assoc]

/-- The text `MarshalJSON` writes for a valid time is read back as that time. -/
theorem parseRFC3339_timeText (t : Time) (h : t.Valid) : parseRFC3339 (timeText t) = some t := by
  obtain ⟨hy, hm1, hm2, hd1, hd2, hh, hmi, hs, hn, ho1, ho2⟩ := h
  have hdim : t.day < 100 := by
    have : daysIn t.month t.year ≤ 31 := by
      unfold daysIn; split_ifs <;> omega
    omega
  have hfz := parseFractionZone_format t.nanosecond t.offset hn ho1 ho2
  unfold timeText
  generalize ((if t.nanosecond = 0 then []
        else dot :: ((pad 9 t.nanosecond).reverse.dropWhile (fun c => c == 48)).reverse) ++
      (if t.offset = 0 then b "Z"
        else (if t.offset < 0 then [45] else [43]) ++ pad 2 (t.offset.natAbs / 3600) ++
          [colon] ++ pad 2 (t.offset.natAbs / 60 % 60))) = T at hfz ⊢
  rw [pad_four _ (by omega), pad_two t.month (by omega), pad_two t.day hdim,
    pad_two t.hour (by omega), pad_two t.minute (by omega), pad_two t.second (by omega)]
  simp only [List.append_assoc, List.cons_append, List.nil_append]
  simp only [parseRFC3339, List.getD_cons_succ, List.getD_cons_zero, colon, numAt,
    List.drop_succ_cons, List.drop_zero, List.take_succ_cons, List.take_zero,
    List.length_cons, List.length_nil, and_self, if_true, Nat.reduceAdd, hfz]
  rw [digitsVal_four _ _ _ _ (by omega) (by omega) (by omega) (by omega),
    digitsVal_two _ _ (by omega) (by omega), digitsVal_two _ _ (by omega) (by omega),
    digitsVal_two _ _ (by omega) (by omega), digitsVal_two _ _ (by omega) (by omega),
    digitsVal_two _ _ (by omega) (by omega)]
  have e1 : ((t.year / 10 / 10 / 10 % 10 * 10 + t.year / 10 / 10 % 10) * 10 + t.year / 10 % 10) * 10
      + t.year % 10 = t.year := by omega
  have e2 : t.month / 10 % 10 * 10 + t.month % 10 = t.month := by omega
  have e3 : t.day / 10 % 10 * 10 + t.day % 10 = t.day := by omega
  have e4 : t.hour / 10 % 10 * 10 + t.hour % 10 = t.hour := by omega
  have e5 : t.minute / 10 % 10 * 10 + t.minute % 10 = t.minute := by omega
  have e6 : t.second / 10 % 10 * 10 + t.second % 10 = t.second := by omega
  simp only [e1, e2, e3, e4, e5, e6, hm1, hm2, hd1, hd2, hh, hmi, hs, and_self, if_true]

/-- A string of ASCII bytes is valid UTF-8. -/
theorem validLoop_ascii (fuel : Nat) : ∀ s : Bytes, s.length ≤ fuel → (∀ c ∈ s, c < 128) →
    validLoop fuel s = true := by
  induction fuel with
  | zero =>
    intro s hl _
    have : s = [] := by simpa using hl
    subst this
    rfl
  | succ fuel ih =>
    intro s hl h
    cases s with
    | nil => rfl
    | cons c rest =>
      have hc : c < 128 := h c (List.mem_cons_self _ _)
      have hd : decodeRune (c :: rest) = (c, 1) := by simp [decodeRune, hc]
      have hne : (c, 1) ≠ (replacementChar, 1) := by
        intro he
        have := congrArg Prod.fst he
        simp only [replacementChar] at this
        omega
      simp only [validLoop, hd, hne, if_false, List.drop_succ_cons, List.drop_zero]
      exact ih rest (by simpa using hl) fun x hx => h x (List.mem_cons_of_mem _ hx)

theorem validString_ascii (s : Bytes) (h : ∀ c ∈ s, c < 128) : validString s = true :=
  validLoop_ascii s.length s (le_refl _) h

theorem pad_ascii (w n : Nat) : ∀ c ∈ pad w n, c < 128 := by
  intro c hc
  rw [pad_eq, List.mem_append] at hc
  rcases hc with hc | hc
  · rw [List.mem_replicate] at hc
    omega
  · have := decimal_all_digit n c hc
    simp [isDigit] at this
    omega

theorem ascii_append (A B : Bytes) (hA : ∀ c ∈ A, c < 128) (hB : ∀ c ∈ B, c < 128) :
    ∀ c ∈ A ++ B, c < 128 := by
  intro c hc
  rcases List.mem_append.mp hc with h | h
  · exact hA c h
  · exact hB c h

theorem timeText_ascii (t : Time) : ∀ c ∈ timeText t, c < 128 := by
  unfold timeText
  refine ascii_append _ _ (pad_ascii _ _) (ascii_append _ _ (by decide)
    (ascii_append _ _ (pad_ascii _ _) (ascii_append _ _ (by decide)
    (ascii_append _ _ (pad_ascii _ _) (ascii_append _ _ (by decide)
    (ascii_append _ _ (pad_ascii _ _) (ascii_append _ _ (by decide)
    (ascii_append _ _ (pad_ascii _ _) (ascii_append _ _ (by decide)
    (ascii_append _ _ (pad_ascii _ _) (ascii_append _ _ ?_ ?_)))))))))))
  · split
    · simp
    · intro c hc
      simp only [List.mem_cons, List.mem_reverse] at hc
      rcases hc with rfl | hc
      · decide
      · have := (List.dropWhile_sublist (fun c => c == 48)).subset hc
        rw [List.mem_reverse] at this
        exact pad_ascii _ _ c this
  · split
    · decide
    · refine ascii_append _ _ (ascii_append _ _ (ascii_append _ _ ?_ (pad_ascii _ _))
        (by decide)) (pad_ascii _ _)
      split <;> decide

/-! ### Records -/

theorem wfValue_jsonInt (i : Int) : wfValue (jsonInt i) = true := by
  simp only [jsonInt, wfValue, Bool.and_eq_true, validNumber_formatInt, true_and]
  rw [List.all_eq_true]
  exact formatInt_numBytes i

theorem wfValue_jsonUintPtr (p : Option Nat) : wfValue (jsonUintPtr p) = true := by
  cases p with
  | none => rfl
  | some n => exact wfValue_jsonInt n

theorem decodeUintPtr_json (p cur : Option Nat) (h : ∀ n ∈ p, n < 2 ^ 64) :
    decodeUintPtr (jsonUintPtr p) cur = .ok p := by
  cases p with
  | none => rfl
  | some n => exact decodeUintPtr_formatInt n cur (h n rfl)

theorem decodeInt_json (i cur : Int) (h : IsInt i) : decodeInt (jsonInt i) cur = .ok i :=
  decodeInt_formatInt i cur h

theorem jsonTime_valid (t : Time) (h : t.Valid) : jsonTime t = some (.string (timeText t)) := by
  simp [jsonTime, formatRFC3339_valid t h]

theorem wfValue_timeText (t : Time) : wfValue (.string (timeText t)) = true :=
  validString_ascii _ (timeText_ascii t)

theorem decodeTime_timeText (t cur : Time) (h : t.Valid) :
    decodeTime (.string (timeText t)) cur = .ok t := by
  simp [decodeTime, parseRFC3339_timeText t h]

/-- The tree of a plain `any` value is stored back as that value. -/
theorem jsonAny_plain (d : GoAny) (h : plainAny d = true) :
    ∃ v, jsonAny d = some v ∧ wfValue v = true ∧ ∀ cur, decodeAny v cur = .ok d := by
  cases d with
  | nil => exact ⟨.null, rfl, rfl, fun _ => rfl⟩
  | bool v => exact ⟨.bool v, rfl, rfl, fun _ => rfl⟩
  | string s => exact ⟨.string s, rfl, h, fun _ => rfl⟩
  | int n => simp [plainAny] at h
  | float64 n => simp [plainAny] at h
  | slice xs => simp [plainAny] at h
  | map kvs => simp [plainAny] at h

theorem unmarshalWith_printValue {T : Type} (store : JVal → T → Except JsonErr T) (zero : T)
    (v : JVal) (h : wfValue v = true) :
    unmarshalWith store zero (printValue v) = store v zero := by
  simp only [unmarshalWith, parseJSON_printValue v h]

theorem wfValue_object_cons (k : Bytes) (v : JVal) (rest : JObj) :
    wfValue (.object (.cons k v rest)) = (validString k && wfValue v && wfValue (.object rest)) := by
  simp only [wfValue, wfMembers]

theorem wfValue_object_nil : wfValue (.object .nil) = true := rfl

theorem wfValue_string (s : Bytes) : wfValue (.string s) = validString s := rfl

theorem wfValue_array (xs : JArr) : wfValue (.array xs) = wfElements xs := rfl

theorem validString_timeText (t : Time) : validString (timeText t) = true :=
  validString_ascii _ (timeText_ascii t)

/-! #### User -/

theorem wfValue_jsonUser (u : pages.User) (h : u.WellFormed) :
    wfValue (pages.jsonUser u) = true := by
  have v0 : validString (b "id") = true := by decide
  have v1 : validString (b "name") = true := by decide
  simp only [pages.jsonUser, wfValue_object_cons, wfValue_object_nil, wfValue_string,
    wfValue_jsonInt, h.2, v0, v1, Bool.and_self]

theorem decodeUser_json (u cur : pages.User) (h : u.WellFormed) :
    pages.decodeUser (pages.jsonUser u) cur = .ok u := by
  have k0 : foldKey (b "id") = b "id" := by decide
  have k1 : foldKey (b "name") = b "name" := by decide
  have n1_0 : b "name" ≠ b "id" := by decide
  simp only [pages.decodeUser, pages.jsonUser, decodeStruct, storeMembers, k0, k1, n1_0, if_true,
    if_false, decodeInt_json _ _ h.1, decodeString, Except.map]

/-! #### Latest -/

theorem jsonLatest_valid (l : pages.Latest) (h : l.Timestamp.Valid) :
    pages.jsonLatest l = some (.object (.cons (b "timestamp") (.string (timeText l.Timestamp))
      (.cons (b "user") (pages.jsonUser l.User) .nil))) := by
  simp [pages.jsonLatest, jsonTime_valid _ h]

theorem decodeLatest_json (l cur : pages.Latest) (h1 : l.Timestamp.Valid)
    (h2 : l.User.WellFormed) :
    pages.decodeLatest (.object (.cons (b "timestamp") (.string (timeText l.Timestamp))
      (.cons (b "user") (pages.jsonUser l.User) .nil))) cur = .ok l := by
  have k0 : foldKey (b "timestamp") = b "timestamp" := by decide
  have k1 : foldKey (b "user") = b "user" := by decide
  have n1_0 : b "user" ≠ b "timestamp" := by decide
  simp only [pages.decodeLatest, decodeStruct, storeMembers, k0, k1, n1_0, if_true,
    if_false, decodeTime_timeText _ _ h1, decodeUser_json _ _ h2, Except.map]

/-! #### Image -/

theorem decodeImage_json (i cur : pages.Image) (h : i.WellFormed) :
    ∃ v, pages.jsonImage i = some v ∧ wfValue v = true ∧ pages.decodeImage v cur = .ok i := by
  obtain ⟨h1, h2, h3, h4, h5, h6⟩ := h
  obtain ⟨d, hd, hdw, hdd⟩ := jsonAny_plain i.Duration h5
  simp only [pages.jsonImage, hd, Option.map_some']
  refine ⟨_, rfl, ?_, ?_⟩
  · have v0 : validString (b "mediatype") = true := by decide
    have v1 : validString (b "size") = true := by decide
    have v2 : validString (b "width") = true := by decide
    have v3 : validString (b "height") = true := by decide
    have v4 : validString (b "duration") = true := by decide
    have v5 : validString (b "url") = true := by decide
    simp only [wfValue_object_cons, wfValue_object_nil, wfValue_string, wfValue_jsonInt,
      wfValue_jsonUintPtr, h1, h6, hdw, v0, v1, v2, v3, v4, v5, Bool.and_self]
  have k0 : foldKey (b "mediatype") = b "mediatype" := by decide
  have k1 : foldKey (b "size") = b "size" := by decide
  have k2 : foldKey (b "width") = b "width" := by decide
  have k3 : foldKey (b "height") = b "height" := by decide
  have k4 : foldKey (b "duration") = b "duration" := by decide
  have k5 : foldKey (b "url") = b "url" := by decide
  have n1_0 : b "size" ≠ b "mediatype" := by decide
  have n2_0 : b "width" ≠ b "mediatype" := by decide
  have n2_1 : b "width" ≠ b "size" := by decide
  have n3_0 : b "height" ≠ b "mediatype" := by decide
  have n3_1 : b "height" ≠ b "size" := by decide
  have n3_2 : b "height" ≠ b "width" := by decide
  have n4_0 : b "duration" ≠ b "mediatype" := by decide
  have n4_1 : b "duration" ≠ b "size" := by decide
  have n4_2 : b "duration" ≠ b "width" := by decide
  have n4_3 : b "duration" ≠ b "height" := by decide
  have n5_0 : b "url" ≠ b "mediatype" := by decide
  have n5_1 : b "url" ≠ b "size" := by decide
  have n5_2 : b "url" ≠ b "width" := by decide
  have n5_3 : b "url" ≠ b "height" := by decide
  have n5_4 : b "url" ≠ b "duration" := by decide
  simp only [pages.decodeImage, decodeStruct, storeMembers, k0, k1, k2, k3, k4, k5, n1_0, n2_0, n2_1, n3_0, n3_1, n3_2, n4_0, n4_1, n4_2, n4_3, n5_0, n5_1, n5_2, n5_3, n5_4, if_true,
    if_false, decodeInt_json _ _ h3, decodeInt_json _ _ h4, decodeUintPtr_json _ _ h2, hdd,
    decodeString, Except.map]


theorem wfValue_latest (l : pages.Latest) (h2 : l.User.WellFormed) :
    wfValue (.object (.cons (b "timestamp") (.string (timeText l.Timestamp))
      (.cons (b "user") (pages.jsonUser l.User) .nil))) = true := by
  have v0 : validString (b "timestamp") = true := by decide
  have v1 : validString (b "user") = true := by decide
  simp only [wfValue_object_cons, wfValue_object_nil, wfValue_timeText, wfValue_jsonUser _ h2,
    v0, v1, Bool.and_self]

/-! #### File -/

theorem decodeFile_json (f cur : pages.File) (h : f.WellFormed) :
    ∃ v, pages.jsonFile f = some v ∧ wfValue v = true ∧ pages.decodeFile v cur = .ok f := by
  obtain ⟨h1, h2, h3, h4, h5, h6⟩ := h
  obtain ⟨p, hp, hpw, hpd⟩ := decodeImage_json f.Preferred cur.Preferred h5
  obtain ⟨o, ho, how, hod⟩ := decodeImage_json f.Original cur.Original h6
  simp only [pages.jsonFile, jsonLatest_valid _ h3, hp, ho]
  refine ⟨_, rfl, ?_, ?_⟩
  ·
    have v0 : validString (b "title") = true := by decide
    have v1 : validString (b "file_description_url") = true := by decide
    have v2 : validString (b "latest") = true := by decide
    have v3 : validString (b "preferred") = true := by decide
    have v4 : validString (b "original") = true := by decide
    simp only [wfValue_object_cons, wfValue_object_nil, wfValue_string, wfValue_latest _ h4,
      h1, h2, hpw, how, v0, v1, v2, v3, v4, Bool.and_self]
  have k0 : foldKey (b "title") = b "title" := by decide
  have k1 : foldKey (b "file_description_url") = b "file_description_url" := by decide
  have k2 : foldKey (b "latest") = b "latest" := by decide
  have k3 : foldKey (b "preferred") = b "preferred" := by decide
  have k4 : foldKey (b "original") = b "original" := by decide
  have n1_0 : b "file_description_url" ≠ b "title" := by decide
  have n2_0 : b "latest" ≠ b "title" := by decide
  have n2_1 : b "latest" ≠ b "file_description_url" := by decide
  have n3_0 : b "preferred" ≠ b "title" := by decide
  have n3_1 : b "preferred" ≠ b "file_description_url" := by decide
  have n3_2 : b "preferred" ≠ b "latest" := by decide
  have n4_0 : b "original" ≠ b "title" := by decide
  have n4_1 : b "original" ≠ b "file_description_url" := by decide
  have n4_2 : b "original" ≠ b "latest" := by decide
  have n4_3 : b "original" ≠ b "preferred" := by decide
  simp only [pages.decodeFile, decodeStruct, storeMembers, k0, k1, k2, k3, k4, n1_0, n2_0, n2_1, n3_0, n3_1, n3_2, n4_0, n4_1, n4_2, n4_3, if_true,
    if_false, decodeLatest_json _ _ h3 h4, hpd, hod, decodeString, Except.map]

/-- The trees of a list of well-formed file descriptors are stored back as the list. -/
theorem storeFiles_json (fs : List pages.File) (h : ∀ f ∈ fs, f.WellFormed) :
    ∃ xs, pages.jsonFiles fs = some xs ∧ wfElements xs = true ∧ pages.storeFiles xs = .ok fs := by
  induction fs with
  | nil => exact ⟨.nil, rfl, rfl, rfl⟩
  | cons f fs ih =>
    obtain ⟨xs, hxs, hw, hs⟩ := ih fun g hg => h g (List.mem_cons_of_mem _ hg)
    obtain ⟨v, hv, hvw, hvd⟩ := decodeFile_json f {} (h f (List.mem_cons_self _ _))
    refine ⟨.cons v xs, by simp only [pages.jsonFiles, hv, hxs], ?_, ?_⟩
    · simp only [wfElements, hvw, hw, Bool.and_self]
    · simp only [pages.storeFiles, hvd, hs]

theorem decodeFilesWrapper_json (fs : List pages.File) (h : ∀ f ∈ fs, f.WellFormed) :
    ∃ v, pages.jsonFilesWrapper { Files := fs } = some v ∧ wfValue v = true ∧
      pages.decodeFilesWrapper v {} = .ok { Files := fs } := by
  have v0 : validString (b "files") = true := by decide
  have k0 : foldKey (b "files") = b "files" := by decide
  by_cases hnil : fs = []
  · subst hnil
    refine ⟨_, rfl, by decide, by decide⟩
  · obtain ⟨xs, hxs, hw, hs⟩ := storeFiles_json fs h
    simp only [pages.jsonFilesWrapper, hnil, if_false, hxs, Option.map_some']
    refine ⟨_, rfl, ?_, ?_⟩
    · simp only [wfValue_object_cons, wfValue_object_nil, v0, wfValue_array, hw, Bool.and_self]
    · simp only [pages.decodeFilesWrapper, decodeStruct, storeMembers, k0, if_true,
        pages.decodeFiles, hs, Except.map]

/-- The body `Marshal` writes for well-formed file descriptors is decoded to them. -/
theorem unmarshalFiles_marshal (fs : List pages.File) (h : ∀ f ∈ fs, f.WellFormed) :
    ∃ enc, pages.marshalFilesWrapper { Files := fs } = some enc ∧
      refLib.UnmarshalFiles enc = .ok { Files := fs } := by
  obtain ⟨v, hv, hw, hd⟩ := decodeFilesWrapper_json fs h
  refine ⟨printValue v, by simp only [pages.marshalFilesWrapper, hv, Option.map_some'], ?_⟩
  show unmarshalWith pages.decodeFilesWrapper {} (printValue v) = _
  rw [unmarshalWith_printValue _ _ v hw, hd]

/-! #### GetPageResp -/

theorem decodeLatestPage_json (l cur : pages.LatestPage) (h1 : IsInt l.ID)
    (h2 : l.Timestamp.Valid) :
    pages.decodeLatestPage (.object (.cons (b "id") (jsonInt l.ID)
      (.cons (b "timestamp") (.string (timeText l.Timestamp)) .nil))) cur = .ok l := by
  have k0 : foldKey (b "id") = b "id" := by decide
  have k1 : foldKey (b "timestamp") = b "timestamp" := by decide
  have n1_0 : b "timestamp" ≠ b "id" := by decide
  simp only [pages.decodeLatestPage, decodeStruct, storeMembers, k0, k1, n1_0, if_true,
    if_false, decodeTime_timeText _ _ h2, decodeInt_json _ _ h1, Except.map]

theorem decodeLicense_json (l cur : pages.License) :
    pages.decodeLicense (pages.jsonLicense l) cur = .ok l := by
  have k0 : foldKey (b "url") = b "url" := by decide
  have k1 : foldKey (b "title") = b "title" := by decide
  have n1_0 : b "title" ≠ b "url" := by decide
  simp only [pages.decodeLicense, pages.jsonLicense, decodeStruct, storeMembers, k0, k1, n1_0,
    if_true, if_false, decodeString, Except.map]

theorem wfValue_jsonLicense (l : pages.License) (h1 : validString l.URL = true)
    (h2 : validString l.Title = true) : wfValue (pages.jsonLicense l) = true := by
  have v0 : validString (b "url") = true := by decide
  have v1 : validString (b "title") = true := by decide
  simp only [pages.jsonLicense, wfValue_object_cons, wfValue_object_nil, wfValue_string, h1, h2,
    v0, v1, Bool.and_self]

theorem decodeGetPageResp_json (r cur : pages.GetPageResp) (h : r.WellFormed) :
    ∃ v, pages.jsonGetPageResp r = some v ∧ wfValue v = true ∧
      pages.decodeGetPageResp v cur = .ok r := by
  obtain ⟨h1, h2, h3, h4, h5, h6, h7, h8, h9⟩ := h
  have hl : pages.jsonLatestPage r.Latest = some (.object (.cons (b "id") (jsonInt r.Latest.ID)
      (.cons (b "timestamp") (.string (timeText r.Latest.Timestamp)) .nil))) := by
    simp [pages.jsonLatestPage, jsonTime_valid _ h5]
  simp only [pages.jsonGetPageResp, hl, Option.map_some']
  refine ⟨_, rfl, ?_, ?_⟩
  ·
    have v0 : validString (b "id") = true := by decide
    have v1 : validString (b "key") = true := by decide
    have v2 : validString (b "title") = true := by decide
    have v3 : validString (b "latest") = true := by decide
    have v4 : validString (b "content_model") = true := by decide
    have v5 : validString (b "license") = true := by decide
    have v6 : validString (b "html_url") = true := by decide
    have v7 : validString (b "timestamp") = true := by decide
    simp only [wfValue_object_cons, wfValue_object_nil, wfValue_string, wfValue_jsonInt,
      validString_timeText, v7, wfValue_jsonLicense _ h7 h8, h2, h3, h6, h9, v0, v1, v2, v3, v4, v5, v6, Bool.and_self]
  have k0 : foldKey (b "id") = b "id" := by decide
  have k1 : foldKey (b "key") = b "key" := by decide
  have k2 : foldKey (b "title") = b "title" := by decide
  have k3 : foldKey (b "latest") = b "latest" := by decide
  have k4 : foldKey (b "content_model") = b "content_model" := by decide
  have k5 : foldKey (b "license") = b "license" := by decide
  have k6 : foldKey (b "html_url") = b "html_url" := by decide
  have n1_0 : b "key" ≠ b "id" := by decide
  have n2_0 : b "title" ≠ b "id" := by decide
  have n2_1 : b "title" ≠ b "key" := by decide
  have n3_0 : b "latest" ≠ b "id" := by decide
  have n3_1 : b "latest" ≠ b "key" := by decide
  have n3_2 : b "latest" ≠ b "title" := by decide
  have n4_0 : b "content_model" ≠ b "id" := by decide
  have n4_1 : b "content_model" ≠ b "key" := by decide
  have n4_2 : b "content_model" ≠ b "title" := by decide
  have n4_3 : b "content_model" ≠ b "latest" := by decide
  have n5_0 : b "license" ≠ b "id" := by decide
  have n5_1 : b "license" ≠ b "key" := by decide
  have n5_2 : b "license" ≠ b "title" := by decide
  have n5_3 : b "license" ≠ b "latest" := by decide
  have n5_4 : b "license" ≠ b "content_model" := by decide
  have n6_0 : b "html_url" ≠ b "id" := by decide
  have n6_1 : b "html_url" ≠ b "key" := by decide
  have n6_2 : b "html_url" ≠ b "title" := by decide
  have n6_3 : b "html_url" ≠ b "latest" := by decide
  have n6_4 : b "html_url" ≠ b "content_model" := by decide
  have n6_5 : b "html_url" ≠ b "license" := by decide
  simp only [pages.decodeGetPageResp, decodeStruct, storeMembers, k0, k1, k2, k3, k4, k5, k6, n1_0, n2_0, n2_1, n3_0, n3_1, n3_2, n4_0, n4_1, n4_2, n4_3, n5_0, n5_1, n5_2, n5_3, n5_4, n6_0, n6_1, n6_2, n6_3, n6_4, n6_5, if_true,
    if_false, decodeLatestPage_json _ _ h4 h5, decodeLicense_json, decodeInt_json _ _ h1,
    decodeString, Except.map]

/-- The body `Marshal` writes for a well-formed page descriptor is decoded to it. -/
theorem unmarshalPage_marshal (r : pages.GetPageResp) (h : r.WellFormed) :
    ∃ enc, pages.marshalGetPageResp r = some enc ∧ refLib.UnmarshalPage enc = .ok r := by
  obtain ⟨v, hv, hw, hd⟩ := decodeGetPageResp_json r {} h
  refine ⟨printValue v, by simp only [pages.marshalGetPageResp, hv, Option.map_some'], ?_⟩
  show unmarshalWith pages.decodeGetPageResp {} (printValue v) = _
  rw [unmarshalWith_printValue _ _ v hw, hd]

/-! #### MediawikiErr -/

theorem mapSet_new (k v : Bytes) (acc : List (Bytes × Bytes)) (h : k ∉ acc.map Prod.fst) :
    mapSet k v acc = acc ++ [(k, v)] := by
  induction acc with
  | nil => rfl
  | cons kv acc ih =>
    obtain ⟨k1, v1⟩ := kv
    simp only [List.map_cons, List.mem_cons, not_or] at h
    have hne : ¬ k1 = k := fun e => h.1 e.symm
    simp only [mapSet, hne, if_false, ih h.2, List.cons_append]

theorem storeStringMap_entries (l acc : List (Bytes × Bytes))
    (h : (acc.map Prod.fst ++ l.map Prod.fst).Nodup) :
    storeStringMap (jsonEntries l) acc = .ok (acc ++ l) := by
  induction l generalizing acc with
  | nil => simp [jsonEntries, storeStringMap]
  | cons kv l ih =>
    obtain ⟨k, v⟩ := kv
    have hk : k ∉ acc.map Prod.fst := by
      intro hmem
      rw [List.nodup_append] at h
      exact h.2.2 hmem (by simp)
    simp only [jsonEntries, storeStringMap, decodeString, mapSet_new k v acc hk]
    rw [ih (acc ++ [(k, v)]) (by simpa using h)]
    simp

theorem wfMembers_entries (l : List (Bytes × Bytes))
    (h : ∀ kv ∈ l, validString kv.1 = true ∧ validString kv.2 = true) :
    wfMembers (jsonEntries l) = true := by
  induction l with
  | nil => rfl
  | cons kv l ih =>
    obtain ⟨k, v⟩ := kv
    have hkv := h (k, v) (List.mem_cons_self _ _)
    simp only [jsonEntries, wfMembers, wfValue, hkv.1, hkv.2,
      ih fun x hx => h x (List.mem_cons_of_mem _ hx), Bool.and_self]

theorem decodeStringMap_json (l : List (Bytes × Bytes)) (h : KeyOrdered l)
    (hv : ∀ kv ∈ l, validString kv.1 = true ∧ validString kv.2 = true) :
    wfValue (jsonStringMap l) = true ∧ decodeStringMap (jsonStringMap l) [] = .ok l := by
  have hs : sortEntries l = l := List.Sorted.insertionSort_eq h.1
  by_cases hnil : l = []
  · subst hnil
    exact ⟨rfl, rfl⟩
  · simp only [jsonStringMap, hnil, if_false, hs, wfValue, decodeStringMap]
    refine ⟨wfMembers_entries l hv, ?_⟩
    rw [storeStringMap_entries l [] (by simpa using h.2)]
    simp

theorem decodeMediawikiErr_json (e : MediawikiErr) (h : e.WellFormed) :
    wfValue (jsonMediawikiErr e) = true ∧ decodeMediawikiErr (jsonMediawikiErr e) {} = .ok e := by
  obtain ⟨h1, h2, h3, h4⟩ := h
  obtain ⟨hmw, hmd⟩ := decodeStringMap_json e.MessageTranslations h4 h3
  constructor
  ·
    have v0 : validString (b "httpCode") = true := by decide
    have v1 : validString (b "httpReason") = true := by decide
    have v2 : validString (b "messageTranslations") = true := by decide
    simp only [jsonMediawikiErr, wfValue_object_cons, wfValue_object_nil, wfValue_string,
      wfValue_jsonInt, hmw, h2, v0, v1, v2, Bool.and_self]
  have k0 : foldKey (b "httpCode") = b "httpcode" := by decide
  have k1 : foldKey (b "httpReason") = b "httpreason" := by decide
  have k2 : foldKey (b "messageTranslations") = b "messagetranslations" := by decide
  have n1_0 : b "httpreason" ≠ b "httpcode" := by decide
  have n2_0 : b "messagetranslations" ≠ b "httpcode" := by decide
  have n2_1 : b "messagetranslations" ≠ b "httpreason" := by decide
  simp only [decodeMediawikiErr, jsonMediawikiErr, decodeStruct, storeMembers, k0, k1, k2, n1_0, n2_0, n2_1, if_true,
    if_false, decodeInt_json _ _ h1, hmd, decodeString, Except.map]

/-- The body `Marshal` writes for a well-formed error record is decoded to it. -/
theorem unmarshalErr_marshal (e : MediawikiErr) (h : e.WellFormed) :
    refLib.UnmarshalErr (marshalMediawikiErr e) = .ok e := by
  obtain ⟨hw, hd⟩ := decodeMediawikiErr_json e h
  show unmarshalWith decodeMediawikiErr {} (printValue (jsonMediawikiErr e)) = _
  rw [unmarshalWith_printValue _ _ _ hw, hd]

theorem builder_paths (core : Core) (h : core.BaseURL = []) :
    (pageBuilder Unit core).path refLib = .ok pagePath ∧
    (mediaBuilder Unit core).path refLib = .ok mediaPath := by
  simp only [pages.GetPage.path, pages.GetMedia.path, pageBuilder, mediaBuilder, h]
  decide

/-! ## The claims -/

/-- C1, the code at the failing input: the builder that
`Client.NewGetMediaReq("project", "lang", "title")` returns is a `GetPage`; it
requests the path ending in `bare`, not in `links/media`, and on a 2xx answer
that carries a `files` member it returns an empty page descriptor, whereas the
`GetMedia` builder with the same fields returns the decoded files. -/
theorem newGetMediaReq_resolves_page :
    ((NewClient (testCore 200 commonsBody)).Pages.NewGetMediaReq Unit
        (b "project") (b "lang") (b "title")).path refLib
      = .ok (b "core/v1/project/lang/page/title/bare") ∧
    (((NewClient (testCore 200 commonsBody)).Pages.NewGetMediaReq Unit
        (b "project") (b "lang") (b "title")).Resolve refLib (some {}) ()).1
      = .ok ({} : pages.GetPageResp) ∧
    (mediaBuilder Unit (testCore 200 commonsBody)).path refLib = .ok mediaPath ∧
    ((mediaBuilder Unit (testCore 200 commonsBody)).Resolve refLib (some {}) ()).1
      = .ok [commonsLogo] := by
  decide!

/-- C2, the code at the failing input: for the translations `en: a`, `fr: b`
and status 404, `Error()` returns `404: en:afr:b` or `404: fr:ben:a`, depending
on the order of the map iteration, where the claim has `404: en:a;fr:b` or
`404: fr:b;en:a`. -/
theorem error_drops_separator :
    MediawikiErr.Error
        { HTTPCode := 404, HTTPReason := b "Not Found",
          MessageTranslations := [(b "en", b "a"), (b "fr", b "b")] }
        [(b "en", b "a"), (b "fr", b "b")] = b "404: en:afr:b" ∧
    MediawikiErr.Error
        { HTTPCode := 404, HTTPReason := b "Not Found",
          MessageTranslations := [(b "en", b "a"), (b "fr", b "b")] }
        [(b "fr", b "b"), (b "en", b "a")] = b "404: fr:ben:a" ∧
    MediawikiErr.Error
        { HTTPCode := 404, HTTPReason := b "Not Found",
          MessageTranslations := [(b "en", b "a"), (b "fr", b "b")] }
        [(b "en", b "a"), (b "fr", b "b")] ≠ b "404: en:a;fr:b" ∧
    MediawikiErr.Error
        { HTTPCode := 404, HTTPReason := b "Not Found",
          MessageTranslations := [(b "en", b "a"), (b "fr", b "b")] }
        [(b "fr", b "b"), (b "en", b "a")] ≠ b "404: fr:b;en:a" := by
  decide

/-- C3, counterexample: with an empty base URL, project `p`, language `l` and
title `a b%2F`, the path built by `GetPage.Resolve` is
`core/v1/p/l/page/a%20b//bare` and the one built by `GetMedia.Resolve` is
`core/v1/p/l/page/a%20b//links/media`; both contain a doubled slash and an
empty segment.  (`path.Join` leaves `%2F` alone; `setPath` unescapes it to `/`;
the space makes the joined text an invalid raw path, so `String` escapes the
unescaped path again, in which the slash now stands.) -/
theorem path_doubled_slash :
    pages.GetPage.path refLib
        ({ a := testCore 200 [], Project := b "p", Language := b "l", Title := b "a b%2F" } :
          pages.GetPage Unit)
      = .ok (b "core/v1/p/l/page/a%20b//bare") ∧
    pages.GetMedia.path refLib
        ({ a := testCore 200 [], Project := b "p", Language := b "l", Title := b "a b%2F" } :
          pages.GetMedia Unit)
      = .ok (b "core/v1/p/l/page/a%20b//links/media") ∧
    [slash, slash] <:+: b "core/v1/p/l/page/a%20b//bare" ∧
    [slash, slash] <:+: b "core/v1/p/l/page/a%20b//links/media" ∧
    [] ∈ (b "core/v1/p/l/page/a%20b//bare").splitOn slash ∧
    [] ∈ (b "core/v1/p/l/page/a%20b//links/media").splitOn slash := by
  refine ⟨by decide, by decide, ⟨b "core/v1/p/l/page/a%20b", b "bare", by decide⟩,
    ⟨b "core/v1/p/l/page/a%20b", b "links/media", by decide⟩, by decide, by decide⟩

/-- C3, amended: under an empty base URL and for a project, language and
title that contain no `%`, the paths built by `GetPage.Resolve` and by
`GetMedia.Resolve` contain no doubled slash, do not end in a slash and have no
empty segment; with all three empty they are `core/v1/page/bare` and
`core/v1/page/links/media`, and with `project`, `lang`, `title` the media path
is `core/v1/project/lang/page/title/links/media`. -/
theorem paths_without_percent (lib : Lib) (hparse : lib.Parse [] = .ok {}) (σ : Type)
    (g : pages.GetPage σ) (m : pages.GetMedia σ)
    (hg : g.a.BaseURL = []) (hm : m.a.BaseURL = [])
    (hgp : percent ∉ g.Project) (hgl : percent ∉ g.Language) (hgt : percent ∉ g.Title)
    (hmp : percent ∉ m.Project) (hml : percent ∉ m.Language) (hmt : percent ∉ m.Title) :
    (∃ p, g.path lib = .ok p ∧
      ¬ [slash, slash] <:+: p ∧ p.getLast? ≠ some slash ∧ [] ∉ p.splitOn slash) ∧
    (∃ p, m.path lib = .ok p ∧
      ¬ [slash, slash] <:+: p ∧ p.getLast? ≠ some slash ∧ [] ∉ p.splitOn slash) ∧
    ({ g with Project := [], Language := [], Title := [] } : pages.GetPage σ).path lib
      = .ok (b "core/v1/page/bare") ∧
    ({ m with Project := [], Language := [], Title := [] } : pages.GetMedia σ).path lib
      = .ok (b "core/v1/page/links/media") ∧
    ({ m with Project := b "project", Language := b "lang", Title := b "title" } :
        pages.GetMedia σ).path lib
      = .ok (b "core/v1/project/lang/page/title/links/media") := by
  refine ⟨?_, ?_, ?_, ?_, ?_⟩
  · simp only [pages.GetPage.path, hg]
    exact resolve_path_segments lib.Parse hparse g.Project g.Language g.Title (b "bare") []
      (b "bare") (by decide) (by decide) ⟨by decide, by decide⟩ (by decide) (by decide)
      (by decide) (by decide) hgp hgl hgt
  · simp only [pages.GetMedia.path, hm]
    exact resolve_path_segments lib.Parse hparse m.Project m.Language m.Title (b "links/media")
      (slash :: b "links") (b "media") (by decide) (by decide) ⟨by decide, by decide⟩
      (by decide) (by decide) (by decide) (by decide) hmp hml hmt
  · simp only [pages.GetPage.path, hg, JoinPath, hparse]
    decide
  · simp only [pages.GetMedia.path, hm, JoinPath, hparse]
    decide
  · simp only [pages.GetMedia.path, hm, JoinPath, hparse]
    decide

/-- C3, witness: the English Wikipedia article `Earth`. -/
theorem paths_without_percent_witness :
    (∃ p, (pages.GetPage.path refLib
        ({ a := testCore 200 [], Project := b "wikipedia", Language := b "en",
           Title := b "Earth" } : pages.GetPage Unit)) = .ok p ∧
      ¬ [slash, slash] <:+: p ∧ p.getLast? ≠ some slash ∧ [] ∉ p.splitOn slash) ∧
    (∃ p, (pages.GetMedia.path refLib
        ({ a := testCore 200 [], Project := b "wikipedia", Language := b "en",
           Title := b "Earth" } : pages.GetMedia Unit)) = .ok p ∧
      ¬ [slash, slash] <:+: p ∧ p.getLast? ≠ some slash ∧ [] ∉ p.splitOn slash) :=
  let h := paths_without_percent refLib (by decide) Unit
    { a := testCore 200 [], Project := b "wikipedia", Language := b "en", Title := b "Earth" }
    { a := testCore 200 [], Project := b "wikipedia", Language := b "en", Title := b "Earth" }
    rfl rfl (by decide) (by decide) (by decide) (by decide) (by decide) (by decide)
  ⟨h.1, h.2.1⟩

/-- C4: when the transport delivers a response with status `s` whose body
`body` was read in full, `Core.Do` returns the body without error exactly when
`200 ≤ s < 300`, the bytes returned are then the body itself, and for every
other status, 199 and 300 among them, it returns no bytes and an error. -/
theorem do_ok_iff_2xx (lib : Lib) (c : Core) (req : Request) (s : Int) (body : Bytes)
    (h : c.HTTPClient.Do req = .ok { StatusCode := s, Body := .ok body }) :
    ((∃ buf, c.Do lib req = .ok buf) ↔ (200 ≤ s ∧ s < 300)) ∧
    ((200 ≤ s ∧ s < 300) → c.Do lib req = .ok body) ∧
    (¬ (200 ≤ s ∧ s < 300) → ∃ err, c.Do lib req = .error err) ∧
    ((s = 199 ∨ s = 300) → ∃ err, c.Do lib req = .error err) := by
  have hdo := do_of_response lib c req s body h
  have hbad : ¬ (200 ≤ s ∧ s < 300) → ∃ err, c.Do lib req = .error err := by
    intro hs
    rw [hdo, if_neg hs]
    cases lib.UnmarshalErr body with
    | error e => exact ⟨_, rfl⟩
    | ok x => exact ⟨_, rfl⟩
  refine ⟨⟨?_, ?_⟩, ?_, hbad, ?_⟩
  · rintro ⟨buf, hbuf⟩
    by_contra hs
    obtain ⟨err, herr⟩ := hbad hs
    rw [herr] at hbuf
    cases hbuf
  · intro hs
    exact ⟨body, by rw [hdo, if_pos hs]⟩
  · intro hs
    rw [hdo, if_pos hs]
  · intro hs
    apply hbad
    rcases hs with rfl | rfl <;> decide

/-- C4, witness: the statuses 199, 200 and 300 in front of the body `ok`. -/
theorem do_ok_iff_2xx_witness :
    (∃ err, (testCore 199 (b "ok")).Do refLib mediaRequest = .error err) ∧
    (testCore 200 (b "ok")).Do refLib mediaRequest = .ok (b "ok") ∧
    (∃ err, (testCore 300 (b "ok")).Do refLib mediaRequest = .error err) :=
  ⟨(do_ok_iff_2xx refLib (testCore 199 (b "ok")) mediaRequest 199 (b "ok") rfl).2.2.2
      (Or.inl rfl),
   (do_ok_iff_2xx refLib (testCore 200 (b "ok")) mediaRequest 200 (b "ok") rfl).2.1
      (by decide),
   (do_ok_iff_2xx refLib (testCore 300 (b "ok")) mediaRequest 300 (b "ok") rfl).2.2.2
      (Or.inr rfl)⟩

/-- C6: when a response with a status outside `[200, 300)` carries a body that
fails to decode as the error record, with parse failure `e`, `Core.Do` returns
no bytes and the error that wraps `e` under the note
`server did not return valid JSON`; that error is not a `*MediawikiErr`, the
`Is` method of no API error accepts it, and `errors.Is` does not match it
against any API error. -/
theorem do_undecodable_error_body (lib : Lib) (c : Core) (req : Request) (s : Int)
    (body : Bytes) (e : JsonErr)
    (h : c.HTTPClient.Do req = .ok { StatusCode := s, Body := .ok body })
    (hs : ¬ (200 ≤ s ∧ s < 300)) (he : lib.UnmarshalErr body = .error e) :
    ∃ err, c.Do lib req = .error err ∧
      err = .wrap "server did not return valid JSON" (.json e) ∧
      (∀ x : MediawikiErr, err ≠ .mediawiki x) ∧
      (∀ a : MediawikiErr, a.Is (some err) = false) ∧
      (∀ x : MediawikiErr, errorsIs err (.mediawiki x) = false) := by
  refine ⟨.wrap "server did not return valid JSON" (.json e), ?_, rfl, ?_, ?_, ?_⟩
  · rw [do_of_response lib c req s body h, if_neg hs, he]
  · intro x hx
    cases hx
  · intro a
    rfl
  · intro x
    rfl

/-- C6, witness: status 500 in front of the body `not json`. -/
theorem do_undecodable_error_body_witness :
    ∃ err, (testCore 500 (b "not json")).Do refLib mediaRequest = .error err ∧
      err = .wrap "server did not return valid JSON" (.json .SyntaxError) ∧
      (∀ x : MediawikiErr, err ≠ .mediawiki x) ∧
      (∀ a : MediawikiErr, a.Is (some err) = false) ∧
      (∀ x : MediawikiErr, errorsIs err (.mediawiki x) = false) :=
  do_undecodable_error_body refLib (testCore 500 (b "not json")) mediaRequest 500 (b "not json")
    .SyntaxError rfl (by decide) (by decide)

/-- C7, counterexample: on status 200 with the body `not json`,
`GetPage.Resolve` and `GetMedia.Resolve` return the bare `*json.SyntaxError`;
the error is not wrapped under the note `server did not return valid JSON`
(nor under any other note). -/
theorem resolve_decode_error_bare :
    ((pageBuilder Unit (testCore 200 (b "not json"))).Resolve refLib (some {}) ()).1
      = .error (.json .SyntaxError) ∧
    ((mediaBuilder Unit (testCore 200 (b "not json"))).Resolve refLib (some {}) ()).1
      = .error (.json .SyntaxError) ∧
    (∀ inner : GoError,
      ((pageBuilder Unit (testCore 200 (b "not json"))).Resolve refLib (some {}) ()).1
        ≠ .error (.wrap "server did not return valid JSON" inner)) ∧
    (∀ inner : GoError,
      ((mediaBuilder Unit (testCore 200 (b "not json"))).Resolve refLib (some {}) ()).1
        ≠ .error (.wrap "server did not return valid JSON" inner)) := by
  have h1 : ((pageBuilder Unit (testCore 200 (b "not json"))).Resolve refLib (some {}) ()).1
      = .error (.json .SyntaxError) := by decide
  have h2 : ((mediaBuilder Unit (testCore 200 (b "not json"))).Resolve refLib (some {}) ()).1
      = .error (.json .SyntaxError) := by decide
  refine ⟨h1, h2, ?_, ?_⟩
  · intro inner hw
    rw [h1] at hw
    cases hw
  · intro inner hw
    rw [h2] at hw
    cases hw

/-- C7, amended: when a response with a status in `[200, 300)` carries a body
that fails to decode as the expected shape, with parse failure `e`,
`GetPage.Resolve` and `GetMedia.Resolve` return `e` itself, unwrapped, and no
result. -/
theorem resolve_decode_error_unwrapped (lib : Lib) (s : Int) (body : Bytes)
    (hs : 200 ≤ s ∧ s < 300) :
    (∀ (σ : Type) (g : pages.GetPage σ) (ctx : Option Context) (st : σ) (p : Bytes)
        (req0 : Request) (e : JsonErr),
      g.path lib = .ok p → NewRequestWithContext lib.Parse ctx MethodGet p = .ok req0 →
      g.a.HTTPClient.Do (pages.applyOpts g.opts req0 st).1
        = .ok { StatusCode := s, Body := .ok body } →
      lib.UnmarshalPage body = .error e →
      (g.Resolve lib ctx st).1 = .error (.json e)) ∧
    (∀ (σ : Type) (g : pages.GetMedia σ) (ctx : Option Context) (st : σ) (p : Bytes)
        (req0 : Request) (e : JsonErr),
      g.path lib = .ok p → NewRequestWithContext lib.Parse ctx MethodGet p = .ok req0 →
      g.a.HTTPClient.Do (pages.applyOpts g.opts req0 st).1
        = .ok { StatusCode := s, Body := .ok body } →
      lib.UnmarshalFiles body = .error e →
      (g.Resolve lib ctx st).1 = .error (.json e)) := by
  have hdo : ∀ (c : Core) (req : Request),
      c.HTTPClient.Do req = .ok { StatusCode := s, Body := .ok body } →
      c.Do lib req = .ok body := by
    intro c req h
    rw [do_of_response lib c req s body h, if_pos hs]
  constructor
  · intro σ g ctx st p req0 e hp hr ht he
    rw [resolve_page_eq lib g ctx st p req0 hp hr, hdo _ _ ht]
    simp only [he]
  · intro σ g ctx st p req0 e hp hr ht he
    rw [resolve_media_eq lib g ctx st p req0 hp hr, hdo _ _ ht]
    simp only [he]

/-- C7, witness: status 200 in front of a JSON text of the wrong shape, the
string `"x"` where an object is expected. -/
theorem resolve_decode_error_unwrapped_witness :
    ((pageBuilder Unit (testCore 200 (b "\"x\""))).Resolve refLib (some {}) ()).1
      = .error (.json .UnmarshalTypeError) ∧
    ((mediaBuilder Unit (testCore 200 (b "\"x\""))).Resolve refLib (some {}) ()).1
      = .error (.json .UnmarshalTypeError) :=
  let h := resolve_decode_error_unwrapped refLib 200 (b "\"x\"") (by decide)
  ⟨h.1 Unit (pageBuilder Unit (testCore 200 (b "\"x\""))) (some {}) () pagePath pageRequest
      .UnmarshalTypeError (by decide) (by decide) rfl (by decide),
   h.2 Unit (mediaBuilder Unit (testCore 200 (b "\"x\""))) (some {}) () mediaPath mediaRequest
      .UnmarshalTypeError (by decide) (by decide) rfl (by decide)⟩

/-- C8: after `WithOpts(A...)` followed by `WithOpts(B...)` the builder holds
the callbacks `B`, and `Resolve` hands to the transport the base GET request
`req0` after the callbacks of `B` have been applied to it from left to right,
each once; nothing of `A` takes part. -/
theorem withOpts_last_wins (lib : Lib) (σ : Type) (A B : List (pages.Opt σ))
    (ctx : Option Context) (st : σ) (p : Bytes) (req0 : Request)
    (hr : NewRequestWithContext lib.Parse ctx MethodGet p = .ok req0) :
    (∀ g : pages.GetPage σ, g.path lib = .ok p →
      ((g.WithOpts A).WithOpts B).opts = B ∧
      ((g.WithOpts A).WithOpts B).Resolve lib ctx st =
        ((match g.a.Do lib (B.foldl (fun rs opt => opt rs.1 rs.2) (req0, st)).1 with
          | .error err => .error err
          | .ok buf =>
            match lib.UnmarshalPage buf with
            | .error err => .error (.json err)
            | .ok getResp => .ok getResp),
         (B.foldl (fun rs opt => opt rs.1 rs.2) (req0, st)).2)) ∧
    (∀ g : pages.GetMedia σ, g.path lib = .ok p →
      ((g.WithOpts A).WithOpts B).opts = B ∧
      ((g.WithOpts A).WithOpts B).Resolve lib ctx st =
        ((match g.a.Do lib (B.foldl (fun rs opt => opt rs.1 rs.2) (req0, st)).1 with
          | .error err => .error err
          | .ok buf =>
            match lib.UnmarshalFiles buf with
            | .error err => .error (.json err)
            | .ok getResp => .ok getResp.Files),
         (B.foldl (fun rs opt => opt rs.1 rs.2) (req0, st)).2)) := by
  constructor
  · intro g hp
    refine ⟨rfl, ?_⟩
    rw [resolve_page_eq lib ((g.WithOpts A).WithOpts B) ctx st p req0 hp hr]
    simp only [pages.GetPage.WithOpts, applyOpts_eq_foldl]
  · intro g hp
    refine ⟨rfl, ?_⟩
    rw [resolve_media_eq lib ((g.WithOpts A).WithOpts B) ctx st p req0 hp hr]
    simp only [pages.GetMedia.WithOpts, applyOpts_eq_foldl]

/-- C8, witness: the first registration logs 1 and sets a header, the second
logs 2 and then 3; after `Resolve` the log reads 2, 3. -/
theorem withOpts_last_wins_witness :
    ((((mediaBuilder (List Nat) (testCore 200 commonsBody)).WithOpts
          [logOpt 1, headerOpt (b "X-A") (b "1")]).WithOpts [logOpt 2, logOpt 3]).Resolve
        refLib (some {}) []) = (.ok [commonsLogo], [2, 3]) := by
  rw [((withOpts_last_wins refLib (List Nat) [logOpt 1, headerOpt (b "X-A") (b "1")]
      [logOpt 2, logOpt 3] (some {}) [] mediaPath mediaRequest (by decide)).2
      (mediaBuilder (List Nat) (testCore 200 commonsBody)) (by decide)).2]
  decide!

/-- C10: for an API error `a` and an error value `x` (possibly nil), `a.Is(x)`
holds exactly when `x` is a `*MediawikiErr`; the answer is the same for every
receiver, and any two API errors match each other whatever their fields. -/
theorem is_iff_mediawiki (a : MediawikiErr) (x : Option GoError) :
    (a.Is x = true ↔ ∃ y : MediawikiErr, x = some (.mediawiki y)) ∧
    (∀ a1 : MediawikiErr, a1.Is x = a.Is x) ∧
    (∀ y1 y2 : MediawikiErr, a.Is (some (.mediawiki y1)) = a.Is (some (.mediawiki y2))) ∧
    (∀ y : MediawikiErr, a.Is (some (.mediawiki y)) = true ∧ y.Is (some (.mediawiki a)) = true) := by
  refine ⟨⟨?_, ?_⟩, fun _ => rfl, fun _ _ => rfl, fun _ => ⟨rfl, rfl⟩⟩
  · intro h
    match x, h with
    | some (.mediawiki y), _ => exact ⟨y, rfl⟩
  · rintro ⟨y, rfl⟩
    rfl


end Wikimedia
